import Mathlib

/-!
# gfGen: addition table of GF(2^m)

Shallow embedding of `gfGen.go`.  Go's `uint`/`int` are the 64-bit ones; a
`map[uint]uint` is an association list that is walked in list order; slices
are lists whose indexing is checked; a run either returns, panics, or does
not finish.
-/

namespace GfGen

/-! ## Machine integers -/

/-- Number of values of Go's `uint` on a 64-bit target: 2^64. -/
def uintSize : Nat := 18446744073709551616

/-- The constant `math.MaxUint`: 2^64 - 1. -/
def maxUint : Nat := 18446744073709551615

/-- Largest value of Go's `int` on a 64-bit target: 2^63 - 1. -/
def maxInt : Nat := 9223372036854775807

/-- Subtraction `a - b` of two `uint` values, wrapping around below zero. -/
def uintSub (a b : Nat) : Nat := if b ≤ a then a - b else uintSize - (b - a)

/-- The conversion `int(u)` of a `uint` value (two's complement). -/
def toInt (u : Nat) : Int := if u ≤ maxInt then (u : Int) else (u : Int) - (uintSize : Int)

/-! ## Outcomes of a run -/

/-- The errors of the package: the two `fmt.Errorf` of `intPow` and the one of `gfFindExpByPoly`. -/
inductive GfError where
  | baseZero
  | invalidFieldSize
  | polynomialNotFound
deriving DecidableEq, Repr

/-- Outcome of running a piece of the program: it returns a value, it stops with a
run-time panic (index out of range, `makeslice: len out of range`), or it does not
finish (a loop that never exits, or the step budget of the model ran out). -/
inductive Exec (α : Type) where
  | ret (a : α)
  | panic
  | diverge
deriving DecidableEq, Repr

/-- Sequencing of two runs. -/
def Exec.bind {α β : Type} (x : Exec α) (f : α → Exec β) : Exec β :=
  match x with
  | .ret a => f a
  | .panic => .panic
  | .diverge => .diverge

/-- The loop `for i := start; i < start + count; i++ { body }`, without early exit. -/
def forLoop {σ : Type} (body : Nat → σ → Exec σ) : Nat → Nat → σ → Exec σ
  | 0, _, s => .ret s
  | c + 1, i, s => (body i s).bind (fun s1 => forLoop body c (i + 1) s1)

/-- The loop `for i := start; i < start + count; i++ { body }` whose body may leave the
function early: the body yields the new state and, on an early `return`, the returned value. -/
def forLoopBrk {σ ρ : Type} (body : Nat → σ → Exec (σ × Option ρ)) :
    Nat → Nat → σ → Exec (σ × Option ρ)
  | 0, _, s => .ret (s, none)
  | c + 1, i, s =>
    (body i s).bind (fun r =>
      match r with
      | (s1, none) => forLoopBrk body c (i + 1) s1
      | (s1, some v) => .ret (s1, some v))

/-- The constant `maxAlloc` of the Go runtime on a 64-bit platform with 48 address bits
(linux/amd64): `1 << 48`, the largest size in bytes `makeslice` accepts. -/
def maxAlloc : Nat := 281474976710656

/-- The allocation `make([]T, n)` for a `uint` length `n` and elements of `elemSize` bytes:
a slice of `n` zero values, or the panic `makeslice: len out of range` of the runtime's
`makeslice`, raised when `n` does not fit an `int` or when `n * elemSize` exceeds `maxAlloc`.
On a 64-bit platform a slice header `[]int` takes 24 bytes, an `int` 8 bytes and a map value
such as `GfPoly` 8 bytes.  Running out of memory below `maxAlloc` is not modelled. -/
def makeSlice {α : Type} (elemSize n : Nat) (zero : α) : Exec (List α) :=
  if n ≤ maxInt ∧ n * elemSize ≤ maxAlloc then .ret (List.replicate n zero) else .panic

/-! ## Polynomials: `type GfPoly map[uint]uint` -/

/-- A polynomial: the entries `(degree, coefficient)` of the Go map. -/
abbrev GfPoly := List (Nat × Nat)

namespace GfPoly

/-- The second result of `_, exist := p[d]`: is `d` a key of the map. -/
def has (p : GfPoly) (d : Nat) : Bool := (p.lookup d).isSome

/-- The value of `p[d]`: 0 for a missing key. -/
def coef (p : GfPoly) (d : Nat) : Nat := (p.lookup d).getD 0

/-- The assignment `p[d] = c`. -/
def set : GfPoly → Nat → Nat → GfPoly
  | [], d, c => [(d, c)]
  | (k, v) :: rest, d, c => if k = d then (k, c) :: rest else (k, v) :: set rest d c

/-- The loop `for deg, coef := range p { if coef == 0 { delete(p, deg) } }`. -/
def prune (p : GfPoly) : GfPoly := p.filter (fun e => e.2 != 0)

/-- The loop `for k := range src { dst[k] = src[k] }` into an empty map, which is also the
loop `for deg, coef := range src { dst[deg] = coef }`: in a map the value met at the key `deg`
is `src[deg]`. -/
def copy (src : GfPoly) : GfPoly :=
  src.foldl (fun (dst : GfPoly) e => dst.set e.1 (src.coef e.1)) []

/-- The keys of the map are pairwise different, as in every Go map. -/
def WF (p : GfPoly) : Prop := (p.map Prod.fst).Nodup

/-- Canonical sparse form: a well-formed map all of whose stored coefficients are 1. -/
def Canonical (p : GfPoly) : Prop := (p.map Prod.fst).Nodup ∧ ∀ e ∈ p, e.2 = 1

instance (p : GfPoly) : Decidable p.WF := by unfold WF; infer_instance

instance (p : GfPoly) : Decidable p.Canonical := by unfold Canonical; infer_instance

end GfPoly

/-- The struct `GaloisField`. -/
structure GaloisField where
  m : Nat
  priPoly : GfPoly
  fieldSize : Nat
  addTable : List (List Int)
deriving DecidableEq, Repr

/-! ## Polynomial arithmetic -/

/-- The function `gfBinaryPolyMulti`: every pair of terms adds `coef1*coef2` into the entry of
degree `deg1+deg2` modulo 2, then the zero entries are deleted. -/
def gfBinaryPolyMulti (p1 p2 : GfPoly) : GfPoly :=
  GfPoly.prune (p1.foldl (fun (r1 : GfPoly) e1 =>
    p2.foldl (fun (r : GfPoly) e2 =>
      r.set ((e1.1 + e2.1) % uintSize)
        (((r.coef ((e1.1 + e2.1) % uintSize) + (e1.2 * e2.2) % uintSize) % uintSize) % 2)) r1)
    [])

/-- The function `gfBinaryPolyAdd` for `gf.m = m`: every degree `0..m` gets 0 when it is a key
of both operands or of none and 1 otherwise, then the zero entries are deleted.  For
`m = math.MaxUint` the condition `deg <= gf.m` never fails and the loop does not exit. -/
def gfBinaryPolyAdd (m : Nat) (p1 p2 : GfPoly) : Exec GfPoly :=
  if m < maxUint then
    .ret (GfPoly.prune ((List.range (m + 1)).foldl
      (fun (r : GfPoly) deg => r.set deg (if p1.has deg = p2.has deg then 0 else 1)) []))
  else .diverge

/-- The map built by the two loops of `gfBinaryPolyAdd` once the first one has exited. -/
def addPoly (m : Nat) (p1 p2 : GfPoly) : GfPoly :=
  GfPoly.prune ((List.range (m + 1)).foldl
    (fun (r : GfPoly) deg => r.set deg (if p1.has deg = p2.has deg then 0 else 1)) [])

/-- The keys of `p` among the degrees `0..m`. -/
def sig (m : Nat) (p : GfPoly) : Finset Nat :=
  (Finset.range (m + 1)).filter (fun d => p.has d = true)

/-- The function `gfFindMaxDeg`: the largest key, 0 for the empty map. -/
def gfFindMaxDeg (poly : GfPoly) : Nat :=
  poly.foldl (fun maxDeg e => if e.1 > maxDeg then e.1 else maxDeg) 0

/-- The `for { ... }` loop of `gfBinaryPolyMod`, run for at most `fuel` rounds. -/
def gfBinaryPolyModLoop (m : Nat) (p2 : GfPoly) (maxDegP2 : Nat) : Nat → GfPoly → Exec GfPoly
  | 0, _ => .diverge
  | fuel + 1, returnPoly =>
    if gfFindMaxDeg returnPoly < maxDegP2 then .ret returnPoly
    else
      (gfBinaryPolyAdd m returnPoly
          (gfBinaryPolyMulti p2 [(gfFindMaxDeg returnPoly - maxDegP2, 1)])).bind
        (fun tempSubtResult => gfBinaryPolyModLoop m p2 maxDegP2 fuel tempSubtResult.copy)

/-- The function `gfBinaryPolyMod` for `gf.m = m`: long division of `p1` by `p2`. -/
def gfBinaryPolyMod (fuel : Nat) (m : Nat) (p1 p2 : GfPoly) : Exec GfPoly :=
  gfBinaryPolyModLoop m p2 (gfFindMaxDeg p2) fuel p1.copy

/-! ## The tables -/

/-- Body of the first loop of `gfConstructExp2BinPoly`: `(*exp2BinPoly)[exp][exp] = 1`. -/
def trivialCase (exp : Nat) (t : List GfPoly) : Exec (List GfPoly) :=
  match t[exp]? with
  | some p => .ret (t.set exp (p.set exp 1))
  | none => .panic

/-- Body of the second loop of `gfConstructExp2BinPoly`: the entry `exp` becomes the entry
`exp-1` times `x`, reduced modulo `priPoly`. -/
def otherCase (fuel : Nat) (gf : GaloisField) (exp : Nat) (t : List GfPoly) :
    Exec (List GfPoly) :=
  match t[uintSub exp 1]? with
  | none => .panic
  | some prev =>
    (gfBinaryPolyMod fuel gf.m (gfBinaryPolyMulti prev [(1, 1)]) gf.priPoly).bind
      (fun r => if exp < t.length then .ret (t.set exp r) else .panic)

/-- The function `gfConstructExp2BinPoly`: fills the exponent table in place. -/
def gfConstructExp2BinPoly (fuel : Nat) (gf : GaloisField) (exp2BinPoly : List GfPoly) :
    Exec (List GfPoly) :=
  (forLoop trivialCase gf.m 0 exp2BinPoly).bind
    (fun t1 => forLoop (otherCase fuel gf) (uintSub gf.fieldSize 1 - gf.m) gf.m t1)

/-- The inner loop of `gfFindExpByPoly`: do `p` and `q` have the same keys among `0..m`. -/
def samePresence (m : Nat) (p q : GfPoly) : Bool :=
  (List.range (m + 1)).all (fun deg => p.has deg = q.has deg)

/-- Body of the outer loop of `gfFindExpByPoly`: the candidate `exp` is returned when it has
the keys of `poly` among the degrees `0..m`.  For `m = math.MaxUint` the inner loop over a
matching candidate does not exit. -/
def tryCandidate (gf : GaloisField) (poly : GfPoly) (exp2BinPoly : List GfPoly)
    (exp : Nat) (_ : Unit) : Exec (Unit × Option Nat) :=
  match exp2BinPoly[exp]? with
  | none => .panic
  | some cand =>
    if samePresence gf.m poly cand then
      (if gf.m < maxUint then .ret ((), some exp) else .diverge)
    else .ret ((), none)

/-- The function `gfFindExpByPoly`: the first exponent whose table entry has the keys of `poly`
among the degrees `0..m`, or the error when there is none. -/
def gfFindExpByPoly (gf : GaloisField) (poly : GfPoly) (exp2BinPoly : List GfPoly) :
    Exec (Nat × Option GfError) :=
  (forLoopBrk (tryCandidate gf poly exp2BinPoly) (uintSub gf.fieldSize 1) 0 ()).bind
    (fun r =>
      match r with
      | (_, some exp) => .ret (exp, none)
      | (_, none) => .ret (0, some GfError.polynomialNotFound))

/-- The assignment `addTable[i][j] = v`. -/
def writeCell (addTable : List (List Int)) (i j : Nat) (v : Int) :
    Exec (List (List Int) × Option GfError) :=
  match addTable[i]? with
  | none => .panic
  | some row => if j < row.length then .ret (addTable.set i (row.set j v), none) else .panic

/-- End of the body of the inner loop of `gfConstructAddTable`: the error of the lookup is
returned, or the exponent found is stored. -/
def storeLookup (tbl : List (List Int)) (exp1 exp2 : Nat) (r : Nat × Option GfError) :
    Exec (List (List Int) × Option GfError) :=
  match r with
  | (_, some err) => .ret (tbl, some err)
  | (resultExp, none) => writeCell tbl exp1 exp2 (toInt resultExp)

/-- Body of the inner loop of `gfConstructAddTable`: the cell `[exp1][exp2]`. -/
def fillCell (gf : GaloisField) (exp2BinPoly : List GfPoly) (exp1 exp2 : Nat)
    (tbl : List (List Int)) : Exec (List (List Int) × Option GfError) :=
  if exp1 = exp2 then writeCell tbl exp1 exp2 (-1)
  else
    match exp2BinPoly[exp1]?, exp2BinPoly[exp2]? with
    | some a, some b =>
      (gfBinaryPolyAdd gf.m a b).bind (fun resultPoly =>
        (gfFindExpByPoly gf resultPoly exp2BinPoly).bind (storeLookup tbl exp1 exp2))
    | _, _ => .panic

/-- Body of the outer loop of `gfConstructAddTable`: the row `exp1`. -/
def fillRow (gf : GaloisField) (exp2BinPoly : List GfPoly) (exp1 : Nat)
    (tbl : List (List Int)) : Exec (List (List Int) × Option GfError) :=
  forLoopBrk (fillCell gf exp2BinPoly exp1) (uintSub gf.fieldSize 1) 0 tbl

/-- The function `gfConstructAddTable`: writes the cells of `gf.addTable` row by row and
returns at the first failed lookup. -/
def gfConstructAddTable (gf : GaloisField) (exp2BinPoly : List GfPoly) :
    Exec (GaloisField × Option GfError) :=
  (forLoopBrk (fillRow gf exp2BinPoly) (uintSub gf.fieldSize 1) 0 gf.addTable).bind
    (fun r => .ret ({ gf with addTable := r.1 }, r.2))

/-- The `for iter := uint(1); iter < exp; iter++` loop of `intPow`: `count` rounds are left,
`dummyMult` is multiplied by `base` with wrap-around in each. -/
def intPowLoop (base exp : Nat) : Nat → Nat → Nat → Nat × Option GfError
  | 0, _, dummyMult => (dummyMult, none)
  | count + 1, iter, dummyMult =>
    if (dummyMult * base) % uintSize > maxUint / base ∧ iter < exp - 1 then
      (0, some GfError.invalidFieldSize)
    else intPowLoop base exp count (iter + 1) ((dummyMult * base) % uintSize)

/-- The function `intPow`: the returned value and error. -/
def intPow (base exp : Nat) : Nat × Option GfError :=
  if base = 0 then (0, some GfError.baseZero)
  else intPowLoop base exp (exp - 1) 1 base

/-- Body of the loop `for ind := range gf.addTable` of `GfConstructGaloisField`:
`gf.addTable[ind] = make([]int, gf.fieldSize-1)`. -/
def allocRow (n : Nat) (ind : Nat) (rows : List (List Int)) : Exec (List (List Int)) :=
  (makeSlice 8 n (0 : Int)).bind (fun row =>
    if ind < rows.length then .ret (rows.set ind row) else .panic)

/-- The method `GfConstructGaloisField`: the state of the receiver after the call and the
returned error. -/
def GfConstructGaloisField (fuel : Nat) (gf : GaloisField) (inputExponent : Nat)
    (inputPriPoly : GfPoly) : Exec (GaloisField × Option GfError) :=
  let gf1 : GaloisField :=
    { gf with m := inputExponent, priPoly := inputPriPoly,
              fieldSize := (intPow 2 inputExponent).1 }
  (makeSlice 24 (uintSub gf1.fieldSize 1) ([] : List Int)).bind (fun rows0 =>
    (forLoop (allocRow (uintSub gf1.fieldSize 1)) rows0.length 0 rows0).bind (fun rows =>
      let gf2 : GaloisField := { gf1 with addTable := rows }
      match (intPow 2 inputExponent).2 with
      | none =>
        (makeSlice 8 (uintSub gf2.fieldSize 1) ([] : GfPoly)).bind (fun exp2BinPoly =>
          (gfConstructExp2BinPoly fuel gf2 exp2BinPoly).bind (fun t =>
            gfConstructAddTable gf2 t))
      | some gfErr => .ret (gf2, some gfErr)))

/-- The method `GfAdditionOfTwoExponents`. -/
def GfAdditionOfTwoExponents (gf : GaloisField) (exp1 exp2 : Nat) : Exec Int :=
  match gf.addTable[exp1]? with
  | none => .panic
  | some row =>
    match row[exp2]? with
    | none => .panic
    | some v => .ret v

/-! ## Predicates on the addition table -/

/-- The cell `[i][j]` of a table, 0 outside of it. -/
def cellOf (A : List (List Int)) (i j : Nat) : Int := (A.getD i []).getD j 0

/-- The cell `[i][j]` of `A` holds what `gfConstructAddTable` computes for it: the sentinel on
the diagonal, and elsewhere the exponent that the lookup of the sum of the entries `i` and `j`
of the exponent table `t` returns. -/
def CellDone (gf : GaloisField) (t : List GfPoly) (A : List (List Int)) (i j : Nat) : Prop :=
  (i = j ∧ cellOf A i j = -1) ∨
  (i ≠ j ∧ ∃ k, k < t.length ∧
    gfFindExpByPoly gf (addPoly gf.m (t.getD i []) (t.getD j [])) t = .ret (k, none) ∧
    cellOf A i j = (k : Int))

/-- The cell `(i1, j1)` is written before the cell `(i, j)` in the two nested loops. -/
def Before (i1 j1 i j : Nat) : Prop := i1 < i ∨ (i1 = i ∧ j1 < j)

/-- State of the table when the loops of `gfConstructAddTable` reach the cell `(i, j)`: the
table is `n` by `n`, the cells before `(i, j)` are computed, the others are as in `A0`. -/
def FilledUpTo (gf : GaloisField) (t : List GfPoly) (A0 : List (List Int)) (n i j : Nat)
    (A : List (List Int)) : Prop :=
  A.length = n ∧ (∀ row ∈ A, row.length = n) ∧
  (∀ i1 j1, i1 < n → j1 < n → Before i1 j1 i j → CellDone gf t A i1 j1) ∧
  (∀ i1 j1, i1 < n → j1 < n → ¬ Before i1 j1 i j → cellOf A i1 j1 = cellOf A0 i1 j1)

/-- The lookup for the cell `(i, j)` fails: the sum of the entries `i` and `j` of the exponent
table matches no entry. -/
def LookupFails (gf : GaloisField) (t : List GfPoly) (i j : Nat) : Prop :=
  gfFindExpByPoly gf (addPoly gf.m (t.getD i []) (t.getD j [])) t =
    .ret (0, some GfError.polynomialNotFound)

/-- What the loops of `gfConstructAddTable` leave behind: all cells computed, or the state
reached at the first cell whose lookup fails. -/
def AddTablePost (gf : GaloisField) (t : List GfPoly) (A0 : List (List Int)) (n : Nat) :
    List (List Int) × Option GfError → Prop
  | (A, none) => FilledUpTo gf t A0 n n 0 A
  | (A, some e) => e = GfError.polynomialNotFound ∧ ∃ i j, i < n ∧ j < n ∧ i ≠ j ∧
      FilledUpTo gf t A0 n i j A ∧ LookupFails gf t i j

/-! ## Reading a map as a polynomial over GF(2) -/

/-- The polynomial over GF(2) that a map stands for: the sum of `coefficient * X^degree` over
its entries.  It is the mathematical reading of the data, not a function of the program. -/
noncomputable def toPoly (p : GfPoly) : Polynomial (ZMod 2) :=
  (p.map (fun e => Polynomial.monomial e.1 (e.2 : ZMod 2))).sum

/-- All keys of the map are at most `b`. -/
def KeysLe (p : GfPoly) (b : Nat) : Prop := ∀ e ∈ p, e.1 ≤ b

instance (p : GfPoly) (b : Nat) : Decidable (KeysLe p b) := by unfold KeysLe; infer_instance

/-- The entry `e` of the exponent table is canonical, lies below the degree `m`, and is
congruent to `x^e` modulo the primitive polynomial. -/
def GoodEntry (m : Nat) (priPoly : GfPoly) (e : Nat) (p : GfPoly) : Prop :=
  p.Canonical ∧ gfFindMaxDeg p < m ∧
    ∃ q, (Polynomial.X : Polynomial (ZMod 2)) ^ e = q * toPoly priPoly + toPoly p

/-! ## Bookkeeping for the claims on the adder and the multiplier -/

/-- The operands of the calls of `gfBinaryPolyAdd` that the loop of `gfBinaryPolyMod` makes
within `fuel` rounds, in the order of the calls. -/
def modLoopAddCalls (m : Nat) (p2 : GfPoly) (maxDegP2 : Nat) :
    Nat → GfPoly → List (GfPoly × GfPoly)
  | 0, _ => []
  | fuel + 1, returnPoly =>
    if gfFindMaxDeg returnPoly < maxDegP2 then []
    else
      (returnPoly, gfBinaryPolyMulti p2 [(gfFindMaxDeg returnPoly - maxDegP2, 1)]) ::
        (match gfBinaryPolyAdd m returnPoly
            (gfBinaryPolyMulti p2 [(gfFindMaxDeg returnPoly - maxDegP2, 1)]) with
          | .ret tempSubtResult => modLoopAddCalls m p2 maxDegP2 fuel tempSubtResult.copy
          | .panic => []
          | .diverge => [])

/-- The operands of the calls of `gfBinaryPolyAdd` made by `gfBinaryPolyMod(p1, p2)`. -/
def gfBinaryPolyModAddCalls (fuel : Nat) (m : Nat) (p1 p2 : GfPoly) : List (GfPoly × GfPoly) :=
  modLoopAddCalls m p2 (gfFindMaxDeg p2) fuel p1.copy

/-- The number of pairs of a term `(d1, 1)` of `p1` and a term `(d2, 1)` of `p2` whose degree
sum, computed in `uint` (modulo 2^64), is `d`. -/
def pairCount (p1 p2 : GfPoly) (d : Nat) : Nat :=
  (p1.map (fun e1 =>
    (p2.filter (fun e2 => (e1.1 + e2.1) % uintSize = d ∧ e1.2 = 1 ∧ e2.2 = 1)).length)).sum

/-- The number of pairs of a term `(d1, 1)` of `p1` and a term `(d2, 1)` of `p2` with
`d1 + d2 = d`. -/
def pairCountExact (p1 p2 : GfPoly) (d : Nat) : Nat :=
  (p1.map (fun e1 =>
    (p2.filter (fun e2 => e1.1 + e2.1 = d ∧ e1.2 = 1 ∧ e2.2 = 1)).length)).sum

/-- The updates `(degree, increment)` that the two nested loops of `gfBinaryPolyMulti` apply
to the result map, in order. -/
def multiSteps (p1 p2 : GfPoly) : List (Nat × Nat) :=
  p1.flatMap (fun e1 => p2.map (fun e2 => ((e1.1 + e2.1) % uintSize, (e1.2 * e2.2) % uintSize)))

/-- The result map after the updates `steps`: each adds its increment to the entry of its
degree, modulo 2. -/
def applySteps (steps : List (Nat × Nat)) (r : GfPoly) : GfPoly :=
  steps.foldl (fun (r : GfPoly) s => r.set s.1 (((r.coef s.1 + s.2) % uintSize) % 2)) r

/-- The sum of the increments that `steps` apply to the degree `d`. -/
def stepSum (steps : List (Nat × Nat)) (d : Nat) : Nat :=
  ((steps.filter (fun s => s.1 = d)).map Prod.snd).sum

/-! ## The example of the README -/

/-- The zero value of the struct: `var testGf GaloisField`. -/
def zeroField : GaloisField := ⟨0, [], 0, []⟩

/-- The primitive polynomial `1x^0 + 1x^1 + 1x^3` of the example. -/
def poly3 : GfPoly := [(0, 1), (1, 1), (3, 1)]

/-- The field that the example constructs: GF(2^3) with its addition table. -/
def field3 : GaloisField :=
  ⟨3, [(0, 1), (1, 1), (3, 1)], 8,
    [[-1, 3, 6, 1, 5, 4, 2],
     [3, -1, 4, 0, 2, 6, 5],
     [6, 4, -1, 5, 1, 3, 0],
     [1, 0, 5, -1, 6, 2, 4],
     [5, 2, 1, 6, -1, 0, 3],
     [4, 6, 3, 2, 0, -1, 1],
     [2, 5, 0, 4, 3, 1, -1]]⟩

/-- The polynomial `x^3 + x^2 + x + 1`, which is not primitive. -/
def polyReducible : GfPoly := [(0, 1), (1, 1), (2, 1), (3, 1)]

/-- The polynomial `x^44 + 1`, which is not primitive: `x^44 = 1` modulo it. -/
def poly44 : GfPoly := [(0, 1), (44, 1)]

/-- The state in which the construction of GF(2^3) with `polyReducible` leaves the receiver. -/
def fieldFailed : GaloisField :=
  ⟨3, [(0, 1), (1, 1), (2, 1), (3, 1)], 8,
    [[-1, 0, 0, 0, 0, 0, 0],
     [0, 0, 0, 0, 0, 0, 0],
     [0, 0, 0, 0, 0, 0, 0],
     [0, 0, 0, 0, 0, 0, 0],
     [0, 0, 0, 0, 0, 0, 0],
     [0, 0, 0, 0, 0, 0, 0],
     [0, 0, 0, 0, 0, 0, 0]]⟩

/-! ## Runs and loops -/

theorem Exec.bind_eq_ret {α β : Type} {x : Exec α} {f : α → Exec β} {b : β} :
    x.bind f = .ret b ↔ ∃ a, x = .ret a ∧ f a = .ret b := by
  cases x <;> simp [Exec.bind]

theorem Exec.bind_ret {α β : Type} (a : α) (f : α → Exec β) : (Exec.ret a).bind f = f a := rfl

/-- Total-correctness rule for a loop without early exit. -/
theorem forLoop_rule {σ : Type} (body : Nat → σ → Exec σ) (Inv : Nat → σ → Prop) :
    ∀ (c i : Nat) (s : σ), Inv i s →
      (∀ k s1, i ≤ k → k < i + c → Inv k s1 → ∃ s2, body k s1 = .ret s2 ∧ Inv (k + 1) s2) →
      ∃ s2, forLoop body c i s = .ret s2 ∧ Inv (i + c) s2 := by
  intro c
  induction c with
  | zero => intro i s h0 _; exact ⟨s, rfl, by simpa using h0⟩
  | succ c ih =>
    intro i s h0 hstep
    obtain ⟨s1, hb, h1⟩ := hstep i s (le_refl _) (by omega) h0
    obtain ⟨s2, hl, h2⟩ := ih (i + 1) s1 h1 (fun k t hk hk2 hI => hstep k t (by omega) (by omega) hI)
    refine ⟨s2, ?_, ?_⟩
    · simp [forLoop, hb, Exec.bind, hl]
    · have : i + (c + 1) = i + 1 + c := by omega
      rw [this]; exact h2

/-- Total-correctness rule for a loop with early exit: every round returns, a round that goes on
keeps the invariant, and both ways of leaving the loop establish the postcondition. -/
theorem forLoopBrk_rule {σ ρ : Type} (body : Nat → σ → Exec (σ × Option ρ))
    (Inv : Nat → σ → Prop) (Post : σ × Option ρ → Prop) :
    ∀ (c i : Nat) (s : σ), Inv i s →
      (∀ k s1, i ≤ k → k < i + c → Inv k s1 →
        ∃ s2 v, body k s1 = .ret (s2, v) ∧ (v = none → Inv (k + 1) s2) ∧
          (∀ x, v = some x → Post (s2, some x))) →
      (∀ s2, Inv (i + c) s2 → Post (s2, none)) →
      ∃ r, forLoopBrk body c i s = .ret r ∧ Post r := by
  intro c
  induction c with
  | zero => intro i s h0 _ hend; exact ⟨(s, none), rfl, hend s (by simpa using h0)⟩
  | succ c ih =>
    intro i s h0 hstep hend
    obtain ⟨s1, v, hb, h1, h2⟩ := hstep i s (le_refl _) (by omega) h0
    cases v with
    | some x =>
      exact ⟨(s1, some x), by simp [forLoopBrk, hb, Exec.bind], h2 x rfl⟩
    | none =>
      obtain ⟨r, hl, hr⟩ := ih (i + 1) s1 (h1 rfl)
        (fun k t hk hk2 hI => hstep k t (by omega) (by omega) hI)
        (fun s2 hI => hend s2 (by
          have : i + (c + 1) = i + 1 + c := by omega
          rw [this]; exact hI))
      exact ⟨r, by simp [forLoopBrk, hb, Exec.bind, hl], hr⟩

/-! ## Maps -/

namespace GfPoly

theorem lookup_set (p : GfPoly) (d c d1 : Nat) :
    (p.set d c).lookup d1 = if d1 = d then some c else p.lookup d1 := by
  induction p with
  | nil =>
    by_cases h : d1 = d
    · simp [set, List.lookup, h]
    · have hb : (d1 == d) = false := by simpa using h
      simp [set, List.lookup, h, hb]
  | cons e rest ih =>
    obtain ⟨k, v⟩ := e
    by_cases hk : k = d
    · subst hk
      by_cases h : d1 = k
      · simp [set, List.lookup, h]
      · have hb : (d1 == k) = false := by simpa using h
        simp [set, List.lookup, h, hb]
    · by_cases h1 : d1 = k
      · subst h1
        simp [set, List.lookup, hk]
      · simp only [set, hk, if_false, List.lookup]
        have : (d1 == k) = false := by simpa using h1
        rw [this]
        simpa using ih

theorem has_set (p : GfPoly) (d c d1 : Nat) :
    (p.set d c).has d1 = if d1 = d then true else p.has d1 := by
  unfold has; rw [lookup_set]; split <;> simp

theorem coef_set (p : GfPoly) (d c d1 : Nat) :
    (p.set d c).coef d1 = if d1 = d then c else p.coef d1 := by
  unfold coef; rw [lookup_set]; split <;> simp

theorem keys_set (p : GfPoly) (d c : Nat) :
    ∀ k, k ∈ (p.set d c).map Prod.fst ↔ k = d ∨ k ∈ p.map Prod.fst := by
  induction p with
  | nil => intro k; simp [set]
  | cons e rest ih =>
    obtain ⟨k0, v⟩ := e
    intro k
    by_cases hk : k0 = d
    · subst hk; simp [set]
    · simp only [set, hk, if_false, List.map_cons, List.mem_cons, ih k]
      tauto

theorem wf_nil : WF ([] : GfPoly) := by simp [WF]

theorem wf_set (p : GfPoly) (d c : Nat) (h : p.WF) : (p.set d c).WF := by
  unfold WF at *
  induction p with
  | nil => simp [set]
  | cons e rest ih =>
    obtain ⟨k0, v⟩ := e
    simp only [List.map_cons, List.nodup_cons] at h
    by_cases hk : k0 = d
    · subst hk; simpa [set] using h
    · simp only [set, hk, if_false, List.map_cons, List.nodup_cons]
      refine ⟨?_, ih h.2⟩
      intro hmem
      rcases (keys_set rest d c k0).1 hmem with h1 | h1
      · exact hk h1
      · exact h.1 h1

theorem has_iff_mem_keys (p : GfPoly) (d : Nat) : p.has d = true ↔ d ∈ p.map Prod.fst := by
  induction p with
  | nil => simp [has, List.lookup]
  | cons e rest ih =>
    obtain ⟨k, v⟩ := e
    by_cases h : d = k
    · subst h; simp [has, List.lookup]
    · have hb : (d == k) = false := by simpa using h
      simp only [has, List.lookup, hb, List.map_cons, List.mem_cons, h, false_or]
      exact ih

theorem lookup_eq_some_of_mem (p : GfPoly) (h : p.WF) (d c : Nat) (hm : (d, c) ∈ p) :
    p.lookup d = some c := by
  unfold WF at h
  induction p with
  | nil => simp at hm
  | cons e rest ih =>
    obtain ⟨k, v⟩ := e
    simp only [List.map_cons, List.nodup_cons] at h
    rcases List.mem_cons.1 hm with h1 | h1
    · cases h1; simp [List.lookup]
    · have hne : d ≠ k := by
        rintro rfl
        exact h.1 (List.mem_map.2 ⟨(d, c), h1, rfl⟩)
      have hb : (d == k) = false := by simpa using hne
      simp only [List.lookup, hb]
      exact ih h.2 h1

theorem mem_of_lookup_eq_some (p : GfPoly) (d c : Nat) (h : p.lookup d = some c) :
    (d, c) ∈ p := by
  induction p with
  | nil => simp [List.lookup] at h
  | cons e rest ih =>
    obtain ⟨k, v⟩ := e
    by_cases hk : d = k
    · subst hk
      simp [List.lookup] at h
      simp [h]
    · have hb : (d == k) = false := by simpa using hk
      simp only [List.lookup, hb] at h
      exact List.mem_cons_of_mem _ (ih h)

theorem wf_prune (p : GfPoly) (h : p.WF) : p.prune.WF := by
  unfold WF prune at *
  exact List.Nodup.sublist (List.Sublist.map _ (List.filter_sublist _)) h

theorem lookup_prune (p : GfPoly) (h : p.WF) (d : Nat) :
    p.prune.lookup d = (p.lookup d).filter (fun c => c != 0) := by
  cases hl : p.lookup d with
  | none =>
    have hnot : ¬ d ∈ p.map Prod.fst := by
      rw [← has_iff_mem_keys]; simp [has, hl]
    have : ¬ d ∈ p.prune.map Prod.fst := by
      intro hm
      apply hnot
      obtain ⟨e, he, rfl⟩ := List.mem_map.1 hm
      exact List.mem_map.2 ⟨e, (List.mem_filter.1 he).1, rfl⟩
    have h2 : p.prune.has d = false := by
      rw [← has_iff_mem_keys] at this; simpa using this
    simp only [has] at h2
    cases hq : p.prune.lookup d with
    | none => simp
    | some x => simp [hq] at h2
  | some c =>
    have hm := mem_of_lookup_eq_some p d c hl
    by_cases hc : c = 0
    · subst hc
      have : ¬ d ∈ p.prune.map Prod.fst := by
        intro hm2
        obtain ⟨e, he, hed⟩ := List.mem_map.1 hm2
        obtain ⟨he1, he2⟩ := List.mem_filter.1 he
        obtain ⟨k, v⟩ := e
        simp only at hed
        subst hed
        have := lookup_eq_some_of_mem p h k v he1
        rw [hl] at this
        cases this
        simp at he2
      have h2 : p.prune.has d = false := by
        rw [← has_iff_mem_keys] at this; simpa using this
      simp only [has] at h2
      cases hq : p.prune.lookup d with
      | none => simp [Option.filter]
      | some x => simp [hq] at h2
    · have hmem : (d, c) ∈ p.prune := by
        unfold prune
        exact List.mem_filter.2 ⟨hm, by simpa using hc⟩
      rw [lookup_eq_some_of_mem _ (wf_prune p h) d c hmem]
      simp [Option.filter, hc]

theorem prune_entries (p : GfPoly) : ∀ e ∈ p.prune, e.2 ≠ 0 := by
  intro e he
  have := (List.mem_filter.1 he).2
  simpa using this

end GfPoly

theorem gfBinaryPolyAdd_eq (m : Nat) (p1 p2 : GfPoly) (hm : m < maxUint) :
    gfBinaryPolyAdd m p1 p2 = .ret (addPoly m p1 p2) := by
  simp [gfBinaryPolyAdd, addPoly, hm]

theorem setLoop_spec (g : Nat → Nat) (n : Nat) :
    GfPoly.WF ((List.range n).foldl (fun (r : GfPoly) deg => r.set deg (g deg)) []) ∧
    ∀ d, ((List.range n).foldl (fun (r : GfPoly) deg => r.set deg (g deg)) []).lookup d =
      if d < n then some (g d) else none := by
  induction n with
  | zero => exact ⟨GfPoly.wf_nil, fun d => by simp [List.lookup]⟩
  | succ n ih =>
    rw [List.range_succ, List.foldl_append]
    simp only [List.foldl_cons, List.foldl_nil]
    refine ⟨GfPoly.wf_set _ _ _ ih.1, fun d => ?_⟩
    rw [GfPoly.lookup_set, ih.2 d]
    by_cases h1 : d = n
    · subst h1; simp
    · by_cases h2 : d < n
      · have : d < n + 1 := by omega
        simp [h1, h2, this]
      · have : ¬ d < n + 1 := by omega
        simp [h1, h2, this]

theorem addPoly_wf (m : Nat) (p1 p2 : GfPoly) : (addPoly m p1 p2).WF :=
  GfPoly.wf_prune _ (setLoop_spec _ _).1

theorem addPoly_lookup (m : Nat) (p1 p2 : GfPoly) (d : Nat) :
    (addPoly m p1 p2).lookup d =
      if d ≤ m ∧ p1.has d ≠ p2.has d then some 1 else none := by
  unfold addPoly
  rw [GfPoly.lookup_prune _ (setLoop_spec _ _).1, (setLoop_spec _ _).2 d]
  by_cases h1 : d ≤ m
  · have h1b : d < m + 1 := by omega
    by_cases h2 : p1.has d = p2.has d
    · simp [h1, h1b, h2, Option.filter]
    · simp [h1, h1b, h2, Option.filter]
  · have h1b : ¬ d < m + 1 := by omega
    simp [h1, h1b, Option.filter]

theorem addPoly_has (m : Nat) (p1 p2 : GfPoly) (d : Nat) :
    (addPoly m p1 p2).has d = (decide (d ≤ m) && xor (p1.has d) (p2.has d)) := by
  unfold GfPoly.has
  rw [addPoly_lookup]
  by_cases h1 : d ≤ m
  · cases h3 : (List.lookup d p1).isSome <;> cases h4 : (List.lookup d p2).isSome <;>
      simp [h1, GfPoly.has, h3, h4]
  · simp [h1]

theorem addPoly_canonical (m : Nat) (p1 p2 : GfPoly) : (addPoly m p1 p2).Canonical := by
  refine ⟨addPoly_wf m p1 p2, ?_⟩
  rintro ⟨d, c⟩ he
  have := GfPoly.lookup_eq_some_of_mem _ (addPoly_wf m p1 p2) d c he
  rw [addPoly_lookup] at this
  split at this
  · simpa using this.symm
  · simp at this

theorem addPoly_comm (m : Nat) (p1 p2 : GfPoly) : addPoly m p1 p2 = addPoly m p2 p1 := by
  unfold addPoly
  congr 2
  funext r deg
  by_cases h : p1.has deg = p2.has deg
  · simp [h]
  · have h2 : ¬ p2.has deg = p1.has deg := fun h3 => h h3.symm
    simp [h, h2]

theorem samePresence_iff (m : Nat) (p q : GfPoly) :
    samePresence m p q = true ↔ ∀ d, d ≤ m → p.has d = q.has d := by
  simp only [samePresence, List.all_eq_true, List.mem_range, decide_eq_true_eq]
  constructor
  · intro h d hd; exact h d (by omega)
  · intro h d hd; exact h d (by omega)

theorem samePresence_iff_sig (m : Nat) (p q : GfPoly) :
    samePresence m p q = true ↔ sig m p = sig m q := by
  rw [samePresence_iff]
  constructor
  · intro h
    ext d
    simp only [sig, Finset.mem_filter, Finset.mem_range]
    constructor
    · rintro ⟨h1, h2⟩; exact ⟨h1, by rw [← h d (by omega)]; exact h2⟩
    · rintro ⟨h1, h2⟩; exact ⟨h1, by rw [h d (by omega)]; exact h2⟩
  · intro h d hd
    have h1 : d ∈ sig m p ↔ d ∈ sig m q := by rw [h]
    simp only [sig, Finset.mem_filter, Finset.mem_range] at h1
    have hd1 : d < m + 1 := by omega
    cases hp : p.has d <;> cases hq : q.has d <;> simp [hp, hq, hd1] at h1 ⊢

theorem sig_addPoly (m : Nat) (p q : GfPoly) :
    sig m (addPoly m p q) = symmDiff (sig m p) (sig m q) := by
  ext d
  simp only [sig, Finset.mem_filter, Finset.mem_range, Finset.mem_symmDiff, addPoly_has]
  by_cases hd : d < m + 1
  · have hd1 : d ≤ m := by omega
    cases hp : p.has d <;> cases hq : q.has d <;> simp [hp, hq, hd, hd1]
  · have hd1 : ¬ d ≤ m := by omega
    simp [hd, hd1]

/-- What `gfFindExpByPoly` returns on a table of the right length: the first matching
exponent, or the error when no entry matches. -/
theorem gfFindExpByPoly_spec (gf : GaloisField) (poly : GfPoly) (t : List GfPoly)
    (hlen : t.length = uintSub gf.fieldSize 1) (hm : gf.m < maxUint) :
    (∃ k, k < t.length ∧ gfFindExpByPoly gf poly t = .ret (k, none) ∧
        sig gf.m poly = sig gf.m (t.getD k []) ∧
        ∀ k1, k1 < k → sig gf.m poly ≠ sig gf.m (t.getD k1 [])) ∨
    (gfFindExpByPoly gf poly t = .ret (0, some GfError.polynomialNotFound) ∧
        ∀ k1, k1 < t.length → sig gf.m poly ≠ sig gf.m (t.getD k1 [])) := by
  obtain ⟨r, hr, hpost⟩ := forLoopBrk_rule (tryCandidate gf poly t)
    (fun k _ => ∀ k1, k1 < k → sig gf.m poly ≠ sig gf.m (t.getD k1 []))
    (fun r => match r.2 with
      | some k => k < t.length ∧ sig gf.m poly = sig gf.m (t.getD k []) ∧
          ∀ k1, k1 < k → sig gf.m poly ≠ sig gf.m (t.getD k1 [])
      | none => ∀ k1, k1 < t.length → sig gf.m poly ≠ sig gf.m (t.getD k1 []))
    t.length 0 () (by intro k1 hk1; omega)
    (by
      intro k s1 _ hk hinv
      have hk2 : k < t.length := by omega
      have hget : t[k]? = some t[k] := List.getElem?_eq_getElem hk2
      have hgd : t.getD k [] = t[k] := by simp [List.getD, hget]
      by_cases hs : samePresence gf.m poly t[k] = true
      · refine ⟨(), some k, ?_, by simp, ?_⟩
        · unfold tryCandidate; rw [hget]; simp only [hs, hm, if_true]
        · intro x hx
          cases hx
          exact ⟨hk2, by rw [hgd]; exact (samePresence_iff_sig _ _ _).1 hs, hinv⟩
      · refine ⟨(), none, ?_, ?_, by simp⟩
        · unfold tryCandidate; rw [hget]; simp only [hs]; rfl
        · intro _ k1 hk1
          by_cases hk1k : k1 = k
          · subst hk1k
            rw [hgd]
            exact fun h => hs ((samePresence_iff_sig _ _ _).2 h)
          · exact hinv k1 (by omega))
    (by intro _ hinv; simpa using hinv)
  rw [hlen] at hr
  obtain ⟨u, v⟩ := r
  cases v with
  | some k =>
    left
    refine ⟨k, hpost.1, ?_, hpost.2.1, hpost.2.2⟩
    unfold gfFindExpByPoly; rw [hr]; rfl
  | none =>
    right
    refine ⟨?_, hpost⟩
    unfold gfFindExpByPoly; rw [hr]; rfl

/-- Partial-correctness rule for a loop without early exit. -/
theorem forLoop_sound {σ : Type} (body : Nat → σ → Exec σ) (Inv : Nat → σ → Prop) :
    ∀ (c i : Nat) (s s2 : σ), forLoop body c i s = .ret s2 → Inv i s →
      (∀ k s1 s3, i ≤ k → k < i + c → Inv k s1 → body k s1 = .ret s3 → Inv (k + 1) s3) →
      Inv (i + c) s2 := by
  intro c
  induction c with
  | zero =>
    intro i s s2 h h0 _
    simp only [forLoop, Exec.ret.injEq] at h
    subst h; simpa using h0
  | succ c ih =>
    intro i s s2 h h0 hstep
    simp only [forLoop] at h
    obtain ⟨s1, hb, hl⟩ := Exec.bind_eq_ret.1 h
    have h1 := hstep i s s1 (le_refl _) (by omega) h0 hb
    have := ih (i + 1) s1 s2 hl h1 (fun k t u hk hk2 hI hbk => hstep k t u (by omega) (by omega) hI hbk)
    have e : i + (c + 1) = i + 1 + c := by omega
    rw [e]; exact this

theorem getElem?_getD {α : Type} (l : List α) (i : Nat) (d : α) (h : i < l.length) :
    l[i]? = some (l.getD i d) := by
  have h1 : l[i]? = some l[i] := List.getElem?_eq_getElem h
  simp [List.getD, h1]

theorem cellOf_eq (A : List (List Int)) (i j : Nat) (hi : i < A.length)
    (hj : j < (A.getD i []).length) :
    ∃ row, A[i]? = some row ∧ row[j]? = some (cellOf A i j) := by
  have h1 : A[i]? = some A[i] := List.getElem?_eq_getElem hi
  have h2 : A.getD i [] = A[i] := by simp [List.getD, h1]
  refine ⟨A[i], h1, ?_⟩
  rw [h2] at hj
  have h3 : (A[i])[j]? = some (A[i])[j] := List.getElem?_eq_getElem hj
  unfold cellOf
  rw [h2, h3]
  simp [List.getD, h3]

theorem getD_set_self {α : Type} (l : List α) (i : Nat) (a d : α) (h : i < l.length) :
    (l.set i a).getD i d = a := by
  simp [List.getD, List.getElem?_set, h]

theorem getD_set_ne {α : Type} (l : List α) (i j : Nat) (a d : α) (h : i ≠ j) :
    (l.set i a).getD j d = l.getD j d := by
  simp [List.getD, List.getElem?_set, h]

theorem writeCell_spec (A : List (List Int)) (n i j : Nat) (v : Int)
    (hlen : A.length = n) (hrows : ∀ row ∈ A, row.length = n) (hi : i < n) (hj : j < n) :
    ∃ A1, writeCell A i j v = .ret (A1, none) ∧ A1.length = n ∧
      (∀ row ∈ A1, row.length = n) ∧ cellOf A1 i j = v ∧
      ∀ i1 j1, (i1 ≠ i ∨ j1 ≠ j) → cellOf A1 i1 j1 = cellOf A i1 j1 := by
  have hi2 : i < A.length := by omega
  have h1 : A[i]? = some A[i] := List.getElem?_eq_getElem hi2
  have hrow : (A[i]).length = n := hrows _ (List.getElem_mem hi2)
  have hgd : A.getD i [] = A[i] := by simp [List.getD, h1]
  refine ⟨A.set i ((A[i]).set j v), ?_, by simp [hlen], ?_, ?_, ?_⟩
  · unfold writeCell
    rw [h1]
    simp [hrow, hj]
  · intro row hr
    rcases List.mem_or_eq_of_mem_set hr with h | h
    · exact hrows row h
    · subst h; simp [hrow]
  · unfold cellOf
    rw [getD_set_self _ _ _ _ hi2, getD_set_self _ _ _ _ (by omega)]
  · intro i1 j1 hne
    unfold cellOf
    by_cases h : i1 = i
    · subst h
      rw [getD_set_self _ _ _ _ hi2, hgd]
      have hj1 : j1 ≠ j := by
        rcases hne with h | h
        · exact absurd rfl h
        · exact h
      rw [getD_set_ne _ _ _ _ _ (Ne.symm hj1)]
    · rw [getD_set_ne _ _ _ _ _ (Ne.symm h)]

theorem CellDone_congr (gf : GaloisField) (t : List GfPoly) (A A1 : List (List Int)) (i j : Nat)
    (h : cellOf A1 i j = cellOf A i j) (hd : CellDone gf t A i j) : CellDone gf t A1 i j := by
  unfold CellDone at *
  rw [h]; exact hd

theorem fillCell_spec (gf : GaloisField) (t : List GfPoly) (A0 A : List (List Int))
    (n i j : Nat) (hm : gf.m < maxUint) (hn : uintSub gf.fieldSize 1 = n) (hnmax : n ≤ maxInt)
    (hlen : t.length = n) (hi : i < n) (hj : j < n) (hA : FilledUpTo gf t A0 n i j A) :
    ∃ A1 v, fillCell gf t i j A = .ret (A1, v) ∧
      (v = none → FilledUpTo gf t A0 n i (j + 1) A1) ∧
      (∀ x, v = some x → AddTablePost gf t A0 n (A1, some x)) := by
  obtain ⟨hAlen, hArows, hdone, hrest⟩ := hA
  -- the state after a write of the right value into the cell
  have hwrite : ∀ v A1, A1.length = n → (∀ row ∈ A1, row.length = n) → cellOf A1 i j = v →
      (∀ i1 j1, (i1 ≠ i ∨ j1 ≠ j) → cellOf A1 i1 j1 = cellOf A i1 j1) →
      CellDone gf t A1 i j → FilledUpTo gf t A0 n i (j + 1) A1 := by
    intro v A1 h1 h2 _ h4 h5
    refine ⟨h1, h2, ?_, ?_⟩
    · intro i1 j1 hi1 hj1 hb
      by_cases hcell : i1 = i ∧ j1 = j
      · obtain ⟨rfl, rfl⟩ := hcell; exact h5
      · have hne : i1 ≠ i ∨ j1 ≠ j := by omega
        refine CellDone_congr gf t A A1 i1 j1 (h4 i1 j1 hne) (hdone i1 j1 hi1 hj1 ?_)
        unfold Before at *
        omega
    · intro i1 j1 hi1 hj1 hb
      have hne : i1 ≠ i ∨ j1 ≠ j := by unfold Before at hb; omega
      rw [h4 i1 j1 hne]
      exact hrest i1 j1 hi1 hj1 (by unfold Before at *; omega)
  by_cases hij : i = j
  · obtain ⟨A1, hw, h1, h2, h3, h4⟩ := writeCell_spec A n i j (-1) hAlen hArows hi hj
    refine ⟨A1, none, by simp [fillCell, hij, ← hw], ?_, by simp⟩
    intro _
    exact hwrite (-1) A1 h1 h2 h3 h4 (Or.inl ⟨hij, h3⟩)
  · have hti : t[i]? = some (t.getD i []) := getElem?_getD t i [] (by omega)
    have htj : t[j]? = some (t.getD j []) := getElem?_getD t j [] (by omega)
    have hcell : fillCell gf t i j A =
        (gfFindExpByPoly gf (addPoly gf.m (t.getD i []) (t.getD j [])) t).bind
          (storeLookup A i j) := by
      unfold fillCell
      rw [if_neg hij, hti, htj]
      simp only [gfBinaryPolyAdd_eq _ _ _ hm, Exec.bind_ret]
    rcases gfFindExpByPoly_spec gf (addPoly gf.m (t.getD i []) (t.getD j [])) t (by omega) hm with
      ⟨k, hk, hfind, _, _⟩ | ⟨hfind, _⟩
    · have hkint : toInt k = (k : Int) := by
        have hle : k ≤ maxInt := by omega
        unfold toInt
        rw [if_pos hle]
      obtain ⟨A1, hw, h1, h2, h3, h4⟩ := writeCell_spec A n i j (toInt k) hAlen hArows hi hj
      refine ⟨A1, none, ?_, ?_, by simp⟩
      · rw [hcell, hfind]; simp only [Exec.bind_ret, storeLookup]; exact hw
      · intro _
        refine hwrite (toInt k) A1 h1 h2 h3 h4 (Or.inr ⟨hij, k, hk, ?_, by rw [h3, hkint]⟩)
        exact hfind
    · refine ⟨A, some GfError.polynomialNotFound, ?_, by simp, ?_⟩
      · rw [hcell, hfind]; simp only [Exec.bind_ret, storeLookup]
      · intro x hx
        cases hx
        refine ⟨rfl, i, j, hi, hj, hij, ⟨hAlen, hArows, hdone, hrest⟩, ?_⟩
        unfold LookupFails
        exact hfind

theorem fillRow_spec (gf : GaloisField) (t : List GfPoly) (A0 A : List (List Int))
    (n i : Nat) (hm : gf.m < maxUint) (hn : uintSub gf.fieldSize 1 = n) (hnmax : n ≤ maxInt)
    (hlen : t.length = n) (hi : i < n) (hA : FilledUpTo gf t A0 n i 0 A) :
    ∃ A1 v, fillRow gf t i A = .ret (A1, v) ∧
      (v = none → FilledUpTo gf t A0 n (i + 1) 0 A1) ∧
      (∀ x, v = some x → AddTablePost gf t A0 n (A1, some x)) := by
  obtain ⟨r, hr, hpost⟩ := forLoopBrk_rule (fillCell gf t i)
    (fun j A1 => FilledUpTo gf t A0 n i j A1)
    (fun r => (r.2 = none → FilledUpTo gf t A0 n (i + 1) 0 r.1) ∧
      (∀ x, r.2 = some x → AddTablePost gf t A0 n (r.1, some x)))
    n 0 A hA
    (by
      intro j A1 _ hj hinv
      obtain ⟨A2, v, h1, h2, h3⟩ := fillCell_spec gf t A0 A1 n i j hm hn hnmax hlen hi (by omega) hinv
      refine ⟨A2, v, h1, h2, ?_⟩
      intro x hx
      exact ⟨by simp, fun y hy => by cases hy; exact h3 x hx⟩)
    (by
      intro A2 hinv
      refine ⟨fun _ => ?_, by simp⟩
      obtain ⟨h1, h2, h3, h4⟩ := hinv
      refine ⟨h1, h2, ?_, ?_⟩
      · intro i1 j1 hi1 hj1 hb
        exact h3 i1 j1 hi1 hj1 (by unfold Before at *; omega)
      · intro i1 j1 hi1 hj1 hb
        exact h4 i1 j1 hi1 hj1 (by unfold Before at *; omega))
  obtain ⟨A1, v⟩ := r
  refine ⟨A1, v, ?_, hpost.1, hpost.2⟩
  unfold fillRow
  rw [hn]; exact hr

theorem gfConstructAddTable_spec (gf : GaloisField) (t : List GfPoly) (n : Nat)
    (hm : gf.m < maxUint) (hn : uintSub gf.fieldSize 1 = n) (hnmax : n ≤ maxInt)
    (hlen : t.length = n) (hA0 : gf.addTable.length = n)
    (hrows : ∀ row ∈ gf.addTable, row.length = n) :
    ∃ A e, gfConstructAddTable gf t = .ret ({ gf with addTable := A }, e) ∧
      AddTablePost gf t gf.addTable n (A, e) := by
  obtain ⟨r, hr, hpost⟩ := forLoopBrk_rule (fillRow gf t)
    (fun i A1 => FilledUpTo gf t gf.addTable n i 0 A1)
    (fun r => AddTablePost gf t gf.addTable n r)
    n 0 gf.addTable
    ⟨hA0, hrows, by intro i1 j1 _ _ hb; unfold Before at hb; omega, by intros; rfl⟩
    (by
      intro i A1 _ hi hinv
      obtain ⟨A2, v, h1, h2, h3⟩ := fillRow_spec gf t gf.addTable A1 n i hm hn hnmax hlen (by omega) hinv
      exact ⟨A2, v, h1, h2, h3⟩)
    (by
      intro A2 hinv
      simpa [AddTablePost] using hinv)
  obtain ⟨A, e⟩ := r
  refine ⟨A, e, ?_, hpost⟩
  unfold gfConstructAddTable
  rw [hn, hr]
  rfl

/-! ## The field size -/

theorem intPow_two_small (m : Nat) (h1 : 1 ≤ m) (h2 : m ≤ 63) : intPow 2 m = (2 ^ m, none) := by
  interval_cases m <;> rfl

theorem intPowLoop_two_big (m : Nat) (hm : 64 ≤ m) :
    ∀ j, j ≤ 61 → ∀ c, intPowLoop 2 m (c + j + 1) (62 - j) (2 ^ (62 - j)) =
      (0, some GfError.invalidFieldSize) := by
  intro j
  induction j with
  | zero =>
    intro _ c
    have h : (2 ^ 62 * 2) % uintSize > maxUint / 2 ∧ 62 < m - 1 := by
      refine ⟨by norm_num [uintSize, maxUint], by omega⟩
    simp only [Nat.sub_zero, Nat.add_zero, intPowLoop, if_pos h]
  | succ j ih =>
    intro hj c
    have e1 : c + (j + 1) + 1 = (c + j + 1) + 1 := by omega
    have e2 : 62 - (j + 1) + 1 = 62 - j := by omega
    have hlt : 2 ^ (62 - (j + 1)) * 2 = 2 ^ (62 - j) := by
      rw [← pow_succ, e2]
    have hle : 2 ^ (62 - j) ≤ 2 ^ 62 := Nat.pow_le_pow_right (by norm_num) (by omega)
    have hmod : (2 ^ (62 - (j + 1)) * 2) % uintSize = 2 ^ (62 - j) := by
      rw [hlt]
      apply Nat.mod_eq_of_lt
      have : (2 : Nat) ^ 62 < uintSize := by norm_num [uintSize]
      omega
    have hnot : ¬ ((2 ^ (62 - (j + 1)) * 2) % uintSize > maxUint / 2 ∧ 62 - (j + 1) < m - 1) := by
      rw [hmod]
      have : (2 : Nat) ^ 62 ≤ maxUint / 2 := by norm_num [maxUint]
      omega
    rw [e1]
    simp only [intPowLoop, if_neg hnot]
    rw [hmod, e2]
    exact ih (by omega) c

theorem intPow_two_big (m : Nat) (hm : 64 ≤ m) :
    intPow 2 m = (0, some GfError.invalidFieldSize) := by
  have h := intPowLoop_two_big m hm 61 (le_refl _) (m - 63)
  have e : m - 63 + 61 + 1 = m - 1 := by omega
  rw [e] at h
  simpa [intPow] using h

theorem intPow_two_zero : intPow 2 0 = (2, none) := by rfl

/-! ## The construction -/

theorem uintSub_pow (m : Nat) : uintSub (2 ^ m) 1 = 2 ^ m - 1 := by
  have : 1 ≤ 2 ^ m := Nat.one_le_two_pow
  simp [uintSub, this]

theorem pow_sub_one_le_maxInt (m : Nat) (h2 : m ≤ 63) : 2 ^ m - 1 ≤ maxInt := by
  have : 2 ^ m ≤ 2 ^ 63 := Nat.pow_le_pow_right (by norm_num) h2
  have e : maxInt = 2 ^ 63 - 1 := by norm_num [maxInt]
  omega

/-- The lengths `2 ^ m - 1` the allocations of the construction accept: `m ≤ 43`. -/
theorem pow_alloc_ok (m : Nat) (h2 : m ≤ 43) :
    (2 ^ m - 1) * 24 ≤ maxAlloc ∧ (2 ^ m - 1) * 8 ≤ maxAlloc := by
  have : 2 ^ m ≤ 2 ^ 43 := Nat.pow_le_pow_right (by norm_num) h2
  have e : maxAlloc = 2 ^ 43 * 32 := by norm_num [maxAlloc]
  omega

theorem pow_alloc_big (m : Nat) (h : 44 ≤ m) : ¬ (2 ^ m - 1) * 24 ≤ maxAlloc := by
  have : 2 ^ 44 ≤ 2 ^ m := Nat.pow_le_pow_right (by norm_num) h
  have e : maxAlloc = 2 ^ 44 * 16 := by norm_num [maxAlloc]
  omega

theorem allocRows_eq (n : Nat) (hn : n ≤ maxInt) (ha : n * 8 ≤ maxAlloc) :
    forLoop (allocRow n) n 0 (List.replicate n ([] : List Int)) =
      .ret (List.replicate n (List.replicate n (0 : Int))) := by
  obtain ⟨s2, h, hinv⟩ := forLoop_rule (allocRow n)
    (fun k rows => rows.length = n ∧ ∀ i, i < k → rows.getD i [] = List.replicate n (0 : Int))
    n 0 (List.replicate n ([] : List Int)) ⟨by simp, by intro i hi; omega⟩
    (by
      intro k rows _ hk hinv
      refine ⟨rows.set k (List.replicate n 0), ?_, by simpa using hinv.1, ?_⟩
      · have hk2 : k < rows.length := by omega
        simp [allocRow, makeSlice, hn, ha, Exec.bind, hk2]
      · intro i hi
        by_cases hik : i = k
        · subst hik
          exact getD_set_self _ _ _ _ (by omega)
        · rw [getD_set_ne _ _ _ _ _ (Ne.symm hik)]
          exact hinv.2 i (by omega))
  rw [h]
  congr 1
  apply List.ext_getElem
  · simp [hinv.1]
  · intro i h1 h2
    have := hinv.2 i (by omega)
    have e := getElem?_getD s2 i [] h1
    rw [this] at e
    have e2 : s2[i]? = some s2[i] := List.getElem?_eq_getElem h1
    rw [e2] at e
    simp only [Option.some.injEq] at e
    rw [e]; simp

/-- The state in which `GfConstructGaloisField` starts to build the tables. -/
theorem construct_eq (fuel : Nat) (gf : GaloisField) (m : Nat) (p : GfPoly)
    (h1 : 1 ≤ m) (h2 : m ≤ 43) :
    GfConstructGaloisField fuel gf m p =
      (gfConstructExp2BinPoly fuel
          ⟨m, p, 2 ^ m, List.replicate (2 ^ m - 1) (List.replicate (2 ^ m - 1) 0)⟩
          (List.replicate (2 ^ m - 1) [])).bind
        (fun t => gfConstructAddTable
          ⟨m, p, 2 ^ m, List.replicate (2 ^ m - 1) (List.replicate (2 ^ m - 1) 0)⟩ t) := by
  unfold GfConstructGaloisField
  have h63 : m ≤ 63 := by omega
  have hi := pow_sub_one_le_maxInt m h63
  have ha := pow_alloc_ok m h2
  simp only [intPow_two_small m h1 h63, uintSub_pow m, makeSlice,
    if_pos (And.intro hi ha.1), if_pos (And.intro hi ha.2), Exec.bind_ret,
    List.length_replicate]
  rw [allocRows_eq _ hi ha.2]
  rfl

theorem construct_big (fuel : Nat) (gf : GaloisField) (m : Nat) (p : GfPoly) (h : 64 ≤ m) :
    GfConstructGaloisField fuel gf m p = .panic := by
  unfold GfConstructGaloisField
  have e : uintSub 0 1 = maxUint := by norm_num [uintSub, uintSize, maxUint]
  have hgt : ¬ (maxUint ≤ maxInt ∧ maxUint * 24 ≤ maxAlloc) := by
    norm_num [maxUint, maxInt]
  simp only [intPow_two_big m h, e, makeSlice, if_neg hgt]
  rfl

/-- The first allocation `make([][]int, 2^m - 1)` panics for `44 ≤ m ≤ 63`: the rows would
take more than `maxAlloc` bytes. -/
theorem makeSlice_rows_panics (m : Nat) (h : 44 ≤ m) :
    makeSlice 24 (2 ^ m - 1) ([] : List Int) = .panic := by
  have hgt : ¬ (2 ^ m - 1 ≤ maxInt ∧ (2 ^ m - 1) * 24 ≤ maxAlloc) :=
    fun hc => pow_alloc_big m h hc.2
  simp only [makeSlice, if_neg hgt]

theorem construct_alloc_panics (fuel : Nat) (gf : GaloisField) (m : Nat) (p : GfPoly)
    (h : 44 ≤ m) : GfConstructGaloisField fuel gf m p = .panic := by
  rcases Nat.lt_or_ge m 64 with h2 | h2
  · unfold GfConstructGaloisField
    simp only [intPow_two_small m (by omega) (by omega), uintSub_pow m,
      makeSlice_rows_panics m h]
    rfl
  · exact construct_big fuel gf m p h2

theorem construct_zero (fuel : Nat) (gf : GaloisField) (p : GfPoly) :
    GfConstructGaloisField fuel gf 0 p = .panic := by
  rfl

theorem construct_ret_bounds (fuel : Nat) (gf : GaloisField) (m : Nat) (p : GfPoly)
    (r : GaloisField × Option GfError) (h : GfConstructGaloisField fuel gf m p = .ret r) :
    1 ≤ m ∧ m ≤ 43 := by
  by_contra hcon
  rcases Nat.lt_or_ge m 1 with h0 | h0
  · have : m = 0 := by omega
    subst this
    rw [construct_zero] at h
    cases h
  · have : 44 ≤ m := by omega
    rw [construct_alloc_panics fuel gf m p this] at h
    cases h

/-! ## The exponent table -/

theorem trivialCase_ret (k : Nat) (t t1 : List GfPoly) (h : trivialCase k t = .ret t1) :
    k < t.length ∧ t1 = t.set k ((t.getD k []).set k 1) := by
  unfold trivialCase at h
  by_cases hk : k < t.length
  · rw [getElem?_getD t k [] hk] at h
    simp only [Exec.ret.injEq] at h
    exact ⟨hk, h.symm⟩
  · have : t[k]? = none := List.getElem?_eq_none (by omega)
    rw [this] at h
    cases h

theorem otherCase_ret (fuel : Nat) (gf : GaloisField) (k : Nat) (t t1 : List GfPoly)
    (hk : 1 ≤ k) (h : otherCase fuel gf k t = .ret t1) :
    k < t.length ∧ ∃ r, gfBinaryPolyMod fuel gf.m
      (gfBinaryPolyMulti (t.getD (k - 1) []) [(1, 1)]) gf.priPoly = .ret r ∧ t1 = t.set k r := by
  unfold otherCase at h
  have hsub : uintSub k 1 = k - 1 := by simp [uintSub, hk]
  rw [hsub] at h
  by_cases hk1 : k - 1 < t.length
  · rw [getElem?_getD t (k - 1) [] hk1] at h
    simp only at h
    obtain ⟨r, hr, h2⟩ := Exec.bind_eq_ret.1 h
    by_cases hk2 : k < t.length
    · rw [if_pos hk2] at h2
      simp only [Exec.ret.injEq] at h2
      exact ⟨hk2, r, hr, h2.symm⟩
    · rw [if_neg hk2] at h2
      cases h2
  · have : t[k - 1]? = none := List.getElem?_eq_none (by omega)
    rw [this] at h
    cases h

/-- What a returned exponent table looks like: the first `m` entries are the monomials and
every later entry is the reduction of the previous one times `x`. -/
theorem expTable_shape (fuel : Nat) (gf : GaloisField) (n : Nat) (t : List GfPoly)
    (hn : uintSub gf.fieldSize 1 = n) (h1 : 1 ≤ gf.m)
    (h : gfConstructExp2BinPoly fuel gf (List.replicate n []) = .ret t) :
    t.length = n ∧ gf.m ≤ n ∧ (∀ e, e < gf.m → t.getD e [] = [(e, 1)]) ∧
    (∀ e, gf.m ≤ e → e < n → gfBinaryPolyMod fuel gf.m
      (gfBinaryPolyMulti (t.getD (e - 1) []) [(1, 1)]) gf.priPoly = .ret (t.getD e [])) := by
  unfold gfConstructExp2BinPoly at h
  obtain ⟨t1, hl1, hl2⟩ := Exec.bind_eq_ret.1 h
  rw [hn] at hl2
  have inv1 := forLoop_sound trivialCase
    (fun k (s : List GfPoly) => s.length = n ∧ k ≤ n ∧ (∀ e, e < k → s.getD e [] = [(e, 1)]) ∧
      (∀ e, k ≤ e → s.getD e [] = []))
    gf.m 0 (List.replicate n []) t1 hl1
    ⟨by simp, by omega, by intro e he; omega, by
      intro e _
      by_cases he : e < n
      · simp [List.getD, List.getElem?_replicate, he]
      · simp [List.getD, List.getElem?_replicate, he]⟩
    (by
      intro k s1 s3 _ _ hinv hb
      obtain ⟨hk, rfl⟩ := trivialCase_ret k s1 s3 hb
      obtain ⟨i1, i2, i3, i4⟩ := hinv
      refine ⟨by simpa using i1, by omega, ?_, ?_⟩
      · intro e he
        by_cases hek : e = k
        · subst hek
          rw [getD_set_self _ _ _ _ hk, i4 e (le_refl _)]
          rfl
        · rw [getD_set_ne _ _ _ _ _ (Ne.symm hek)]
          exact i3 e (by omega)
      · intro e he
        rw [getD_set_ne _ _ _ _ _ (by omega)]
        exact i4 e (by omega))
  simp only [Nat.zero_add] at inv1
  obtain ⟨j1, j2, j3, _⟩ := inv1
  have inv2 := forLoop_sound (otherCase fuel gf)
    (fun k (s : List GfPoly) => s.length = n ∧ (∀ e, e < gf.m → s.getD e [] = [(e, 1)]) ∧
      (∀ e, gf.m ≤ e → e < k → gfBinaryPolyMod fuel gf.m
        (gfBinaryPolyMulti (s.getD (e - 1) []) [(1, 1)]) gf.priPoly = .ret (s.getD e [])))
    (n - gf.m) gf.m t1 t hl2
    ⟨j1, j3, by intro e h1 h2; omega⟩
    (by
      intro k s1 s3 hk1 _ hinv hb
      obtain ⟨hk, r, hr, rfl⟩ := otherCase_ret fuel gf k s1 s3 (by omega) hb
      obtain ⟨i1, i2, i3⟩ := hinv
      refine ⟨by simpa using i1, ?_, ?_⟩
      · intro e he
        rw [getD_set_ne _ _ _ _ _ (by omega)]
        exact i2 e he
      · intro e he1 he2
        rw [getD_set_ne _ _ _ _ _ (by omega)]
        by_cases hek : e = k
        · subst hek
          rw [getD_set_self _ _ _ _ hk]
          exact hr
        · rw [getD_set_ne _ _ _ _ _ (Ne.symm hek)]
          exact i3 e he1 (by omega))
  have e : gf.m + (n - gf.m) = n := by omega
  rw [e] at inv2
  exact ⟨inv2.1, j2, inv2.2.1, inv2.2.2⟩

/-- The exponent table reads only `m`, `priPoly` and `fieldSize` of the field. -/
theorem expTable_congr (fuel : Nat) (gf gf1 : GaloisField) (t0 : List GfPoly)
    (hm : gf.m = gf1.m) (hp : gf.priPoly = gf1.priPoly) (hf : gf.fieldSize = gf1.fieldSize) :
    gfConstructExp2BinPoly fuel gf t0 = gfConstructExp2BinPoly fuel gf1 t0 := by
  have hb : otherCase fuel gf = otherCase fuel gf1 := by
    funext k s
    unfold otherCase
    rw [hm, hp]
  unfold gfConstructExp2BinPoly
  rw [hm, hf, hb]

theorem addition_eq_cellOf (gf : GaloisField) (n i j : Nat) (hlen : gf.addTable.length = n)
    (hrows : ∀ row ∈ gf.addTable, row.length = n) (hi : i < n) (hj : j < n) :
    GfAdditionOfTwoExponents gf i j = .ret (cellOf gf.addTable i j) := by
  have hi2 : i < gf.addTable.length := by omega
  have h1 := getElem?_getD gf.addTable i [] hi2
  have hmem : gf.addTable.getD i [] ∈ gf.addTable := by
    have := List.getElem?_eq_some_iff.1 h1
    obtain ⟨h, e⟩ := this
    rw [← e]; exact List.getElem_mem h
  have hrow := hrows _ hmem
  have h2 := getElem?_getD (gf.addTable.getD i []) j 0 (by omega)
  unfold GfAdditionOfTwoExponents
  rw [h1]
  simp only
  rw [h2]
  rfl

/-- Everything a returning `GfConstructGaloisField` went through. -/
theorem construct_ret (fuel : Nat) (gf : GaloisField) (m : Nat) (p : GfPoly)
    (gf1 : GaloisField) (e : Option GfError)
    (h : GfConstructGaloisField fuel gf m p = .ret (gf1, e)) :
    1 ≤ m ∧ m ≤ 63 ∧ gf1.m = m ∧ gf1.priPoly = p ∧ gf1.fieldSize = 2 ^ m ∧
    ∃ t, gfConstructExp2BinPoly fuel gf1 (List.replicate (2 ^ m - 1) []) = .ret t ∧
      t.length = 2 ^ m - 1 ∧
      AddTablePost gf1 t (List.replicate (2 ^ m - 1) (List.replicate (2 ^ m - 1) 0))
        (2 ^ m - 1) (gf1.addTable, e) := by
  obtain ⟨h1, h2⟩ := construct_ret_bounds fuel gf m p _ h
  rw [construct_eq fuel gf m p h1 h2] at h
  obtain ⟨t, ht, hadd⟩ := Exec.bind_eq_ret.1 h
  have hn : uintSub (2 ^ m) 1 = 2 ^ m - 1 := uintSub_pow m
  have hnmax := pow_sub_one_le_maxInt m (by omega)
  have htl := (expTable_shape fuel _ (2 ^ m - 1) t hn h1 ht).1
  have hmlt : m < maxUint := by
    have : maxUint = 18446744073709551615 := rfl
    omega
  obtain ⟨A, e1, hA, hpost⟩ := gfConstructAddTable_spec
    ⟨m, p, 2 ^ m, List.replicate (2 ^ m - 1) (List.replicate (2 ^ m - 1) 0)⟩ t (2 ^ m - 1)
    hmlt hn hnmax htl (by simp) (by
      intro row hr
      rw [List.eq_of_mem_replicate hr]; simp)
  rw [hA] at hadd
  simp only [Exec.ret.injEq, Prod.mk.injEq] at hadd
  obtain ⟨rfl, rfl⟩ := hadd
  refine ⟨h1, by omega, rfl, rfl, rfl, t, ?_, htl, ?_⟩
  · rw [← ht]
    exact expTable_congr fuel _ _ _ rfl rfl rfl
  · exact hpost

/-! ## Canonical form of the maps that the program builds -/

namespace GfPoly

theorem mem_set (p : GfPoly) (d c : Nat) (e : Nat × Nat) (h : e ∈ p.set d c) :
    e = (d, c) ∨ e ∈ p := by
  induction p with
  | nil => left; simpa [set] using h
  | cons x rest ih =>
    obtain ⟨k, v⟩ := x
    by_cases hk : k = d
    · subst hk
      simp only [set, if_true, List.mem_cons] at h
      rcases h with h | h
      · left; exact h
      · right; exact List.mem_cons_of_mem _ h
    · simp only [set, hk, if_false, List.mem_cons] at h
      rcases h with h | h
      · right; rw [h]; exact List.mem_cons_self _ _
      · rcases ih h with h2 | h2
        · left; exact h2
        · right; exact List.mem_cons_of_mem _ h2

theorem coef_of_canonical (p : GfPoly) (h : p.Canonical) (d : Nat) :
    p.coef d = if p.has d then 1 else 0 := by
  unfold coef has
  cases hl : p.lookup d with
  | none => simp
  | some c =>
    have := h.2 _ (mem_of_lookup_eq_some p d c hl)
    simp only at this
    simp [this]

theorem foldl_inv {α : Type} (P : GfPoly → Prop) (f : GfPoly → α → GfPoly)
    (hf : ∀ r a, P r → P (f r a)) (l : List α) : ∀ r0, P r0 → P (l.foldl f r0) := by
  induction l with
  | nil => intro r0 h; exact h
  | cons a l ih => intro r0 h; exact ih _ (hf r0 a h)

theorem copyLoop_lookup (src : GfPoly) (l : List (Nat × Nat)) :
    ∀ dst : GfPoly, ∀ d,
      (l.foldl (fun (dst : GfPoly) e => dst.set e.1 (src.coef e.1)) dst).lookup d =
        if d ∈ l.map Prod.fst then some (src.coef d) else dst.lookup d := by
  induction l with
  | nil => intro dst d; simp
  | cons x l ih =>
    intro dst d
    simp only [List.foldl_cons, List.map_cons, List.mem_cons]
    rw [ih, lookup_set]
    by_cases h1 : d ∈ l.map Prod.fst
    · simp [h1]
    · by_cases h2 : d = x.1
      · simp [h2]
      · simp [h1, h2]

theorem copy_lookup (p : GfPoly) (d : Nat) : p.copy.lookup d = p.lookup d := by
  unfold copy
  rw [copyLoop_lookup]
  by_cases h : d ∈ p.map Prod.fst
  · rw [if_pos h]
    have := (has_iff_mem_keys p d).2 h
    unfold has at this
    unfold coef
    cases hl : p.lookup d with
    | none => simp [hl] at this
    | some c => simp
  · rw [if_neg h]
    have : ¬ p.has d = true := fun h2 => h ((has_iff_mem_keys p d).1 h2)
    unfold has at this
    cases hl : p.lookup d with
    | none => simp [List.lookup]
    | some c => simp [hl] at this

theorem copy_wf (p : GfPoly) : p.copy.WF := by
  unfold copy
  exact foldl_inv WF _ (fun r a h => wf_set r _ _ h) p [] wf_nil

theorem copy_has (p : GfPoly) (d : Nat) : p.copy.has d = p.has d := by
  unfold has; rw [copy_lookup]

theorem copy_coef (p : GfPoly) (d : Nat) : p.copy.coef d = p.coef d := by
  unfold coef; rw [copy_lookup]

theorem copy_canonical (p : GfPoly) (h : p.Canonical) : p.copy.Canonical := by
  refine ⟨copy_wf p, ?_⟩
  rintro ⟨d, c⟩ he
  have h1 := lookup_eq_some_of_mem _ (copy_wf p) d c he
  rw [copy_lookup] at h1
  exact h.2 _ (mem_of_lookup_eq_some p d c h1)

end GfPoly

theorem gfBinaryPolyMulti_canonical (p1 p2 : GfPoly) : (gfBinaryPolyMulti p1 p2).Canonical := by
  have hacc : (fun r : GfPoly => r.WF ∧ ∀ e ∈ r, e.2 < 2)
      (p1.foldl (fun (r1 : GfPoly) e1 =>
        p2.foldl (fun (r : GfPoly) e2 =>
          r.set ((e1.1 + e2.1) % uintSize)
            (((r.coef ((e1.1 + e2.1) % uintSize) + (e1.2 * e2.2) % uintSize) % uintSize) % 2))
          r1) []) := by
    refine GfPoly.foldl_inv (fun r : GfPoly => r.WF ∧ ∀ e ∈ r, e.2 < 2) _ ?_ p1 [] ?_
    · intro r1 e1 hr1
      refine GfPoly.foldl_inv (fun r : GfPoly => r.WF ∧ ∀ e ∈ r, e.2 < 2) _ ?_ p2 r1 hr1
      intro r e2 hr
      refine ⟨GfPoly.wf_set _ _ _ hr.1, ?_⟩
      intro e he
      rcases GfPoly.mem_set _ _ _ _ he with h | h
      · rw [h]; exact Nat.mod_lt _ (by norm_num)
      · exact hr.2 e h
    · exact ⟨GfPoly.wf_nil, by intro e he; simp at he⟩
  unfold gfBinaryPolyMulti
  refine ⟨GfPoly.wf_prune _ hacc.1, ?_⟩
  intro e he
  have h1 := GfPoly.prune_entries _ e he
  have h2 := hacc.2 e (List.mem_filter.1 he).1
  omega

theorem modLoop_ret_canonical (m : Nat) (p2 : GfPoly) (k : Nat) :
    ∀ fuel r0 r, r0.Canonical → gfBinaryPolyModLoop m p2 k fuel r0 = .ret r → r.Canonical := by
  intro fuel
  induction fuel with
  | zero => intro r0 r _ h; simp [gfBinaryPolyModLoop] at h
  | succ fuel ih =>
    intro r0 r h0 h
    unfold gfBinaryPolyModLoop at h
    by_cases hd : gfFindMaxDeg r0 < k
    · rw [if_pos hd] at h
      simp only [Exec.ret.injEq] at h
      rw [← h]; exact h0
    · rw [if_neg hd] at h
      obtain ⟨s, hs, hl⟩ := Exec.bind_eq_ret.1 h
      unfold gfBinaryPolyAdd at hs
      by_cases hm : m < maxUint
      · rw [if_pos hm] at hs
        simp only [Exec.ret.injEq] at hs
        refine ih s.copy r (GfPoly.copy_canonical _ ?_) hl
        rw [← hs]
        exact addPoly_canonical m _ _
      · rw [if_neg hm] at hs
        cases hs

theorem gfBinaryPolyMod_ret_canonical (fuel m : Nat) (p1 p2 r : GfPoly) (h1 : p1.Canonical)
    (h : gfBinaryPolyMod fuel m p1 p2 = .ret r) : r.Canonical :=
  modLoop_ret_canonical m p2 _ fuel _ r (GfPoly.copy_canonical p1 h1) h

theorem expTable_canonical (fuel : Nat) (gf : GaloisField) (n : Nat) (t : List GfPoly)
    (hn : uintSub gf.fieldSize 1 = n) (h1 : 1 ≤ gf.m)
    (h : gfConstructExp2BinPoly fuel gf (List.replicate n []) = .ret t) :
    ∀ e, e < n → (t.getD e []).Canonical := by
  obtain ⟨_, _, hmono, hrec⟩ := expTable_shape fuel gf n t hn h1 h
  intro e he
  by_cases hem : e < gf.m
  · rw [hmono e hem]
    exact ⟨by simp, by intro x hx; simp at hx; rw [hx]⟩
  · exact gfBinaryPolyMod_ret_canonical fuel gf.m _ _ _ (gfBinaryPolyMulti_canonical _ _)
      (hrec e (by omega) he)

theorem has_eq_of_sig_eq (m : Nat) (p q : GfPoly) (h : sig m p = sig m q) (d : Nat)
    (hd : d ≤ m) : p.has d = q.has d :=
  (samePresence_iff m p q).1 ((samePresence_iff_sig m p q).2 h) d hd

/-- The cells of a successfully constructed table. -/
theorem construct_cells (fuel : Nat) (gf : GaloisField) (m : Nat) (p : GfPoly)
    (gf1 : GaloisField) (h : GfConstructGaloisField fuel gf m p = .ret (gf1, none)) :
    1 ≤ m ∧ m ≤ 63 ∧ gf1.m = m ∧ gf1.priPoly = p ∧ gf1.fieldSize = 2 ^ m ∧
    gf1.addTable.length = 2 ^ m - 1 ∧ (∀ row ∈ gf1.addTable, row.length = 2 ^ m - 1) ∧
    ∃ t, gfConstructExp2BinPoly fuel gf1 (List.replicate (2 ^ m - 1) []) = .ret t ∧
      t.length = 2 ^ m - 1 ∧
      (∀ i, i < 2 ^ m - 1 → GfAdditionOfTwoExponents gf1 i i = .ret (-1)) ∧
      (∀ i j, i < 2 ^ m - 1 → j < 2 ^ m - 1 → i ≠ j →
        ∃ k : Nat, k < 2 ^ m - 1 ∧ GfAdditionOfTwoExponents gf1 i j = .ret (k : Int) ∧
          sig m (t.getD k []) = symmDiff (sig m (t.getD i [])) (sig m (t.getD j [])) ∧
          ∀ k1, k1 < k →
            sig m (t.getD k1 []) ≠ symmDiff (sig m (t.getD i [])) (sig m (t.getD j []))) := by
  obtain ⟨h1, h2, e1, e2, e3, t, ht, htl, hpost⟩ := construct_ret fuel gf m p gf1 none h
  obtain ⟨hAl, hAr, hdone, _⟩ := hpost
  have hmlt : gf1.m < maxUint := by
    have : maxUint = 18446744073709551615 := rfl
    omega
  have hlen : t.length = uintSub gf1.fieldSize 1 := by rw [e3, uintSub_pow]; exact htl
  refine ⟨h1, h2, e1, e2, e3, hAl, hAr, t, ht, htl, ?_, ?_⟩
  · intro i hi
    rw [addition_eq_cellOf gf1 _ i i hAl hAr hi hi]
    rcases hdone i i hi hi (Or.inl hi) with ⟨_, hc⟩ | ⟨hne, _⟩
    · rw [hc]
    · exact absurd rfl hne
  · intro i j hi hj hij
    rw [addition_eq_cellOf gf1 _ i j hAl hAr hi hj]
    rcases hdone i j hi hj (Or.inl hi) with ⟨heq, _⟩ | ⟨_, k, hk, hfind, hc⟩
    · exact absurd heq hij
    · rcases gfFindExpByPoly_spec gf1 (addPoly gf1.m (t.getD i []) (t.getD j [])) t hlen hmlt
        with ⟨k2, _, hfind2, hsig, hleast⟩ | ⟨hfind2, _⟩
      · rw [hfind] at hfind2
        simp only [Exec.ret.injEq, Prod.mk.injEq, and_true] at hfind2
        subst hfind2
        rw [e1, sig_addPoly] at hsig
        rw [e1, sig_addPoly] at hleast
        refine ⟨k, by omega, by rw [hc], hsig.symm, ?_⟩
        intro k1 hk1 heq
        exact hleast k1 hk1 heq.symm
      · rw [hfind] at hfind2
        simp at hfind2

/-! ## More rounds never change a returned result -/

theorem modLoop_fuel_mono (m : Nat) (p2 : GfPoly) (k : Nat) :
    ∀ fuel r0 r, gfBinaryPolyModLoop m p2 k fuel r0 = .ret r →
      ∀ extra, gfBinaryPolyModLoop m p2 k (fuel + extra) r0 = .ret r := by
  intro fuel
  induction fuel with
  | zero => intro r0 r h; simp [gfBinaryPolyModLoop] at h
  | succ fuel ih =>
    intro r0 r h extra
    have e : fuel + 1 + extra = (fuel + extra) + 1 := by omega
    rw [e]
    unfold gfBinaryPolyModLoop at h ⊢
    by_cases hd : gfFindMaxDeg r0 < k
    · rw [if_pos hd] at h ⊢; exact h
    · rw [if_neg hd] at h ⊢
      obtain ⟨s, hs, hl⟩ := Exec.bind_eq_ret.1 h
      rw [hs, Exec.bind_ret]
      exact ih _ _ hl extra

theorem forLoop_mono {σ : Type} (body1 body2 : Nat → σ → Exec σ)
    (hb : ∀ k s s1, body1 k s = .ret s1 → body2 k s = .ret s1) :
    ∀ c i s s1, forLoop body1 c i s = .ret s1 → forLoop body2 c i s = .ret s1 := by
  intro c
  induction c with
  | zero => intro i s s1 h; exact h
  | succ c ih =>
    intro i s s1 h
    simp only [forLoop] at h ⊢
    obtain ⟨s2, h2, hl⟩ := Exec.bind_eq_ret.1 h
    rw [hb i s s2 h2, Exec.bind_ret]
    exact ih _ _ _ hl

theorem expTable_fuel_mono (fuel extra : Nat) (gf : GaloisField) (t0 t : List GfPoly)
    (h : gfConstructExp2BinPoly fuel gf t0 = .ret t) :
    gfConstructExp2BinPoly (fuel + extra) gf t0 = .ret t := by
  unfold gfConstructExp2BinPoly at h ⊢
  obtain ⟨t1, h1, h2⟩ := Exec.bind_eq_ret.1 h
  rw [h1, Exec.bind_ret]
  refine forLoop_mono (otherCase fuel gf) (otherCase (fuel + extra) gf) ?_ _ _ _ _ h2
  intro k s s1 hk
  unfold otherCase at hk ⊢
  cases hp : s[uintSub k 1]? with
  | none => rw [hp] at hk; cases hk
  | some prev =>
    rw [hp] at hk
    simp only at hk ⊢
    obtain ⟨r, hr, hw⟩ := Exec.bind_eq_ret.1 hk
    unfold gfBinaryPolyMod at hr ⊢
    rw [modLoop_fuel_mono _ _ _ _ _ _ hr extra, Exec.bind_ret]
    exact hw

/-- The receiver's prior state does not influence `GfConstructGaloisField`. -/
theorem construct_prior_irrelevant (fuel : Nat) (gf gf0 : GaloisField) (m : Nat) (p : GfPoly) :
    GfConstructGaloisField fuel gf m p = GfConstructGaloisField fuel gf0 m p := rfl

theorem construct_fuel_mono (fuel extra : Nat) (gf : GaloisField) (m : Nat) (p : GfPoly)
    (r : GaloisField × Option GfError) (h : GfConstructGaloisField fuel gf m p = .ret r) :
    GfConstructGaloisField (fuel + extra) gf m p = .ret r := by
  obtain ⟨h1, h2⟩ := construct_ret_bounds fuel gf m p r h
  rw [construct_eq _ gf m p h1 h2] at h ⊢
  obtain ⟨t, ht, ha⟩ := Exec.bind_eq_ret.1 h
  rw [expTable_fuel_mono fuel extra _ _ _ ht, Exec.bind_ret]
  exact ha

/-! ## Counting: a table closed under sums has pairwise different entries -/

theorem sig_monomial (m e : Nat) (he : e ≤ m) : sig m [(e, 1)] = {e} := by
  ext d
  simp only [sig, Finset.mem_filter, Finset.mem_range, Finset.mem_singleton, GfPoly.has,
    List.lookup]
  by_cases h : d = e
  · subst h
    simp
    omega
  · have hb : (d == e) = false := by simpa using h
    simp [hb, h]

theorem sig_subset (m : Nat) (p : GfPoly) : sig m p ⊆ Finset.range (m + 1) :=
  Finset.filter_subset _ _

/-- Every non-empty set of degrees below `m` is the key set of some entry, once the entries
`e < m` are the monomials and the sum of two entries is always an entry. -/
theorem all_sums_present (m n : Nat) (S : Nat → Finset Nat) (hmn : m ≤ n)
    (hmono : ∀ e, e < m → S e = {e})
    (hclosed : ∀ i j, i < n → j < n → i ≠ j → ∃ k, k < n ∧ S k = symmDiff (S i) (S j)) :
    ∀ s : Finset Nat, s ⊆ Finset.range m → s.Nonempty → ∃ k, k < n ∧ S k = s := by
  intro s
  induction s using Finset.induction_on with
  | empty => intro _ hne; exact absurd hne (by simp)
  | insert ha ih =>
    rename_i a s1
    intro hsub _
    have ham : a < m := by
      have := hsub (Finset.mem_insert_self a s1)
      simpa using this
    have hs1 : s1 ⊆ Finset.range m := fun x hx => hsub (Finset.mem_insert_of_mem hx)
    by_cases hemp : s1 = ∅
    · subst hemp
      exact ⟨a, by omega, by rw [hmono a ham]; simp⟩
    · obtain ⟨k1, hk1, hS1⟩ := ih hs1 (Finset.nonempty_iff_ne_empty.2 hemp)
      have hne : k1 ≠ a := by
        intro heq
        rw [heq, hmono a ham] at hS1
        apply ha
        rw [← hS1]; simp
      obtain ⟨k, hk, hS⟩ := hclosed k1 a hk1 (by omega) hne
      refine ⟨k, hk, ?_⟩
      rw [hS, hS1, hmono a ham]
      ext d
      simp only [Finset.mem_symmDiff, Finset.mem_singleton, Finset.mem_insert]
      constructor
      · rintro (⟨h1, _⟩ | ⟨h1, _⟩)
        · right; exact h1
        · left; exact h1
      · rintro (h1 | h1)
        · right; exact ⟨h1, by rw [h1]; exact ha⟩
        · left; exact ⟨h1, by rintro rfl; exact ha h1⟩

theorem card_nonempty_subsets (m : Nat) :
    ((Finset.range m).powerset.erase ∅).card = 2 ^ m - 1 := by
  rw [Finset.card_erase_of_mem (by simp), Finset.card_powerset, Finset.card_range]

theorem sums_injective (m n : Nat) (S : Nat → Finset Nat) (hn : n = 2 ^ m - 1) (hmn : m ≤ n)
    (hmono : ∀ e, e < m → S e = {e})
    (hclosed : ∀ i j, i < n → j < n → i ≠ j → ∃ k, k < n ∧ S k = symmDiff (S i) (S j)) :
    ∀ i j, i < n → j < n → S i = S j → i = j := by
  have hall := all_sums_present m n S hmn hmono hclosed
  have hsub : (Finset.range m).powerset.erase ∅ ⊆ (Finset.range n).image S := by
    intro s hs
    obtain ⟨hne, hp⟩ := Finset.mem_erase.1 hs
    obtain ⟨k, hk, hS⟩ := hall s (Finset.mem_powerset.1 hp) (Finset.nonempty_iff_ne_empty.2 hne)
    exact Finset.mem_image.2 ⟨k, Finset.mem_range.2 hk, hS⟩
  have hcard : ((Finset.range n).image S).card = (Finset.range n).card := by
    apply le_antisymm Finset.card_image_le
    have := Finset.card_le_card hsub
    rw [card_nonempty_subsets] at this
    rw [Finset.card_range]
    omega
  have hinj := Finset.card_image_iff.1 hcard
  intro i j hi hj hS
  exact hinj (by simpa using hi) (by simpa using hj) hS

theorem le_two_pow_sub_one (m : Nat) : m ≤ 2 ^ m - 1 := by
  have := Nat.lt_two_pow m
  omega

open Polynomial

/-! ## The maps as polynomials over GF(2) -/

theorem toPoly_nil : toPoly [] = 0 := by simp [toPoly]

theorem toPoly_cons (e : Nat × Nat) (p : GfPoly) :
    toPoly (e :: p) = monomial e.1 (e.2 : ZMod 2) + toPoly p := by
  simp [toPoly]

theorem has_cons (k v d : Nat) (p : GfPoly) :
    GfPoly.has ((k, v) :: p) d = (decide (d = k) || GfPoly.has p d) := by
  unfold GfPoly.has
  by_cases h : d = k
  · subst h; simp [List.lookup]
  · have hb : (d == k) = false := by simpa using h
    simp [List.lookup, hb, h]

theorem canonical_tail (e : Nat × Nat) (p : GfPoly) (h : GfPoly.Canonical (e :: p)) :
    GfPoly.Canonical p := by
  obtain ⟨h1, h2⟩ := h
  simp only [List.map_cons, List.nodup_cons] at h1
  exact ⟨h1.2, fun x hx => h2 x (List.mem_cons_of_mem _ hx)⟩

/-- The coefficients of a canonical map: 1 on its keys, 0 elsewhere. -/
theorem coeff_toPoly (p : GfPoly) (h : p.Canonical) (d : Nat) :
    (toPoly p).coeff d = if p.has d then 1 else 0 := by
  induction p with
  | nil => simp [toPoly_nil, GfPoly.has, List.lookup]
  | cons e rest ih =>
    obtain ⟨k, v⟩ := e
    have hv : v = 1 := h.2 (k, v) (List.mem_cons_self _ _)
    subst hv
    have hk : ¬ k ∈ rest.map Prod.fst := by
      have := h.1
      simp only [List.map_cons, List.nodup_cons] at this
      exact this.1
    rw [toPoly_cons, coeff_add, ih (canonical_tail _ _ h), has_cons, coeff_monomial]
    by_cases hd : d = k
    · subst hd
      have : GfPoly.has rest d = false := by
        cases hh : GfPoly.has rest d with
        | false => rfl
        | true => exact absurd ((GfPoly.has_iff_mem_keys rest d).1 hh) hk
      simp [this]
    · have hd2 : ¬ k = d := fun h2 => hd h2.symm
      simp [hd, hd2]

theorem keysLe_has (p : GfPoly) (b d : Nat) (h : KeysLe p b) (hd : p.has d = true) : d ≤ b := by
  obtain ⟨e, he, rfl⟩ := List.mem_map.1 ((GfPoly.has_iff_mem_keys p d).1 hd)
  exact h e he

theorem keysLe_of_has (p : GfPoly) (b : Nat) (h : ∀ d, p.has d = true → d ≤ b) :
    KeysLe p b := by
  intro e he
  exact h e.1 ((GfPoly.has_iff_mem_keys p e.1).2 (List.mem_map.2 ⟨e, he, rfl⟩))

theorem toPoly_eq_of_has (p q : GfPoly) (hp : p.Canonical) (hq : q.Canonical)
    (h : ∀ d, p.has d = q.has d) : toPoly p = toPoly q := by
  ext d
  rw [coeff_toPoly p hp, coeff_toPoly q hq, h d]

theorem toPoly_copy (p : GfPoly) (hp : p.Canonical) : toPoly p.copy = toPoly p :=
  toPoly_eq_of_has _ _ (GfPoly.copy_canonical p hp) hp (GfPoly.copy_has p)

theorem toPoly_addPoly (m : Nat) (a b : GfPoly) (ha : a.Canonical) (hb : b.Canonical)
    (hka : KeysLe a m) (hkb : KeysLe b m) :
    toPoly (addPoly m a b) = toPoly a + toPoly b := by
  ext d
  rw [coeff_add, coeff_toPoly _ (addPoly_canonical m a b), coeff_toPoly a ha,
    coeff_toPoly b hb, addPoly_has]
  have h2 : (1 : ZMod 2) + 1 = 0 := by decide
  by_cases hd : d ≤ m
  · cases h3 : a.has d <;> cases h4 : b.has d <;> simp [hd, h2]
  · have h3 : a.has d = false := by
      cases hh : a.has d with
      | false => rfl
      | true => exact absurd (keysLe_has a m d hka hh) hd
    have h4 : b.has d = false := by
      cases hh : b.has d with
      | false => rfl
      | true => exact absurd (keysLe_has b m d hkb hh) hd
    simp [hd, h3, h4]

theorem toPoly_monomial (e : Nat) : toPoly [(e, 1)] = X ^ e := by
  simp [toPoly, Polynomial.X_pow_eq_monomial]

/-! ## The highest degree -/

theorem maxDegLoop_spec (p : GfPoly) : ∀ mx0,
    mx0 ≤ p.foldl (fun maxDeg e => if e.1 > maxDeg then e.1 else maxDeg) mx0 ∧
    (∀ e ∈ p, e.1 ≤ p.foldl (fun maxDeg e => if e.1 > maxDeg then e.1 else maxDeg) mx0) ∧
    (p.foldl (fun maxDeg e => if e.1 > maxDeg then e.1 else maxDeg) mx0 = mx0 ∨
      p.foldl (fun maxDeg e => if e.1 > maxDeg then e.1 else maxDeg) mx0 ∈ p.map Prod.fst) := by
  induction p with
  | nil => intro mx0; simp
  | cons x rest ih =>
    intro mx0
    simp only [List.foldl_cons, List.mem_cons, List.map_cons]
    obtain ⟨h1, h2, h3⟩ := ih (if x.1 > mx0 then x.1 else mx0)
    have hle : mx0 ≤ (if x.1 > mx0 then x.1 else mx0) := by split <;> omega
    have hx : x.1 ≤ (if x.1 > mx0 then x.1 else mx0) := by split <;> omega
    refine ⟨le_trans hle h1, ?_, ?_⟩
    · intro e he
      rcases he with he | he
      · rw [he]; exact le_trans hx h1
      · exact h2 e he
    · rcases h3 with h3 | h3
      · rw [h3]
        by_cases hgt : x.1 > mx0
        · right; left; simp [hgt]
        · left; simp [hgt]
      · right; right; exact h3

theorem gfFindMaxDeg_ge (p : GfPoly) : KeysLe p (gfFindMaxDeg p) :=
  (maxDegLoop_spec p 0).2.1

theorem gfFindMaxDeg_has (p : GfPoly) (h : 1 ≤ gfFindMaxDeg p) :
    p.has (gfFindMaxDeg p) = true := by
  rcases (maxDegLoop_spec p 0).2.2 with h0 | hmem
  · unfold gfFindMaxDeg at h; omega
  · exact (GfPoly.has_iff_mem_keys p _).2 hmem

theorem gfFindMaxDeg_lt (p : GfPoly) (b : Nat) (hb : 1 ≤ b)
    (h : ∀ d, p.has d = true → d < b) : gfFindMaxDeg p < b := by
  by_cases h0 : 1 ≤ gfFindMaxDeg p
  · exact h _ (gfFindMaxDeg_has p h0)
  · omega

/-! ## Multiplication by a monomial -/

theorem lookup_none_coef (r : GfPoly) (d : Nat) (h : r.lookup d = none) : r.coef d = 0 := by
  simp [GfPoly.coef, h]

/-- The first loop of `gfBinaryPolyMulti` over a canonical operand, for the multiplier
`x^k`: every term is moved up by `k`, as long as no degree wraps around. -/
theorem shiftLoop_lookup (k : Nat) (l : List (Nat × Nat)) :
    ∀ r : GfPoly, (l.map Prod.fst).Nodup → (∀ e ∈ l, e.2 = 1) →
      (∀ e ∈ l, e.1 + k < uintSize) → (∀ e ∈ l, r.lookup (e.1 + k) = none) →
      ∀ d, (l.foldl (fun (r1 : GfPoly) e1 =>
          r1.set ((e1.1 + k) % uintSize)
            (((r1.coef ((e1.1 + k) % uintSize) + (e1.2 * 1) % uintSize) % uintSize) % 2)) r).lookup d =
        if ∃ e ∈ l, e.1 + k = d then some 1 else r.lookup d := by
  induction l with
  | nil => intro r _ _ _ _ d; simp
  | cons x rest ih =>
    intro r hnd hone hlt hfree d
    obtain ⟨a, c⟩ := x
    have hc : c = 1 := hone (a, c) (List.mem_cons_self _ _)
    subst hc
    have ha : (a + k) % uintSize = a + k :=
      Nat.mod_eq_of_lt (hlt (a, 1) (List.mem_cons_self _ _))
    have hcoef : r.coef (a + k) = 0 :=
      lookup_none_coef r _ (hfree (a, 1) (List.mem_cons_self _ _))
    have hval : ((0 + 1 * 1 % uintSize) % uintSize) % 2 = 1 := by
      norm_num [uintSize]
    simp only [List.map_cons, List.nodup_cons] at hnd
    simp only [List.foldl_cons, ha, hcoef, hval]
    rw [ih (r.set (a + k) 1) hnd.2 (fun e he => hone e (List.mem_cons_of_mem _ he))
      (fun e he => hlt e (List.mem_cons_of_mem _ he)) ?_ d]
    · rw [GfPoly.lookup_set]
      by_cases h1 : ∃ e ∈ rest, e.1 + k = d
      · have h2 : ∃ e ∈ (a, 1) :: rest, e.1 + k = d := by
          obtain ⟨e, he, hd⟩ := h1
          exact ⟨e, List.mem_cons_of_mem _ he, hd⟩
        rw [if_pos h1, if_pos h2]
      · rw [if_neg h1]
        by_cases h3 : d = a + k
        · have h2 : ∃ e ∈ (a, 1) :: rest, e.1 + k = d :=
            ⟨(a, 1), List.mem_cons_self _ _, h3.symm⟩
          rw [if_pos h3, if_pos h2]
        · have h2 : ¬ ∃ e ∈ (a, 1) :: rest, e.1 + k = d := by
            rintro ⟨e, he, hd⟩
            rcases List.mem_cons.1 he with he | he
            · rw [he] at hd; exact h3 hd.symm
            · exact h1 ⟨e, he, hd⟩
          rw [if_neg h3, if_neg h2]
    · intro e he
      rw [GfPoly.lookup_set]
      have hne : e.1 + k ≠ a + k := by
        intro heq
        have : e.1 = a := by omega
        exact hnd.1 (List.mem_map.2 ⟨e, he, this⟩)
      rw [if_neg hne]
      exact hfree e (List.mem_cons_of_mem _ he)

/-- The terms of `p * x^k` for a canonical `p` whose degrees stay below 2^64 after the move. -/
theorem multi_monomial_has (p : GfPoly) (k : Nat) (hp : p.Canonical)
    (hlt : ∀ e ∈ p, e.1 + k < uintSize) (d : Nat) :
    (gfBinaryPolyMulti p [(k, 1)]).has d = (decide (k ≤ d) && p.has (d - k)) := by
  have hacc := shiftLoop_lookup k p [] hp.1 hp.2 hlt (fun _ _ => rfl)
  have hwf : GfPoly.WF (p.foldl (fun (r1 : GfPoly) e1 =>
          r1.set ((e1.1 + k) % uintSize)
            (((r1.coef ((e1.1 + k) % uintSize) + (e1.2 * 1) % uintSize) % uintSize) % 2)) []) := by
    refine GfPoly.foldl_inv GfPoly.WF _ ?_ p [] GfPoly.wf_nil
    intro r1 e1 hr1
    exact GfPoly.wf_set _ _ _ hr1
  have hfold : gfBinaryPolyMulti p [(k, 1)] = GfPoly.prune (p.foldl (fun (r1 : GfPoly) e1 =>
      r1.set ((e1.1 + k) % uintSize)
        (((r1.coef ((e1.1 + k) % uintSize) + (e1.2 * 1) % uintSize) % uintSize) % 2)) []) := rfl
  rw [hfold]
  unfold GfPoly.has
  rw [GfPoly.lookup_prune _ hwf, hacc d]
  by_cases hex : ∃ e ∈ p, e.1 + k = d
  · rw [if_pos hex]
    obtain ⟨e, he, hd⟩ := hex
    have h1 : k ≤ d := by omega
    have h2 : p.has (d - k) = true := by
      rw [GfPoly.has_iff_mem_keys]
      exact List.mem_map.2 ⟨e, he, by omega⟩
    unfold GfPoly.has at h2
    simp [Option.filter, h1, h2]
  · rw [if_neg hex]
    have : (decide (k ≤ d) && (List.lookup (d - k) p).isSome) = false := by
      by_contra hcon
      simp only [Bool.not_eq_false, Bool.and_eq_true, decide_eq_true_eq] at hcon
      obtain ⟨h1, h2⟩ := hcon
      have h3 : p.has (d - k) = true := h2
      obtain ⟨e, he, hd⟩ := List.mem_map.1 ((GfPoly.has_iff_mem_keys p _).1 h3)
      exact hex ⟨e, he, by omega⟩
    rw [this]
    simp [Option.filter, List.lookup]

theorem toPoly_multi_monomial (p : GfPoly) (k : Nat) (hp : p.Canonical)
    (hlt : ∀ e ∈ p, e.1 + k < uintSize) :
    toPoly (gfBinaryPolyMulti p [(k, 1)]) = toPoly p * X ^ k := by
  ext d
  rw [coeff_toPoly _ (gfBinaryPolyMulti_canonical _ _), multi_monomial_has p k hp hlt,
    coeff_mul_X_pow', coeff_toPoly p hp]
  by_cases h : k ≤ d
  · simp [h]
  · simp [h]

theorem multi_monomial_keysLe (p : GfPoly) (k b : Nat) (hp : p.Canonical)
    (hlt : ∀ e ∈ p, e.1 + k < uintSize) (hb : KeysLe p b) :
    KeysLe (gfBinaryPolyMulti p [(k, 1)]) (b + k) := by
  apply keysLe_of_has
  intro d hd
  rw [multi_monomial_has p k hp hlt] at hd
  simp only [Bool.and_eq_true, decide_eq_true_eq] at hd
  have := keysLe_has p b _ hb hd.2
  omega

/-! ## The long division -/

theorem gfFindMaxDeg_le (p : GfPoly) (b : Nat) (h : KeysLe p b) : gfFindMaxDeg p ≤ b := by
  rcases (maxDegLoop_spec p 0).2.2 with h0 | hmem
  · unfold gfFindMaxDeg; omega
  · obtain ⟨e, he, hd⟩ := List.mem_map.1 hmem
    have := h e he
    unfold gfFindMaxDeg
    omega

theorem keysLe_copy (p : GfPoly) (b : Nat) (h : KeysLe p b) : KeysLe p.copy b := by
  apply keysLe_of_has
  intro d hd
  rw [GfPoly.copy_has] at hd
  exact keysLe_has p b d h hd

theorem has_false_of_gt (p : GfPoly) (b d : Nat) (h : KeysLe p b) (hd : b < d) :
    p.has d = false := by
  cases hh : p.has d with
  | false => rfl
  | true => have := keysLe_has p b d h hh; omega

/-- One round of the division loop: subtracting the aligned divisor lowers the highest degree
and changes the polynomial by a multiple of the divisor. -/
theorem modStep_spec (m : Nat) (p2 r : GfPoly) (hm : m < maxUint) (hp2 : p2.Canonical)
    (hK : 1 ≤ gfFindMaxDeg p2) (hr : r.Canonical) (hrm : KeysLe r m)
    (hD : gfFindMaxDeg p2 ≤ gfFindMaxDeg r) :
    (addPoly m r (gfBinaryPolyMulti p2 [(gfFindMaxDeg r - gfFindMaxDeg p2, 1)])).copy.Canonical ∧
    KeysLe (addPoly m r (gfBinaryPolyMulti p2 [(gfFindMaxDeg r - gfFindMaxDeg p2, 1)])).copy m ∧
    gfFindMaxDeg (addPoly m r
      (gfBinaryPolyMulti p2 [(gfFindMaxDeg r - gfFindMaxDeg p2, 1)])).copy < gfFindMaxDeg r ∧
    toPoly (addPoly m r (gfBinaryPolyMulti p2 [(gfFindMaxDeg r - gfFindMaxDeg p2, 1)])).copy =
      toPoly r + toPoly p2 * X ^ (gfFindMaxDeg r - gfFindMaxDeg p2) := by
  have hD1 : 1 ≤ gfFindMaxDeg r := by omega
  have hrD := gfFindMaxDeg_has r hD1
  have hDm : gfFindMaxDeg r ≤ m := keysLe_has r m _ hrm hrD
  have hlt : ∀ e ∈ p2, e.1 + (gfFindMaxDeg r - gfFindMaxDeg p2) < uintSize := by
    intro e he
    have h1 := gfFindMaxDeg_ge p2 e he
    have h2 : maxUint = 18446744073709551615 := rfl
    have h3 : uintSize = 18446744073709551616 := rfl
    omega
  have hs := gfBinaryPolyMulti_canonical p2 [(gfFindMaxDeg r - gfFindMaxDeg p2, 1)]
  have hsk : KeysLe (gfBinaryPolyMulti p2 [(gfFindMaxDeg r - gfFindMaxDeg p2, 1)])
      (gfFindMaxDeg r) := by
    have := multi_monomial_keysLe p2 (gfFindMaxDeg r - gfFindMaxDeg p2) (gfFindMaxDeg p2) hp2
      hlt (gfFindMaxDeg_ge p2)
    have e : gfFindMaxDeg p2 + (gfFindMaxDeg r - gfFindMaxDeg p2) = gfFindMaxDeg r := by omega
    rw [e] at this
    exact this
  have hskm : KeysLe (gfBinaryPolyMulti p2 [(gfFindMaxDeg r - gfFindMaxDeg p2, 1)]) m :=
    fun e he => le_trans (hsk e he) hDm
  have hhas : ∀ d, (addPoly m r
      (gfBinaryPolyMulti p2 [(gfFindMaxDeg r - gfFindMaxDeg p2, 1)])).copy.has d = true →
      d < gfFindMaxDeg r := by
    intro d hd
    rw [GfPoly.copy_has, addPoly_has] at hd
    simp only [Bool.and_eq_true, decide_eq_true_eq] at hd
    by_contra hcon
    rcases Nat.lt_or_ge (gfFindMaxDeg r) d with hgt | hle
    · rw [has_false_of_gt r _ d (gfFindMaxDeg_ge r) hgt, has_false_of_gt _ _ d hsk hgt] at hd
      simp at hd
    · have hdD : d = gfFindMaxDeg r := by omega
      have h2 : (gfBinaryPolyMulti p2 [(gfFindMaxDeg r - gfFindMaxDeg p2, 1)]).has d = true := by
        rw [multi_monomial_has p2 _ hp2 hlt, hdD]
        have e : gfFindMaxDeg r - (gfFindMaxDeg r - gfFindMaxDeg p2) = gfFindMaxDeg p2 := by
          omega
        rw [e, gfFindMaxDeg_has p2 hK]
        simp
      rw [h2, hdD, hrD] at hd
      simp at hd
  refine ⟨GfPoly.copy_canonical _ (addPoly_canonical _ _ _), ?_, ?_, ?_⟩
  · apply keysLe_of_has
    intro d hd
    have := hhas d hd
    omega
  · exact gfFindMaxDeg_lt _ _ hD1 hhas
  · rw [toPoly_copy _ (addPoly_canonical _ _ _), toPoly_addPoly m _ _ hr hs hrm hskm,
      toPoly_multi_monomial p2 _ hp2 hlt]

theorem modLoop_spec (m : Nat) (p2 : GfPoly) (hm : m < maxUint) (hp2 : p2.Canonical)
    (hK : 1 ≤ gfFindMaxDeg p2) :
    ∀ fuel r, r.Canonical → KeysLe r m → 1 ≤ fuel →
      gfFindMaxDeg r + 2 ≤ fuel + gfFindMaxDeg p2 →
      ∃ r1 q, gfBinaryPolyModLoop m p2 (gfFindMaxDeg p2) fuel r = .ret r1 ∧ r1.Canonical ∧
        gfFindMaxDeg r1 < gfFindMaxDeg p2 ∧ toPoly r = q * toPoly p2 + toPoly r1 := by
  intro fuel
  induction fuel with
  | zero => intro r _ _ h; omega
  | succ fuel ih =>
    intro r hr hrm _ hfuel
    unfold gfBinaryPolyModLoop
    by_cases hd : gfFindMaxDeg r < gfFindMaxDeg p2
    · rw [if_pos hd]
      exact ⟨r, 0, rfl, hr, hd, by simp⟩
    · rw [if_neg hd, gfBinaryPolyAdd_eq _ _ _ hm, Exec.bind_ret]
      obtain ⟨h1, h2, h3, h4⟩ := modStep_spec m p2 r hm hp2 hK hr hrm (by omega)
      obtain ⟨r1, q, hl, hc, hlt, hq⟩ := ih _ h1 h2 (by omega) (by omega)
      refine ⟨r1, q + X ^ (gfFindMaxDeg r - gfFindMaxDeg p2), hl, hc, hlt, ?_⟩
      have h5 : toPoly r = toPoly (addPoly m r
          (gfBinaryPolyMulti p2 [(gfFindMaxDeg r - gfFindMaxDeg p2, 1)])).copy +
          toPoly p2 * X ^ (gfFindMaxDeg r - gfFindMaxDeg p2) := by
        rw [h4, add_assoc, CharTwo.add_self_eq_zero, add_zero]
      rw [h5, hq]
      ring

/-- Total correctness of `gfBinaryPolyMod` on canonical operands within the degrees `0..m`. -/
theorem gfBinaryPolyMod_spec (fuel m : Nat) (p1 p2 : GfPoly) (hm : m < maxUint)
    (hp1 : p1.Canonical) (hp1m : KeysLe p1 m) (hp2 : p2.Canonical)
    (hK : 1 ≤ gfFindMaxDeg p2) (h1 : 1 ≤ fuel)
    (hfuel : gfFindMaxDeg p1.copy + 2 ≤ fuel + gfFindMaxDeg p2) :
    ∃ r q, gfBinaryPolyMod fuel m p1 p2 = .ret r ∧ r.Canonical ∧
      gfFindMaxDeg r < gfFindMaxDeg p2 ∧ toPoly p1 = q * toPoly p2 + toPoly r := by
  obtain ⟨r, q, hl, hc, hlt, hq⟩ := modLoop_spec m p2 hm hp2 hK fuel p1.copy
    (GfPoly.copy_canonical p1 hp1) (keysLe_copy p1 m hp1m) h1 hfuel
  rw [toPoly_copy p1 hp1] at hq
  exact ⟨r, q, hl, hc, hlt, hq⟩

/-! ## Degree and remainder -/

theorem toPoly_coeff_top (p : GfPoly) (hp : p.Canonical) (hK : 1 ≤ gfFindMaxDeg p) :
    (toPoly p).coeff (gfFindMaxDeg p) = 1 := by
  rw [coeff_toPoly p hp, gfFindMaxDeg_has p hK]; simp

theorem toPoly_coeff_above (p : GfPoly) (hp : p.Canonical) (b d : Nat) (hb : KeysLe p b)
    (hd : b < d) : (toPoly p).coeff d = 0 := by
  rw [coeff_toPoly p hp, has_false_of_gt p b d hb hd]; simp

theorem toPoly_natDegree (p : GfPoly) (hp : p.Canonical) (hK : 1 ≤ gfFindMaxDeg p) :
    (toPoly p).natDegree = gfFindMaxDeg p := by
  apply le_antisymm
  · rw [natDegree_le_iff_coeff_eq_zero]
    intro d hd
    exact toPoly_coeff_above p hp _ d (gfFindMaxDeg_ge p) hd
  · apply le_natDegree_of_ne_zero
    rw [toPoly_coeff_top p hp hK]
    exact one_ne_zero

theorem toPoly_monic (p : GfPoly) (hp : p.Canonical) (hK : 1 ≤ gfFindMaxDeg p) :
    (toPoly p).Monic := by
  unfold Monic leadingCoeff
  rw [toPoly_natDegree p hp hK, toPoly_coeff_top p hp hK]

theorem toPoly_degree_lt (r p : GfPoly) (hr : r.Canonical) (hp : p.Canonical)
    (hK : 1 ≤ gfFindMaxDeg p) (hlt : gfFindMaxDeg r < gfFindMaxDeg p) :
    (toPoly r).degree < (toPoly p).degree := by
  have hne : toPoly p ≠ 0 := (toPoly_monic p hp hK).ne_zero
  rw [degree_eq_natDegree hne, toPoly_natDegree p hp hK, degree_lt_iff_coeff_zero]
  intro d hd
  exact toPoly_coeff_above r hr _ d (gfFindMaxDeg_ge r) (by omega)

theorem toPoly_eq_modByMonic (f q : Polynomial (ZMod 2)) (r p : GfPoly) (hr : r.Canonical)
    (hp : p.Canonical) (hK : 1 ≤ gfFindMaxDeg p) (hlt : gfFindMaxDeg r < gfFindMaxDeg p)
    (hf : f = q * toPoly p + toPoly r) : toPoly r = f %ₘ toPoly p := by
  have hsum : toPoly r + toPoly p * q = f := by rw [hf]; ring
  have := div_modByMonic_unique q (toPoly r) (toPoly_monic p hp hK)
    ⟨hsum, toPoly_degree_lt r p hr hp hK hlt⟩
  exact this.2.symm

/-! ## The exponent table, total -/

theorem trivialCases_eq (m n : Nat) (hmn : m ≤ n) :
    ∃ t1, forLoop trivialCase m 0 (List.replicate n ([] : GfPoly)) = .ret t1 ∧
      t1.length = n ∧ ∀ e, e < m → t1.getD e [] = [(e, 1)] := by
  obtain ⟨t1, h, hinv⟩ := forLoop_rule trivialCase
    (fun k (s : List GfPoly) => s.length = n ∧ (∀ e, e < k → s.getD e [] = [(e, 1)]) ∧
      (∀ e, k ≤ e → s.getD e [] = []))
    m 0 (List.replicate n []) ⟨by simp, by intro e he; omega, by
      intro e _
      by_cases he : e < n
      · simp [List.getD, List.getElem?_replicate, he]
      · simp [List.getD, List.getElem?_replicate, he]⟩
    (by
      intro k s1 _ hk hinv
      obtain ⟨i1, i3, i4⟩ := hinv
      have hk2 : k < s1.length := by omega
      refine ⟨s1.set k ((s1.getD k []).set k 1), ?_, by simpa using i1, ?_, ?_⟩
      · unfold trivialCase
        rw [getElem?_getD s1 k [] hk2]
      · intro e he
        by_cases hek : e = k
        · subst hek
          rw [getD_set_self _ _ _ _ hk2, i4 e (le_refl _)]
          rfl
        · rw [getD_set_ne _ _ _ _ _ (Ne.symm hek)]
          exact i3 e (by omega)
      · intro e he
        rw [getD_set_ne _ _ _ _ _ (by omega)]
        exact i4 e (by omega))
  simp only [Nat.zero_add] at hinv
  exact ⟨t1, h, hinv.1, hinv.2.1⟩

theorem otherCase_spec (fuel : Nat) (gf : GaloisField) (k : Nat) (t : List GfPoly)
    (h1 : 1 ≤ gf.m) (hm : gf.m < maxUint) (hp : gf.priPoly.Canonical)
    (hdeg : gfFindMaxDeg gf.priPoly = gf.m) (hfuel : 2 ≤ fuel) (hk : gf.m ≤ k)
    (hkt : k < t.length) (hprev : GoodEntry gf.m gf.priPoly (k - 1) (t.getD (k - 1) [])) :
    ∃ r, otherCase fuel gf k t = .ret (t.set k r) ∧ GoodEntry gf.m gf.priPoly k r := by
  obtain ⟨hc, hlt, q1, hq1⟩ := hprev
  have hsub : uintSub k 1 = k - 1 := by
    have : 1 ≤ k := by omega
    simp [uintSub, this]
  have hkeys : KeysLe (t.getD (k - 1) []) (gf.m - 1) := by
    intro e he
    have := gfFindMaxDeg_ge _ e he
    omega
  have hlt2 : ∀ e ∈ t.getD (k - 1) [], e.1 + 1 < uintSize := by
    intro e he
    have := hkeys e he
    have h2 : maxUint = 18446744073709551615 := rfl
    have h3 : uintSize = 18446744073709551616 := rfl
    omega
  have hk1 : KeysLe (gfBinaryPolyMulti (t.getD (k - 1) []) [(1, 1)]) gf.m := by
    have := multi_monomial_keysLe _ 1 _ hc hlt2 hkeys
    have e : gf.m - 1 + 1 = gf.m := by omega
    rw [e] at this
    exact this
  have hK : 1 ≤ gfFindMaxDeg gf.priPoly := by omega
  obtain ⟨r, q, hmod, hrc, hrlt, hq⟩ := gfBinaryPolyMod_spec fuel gf.m
    (gfBinaryPolyMulti (t.getD (k - 1) []) [(1, 1)]) gf.priPoly hm
    (gfBinaryPolyMulti_canonical _ _) hk1 hp hK (by omega) (by
      have := gfFindMaxDeg_le _ _ (keysLe_copy _ _ hk1)
      omega)
  refine ⟨r, ?_, hrc, by omega, q1 * X + q, ?_⟩
  · unfold otherCase
    rw [hsub, getElem?_getD t (k - 1) [] (by omega)]
    simp only
    rw [hmod, Exec.bind_ret, if_pos hkt]
  · have e : k = (k - 1) + 1 := by omega
    rw [toPoly_multi_monomial _ 1 hc hlt2] at hq
    calc (X : Polynomial (ZMod 2)) ^ k = X ^ (k - 1) * X := by
          conv_lhs => rw [e, pow_succ]
      _ = q1 * X * toPoly gf.priPoly + toPoly (t.getD (k - 1) []) * X ^ 1 := by
          rw [hq1]; ring
      _ = (q1 * X + q) * toPoly gf.priPoly + toPoly r := by
          rw [hq]; ring

theorem expTable_spec (fuel : Nat) (gf : GaloisField) (n : Nat)
    (hn : uintSub gf.fieldSize 1 = n) (h1 : 1 ≤ gf.m) (hmn : gf.m ≤ n) (hm : gf.m < maxUint)
    (hp : gf.priPoly.Canonical) (hdeg : gfFindMaxDeg gf.priPoly = gf.m) (hfuel : 2 ≤ fuel) :
    ∃ t, gfConstructExp2BinPoly fuel gf (List.replicate n []) = .ret t ∧ t.length = n ∧
      ∀ e, e < n → GoodEntry gf.m gf.priPoly e (t.getD e []) := by
  obtain ⟨t1, hl1, hlen1, hmono⟩ := trivialCases_eq gf.m n hmn
  obtain ⟨t, hl2, hinv⟩ := forLoop_rule (otherCase fuel gf)
    (fun k (s : List GfPoly) => s.length = n ∧
      ∀ e, e < k → GoodEntry gf.m gf.priPoly e (s.getD e []))
    (n - gf.m) gf.m t1
    ⟨hlen1, by
      intro e he
      rw [hmono e he]
      refine ⟨⟨by simp, by intro x hx; simp at hx; rw [hx]⟩, ?_, 0, by simp [toPoly_monomial]⟩
      have : gfFindMaxDeg [(e, 1)] = e := by
        by_cases h0 : e > 0
        · simp [gfFindMaxDeg, h0]
        · simp [gfFindMaxDeg, h0]; omega
      omega⟩
    (by
      intro k s1 hk1 hk2 hinv
      obtain ⟨i1, i2⟩ := hinv
      obtain ⟨r, hr, hgood⟩ := otherCase_spec fuel gf k s1 h1 hm hp hdeg hfuel hk1 (by omega)
        (i2 (k - 1) (by omega))
      refine ⟨s1.set k r, hr, by simpa using i1, ?_⟩
      intro e he
      by_cases hek : e = k
      · subst hek
        rw [getD_set_self _ _ _ _ (by omega)]
        exact hgood
      · rw [getD_set_ne _ _ _ _ _ (Ne.symm hek)]
        exact i2 e (by omega))
  have e : gf.m + (n - gf.m) = n := by omega
  rw [e] at hinv
  refine ⟨t, ?_, hinv.1, hinv.2⟩
  unfold gfConstructExp2BinPoly
  rw [hl1, Exec.bind_ret, hn]
  exact hl2

/-! ## Runs that cannot panic -/

theorem Exec.bind_ne_panic {α β : Type} (x : Exec α) (f : α → Exec β) (hx : x ≠ .panic)
    (hf : ∀ a, x = .ret a → f a ≠ .panic) : x.bind f ≠ .panic := by
  cases x with
  | ret a => exact hf a rfl
  | panic => exact absurd rfl hx
  | diverge => intro h; cases h

/-- A loop without early exit does not panic when no round does. -/
theorem forLoop_ne_panic {σ : Type} (body : Nat → σ → Exec σ) (Inv : Nat → σ → Prop) :
    ∀ (c i : Nat) (s : σ), Inv i s →
      (∀ k s1, i ≤ k → k < i + c → Inv k s1 →
        body k s1 ≠ .panic ∧ ∀ s2, body k s1 = .ret s2 → Inv (k + 1) s2) →
      forLoop body c i s ≠ .panic := by
  intro c
  induction c with
  | zero => intro i s _ _ h; cases h
  | succ c ih =>
    intro i s h0 hstep
    obtain ⟨hnp, hnext⟩ := hstep i s (le_refl _) (by omega) h0
    simp only [forLoop]
    refine Exec.bind_ne_panic _ _ hnp ?_
    intro s1 hs1
    exact ih (i + 1) s1 (hnext s1 hs1)
      (fun k t hk hk2 hI => hstep k t (by omega) (by omega) hI)

theorem modLoop_ne_panic (m : Nat) (p2 : GfPoly) (k : Nat) :
    ∀ fuel r, gfBinaryPolyModLoop m p2 k fuel r ≠ .panic := by
  intro fuel
  induction fuel with
  | zero => intro r h; simp [gfBinaryPolyModLoop] at h
  | succ fuel ih =>
    intro r
    unfold gfBinaryPolyModLoop
    by_cases hd : gfFindMaxDeg r < k
    · rw [if_pos hd]; intro h; cases h
    · rw [if_neg hd]
      refine Exec.bind_ne_panic _ _ ?_ (fun s _ => ih s.copy)
      unfold gfBinaryPolyAdd
      split <;> intro h <;> cases h

theorem gfBinaryPolyMod_ne_panic (fuel m : Nat) (p1 p2 : GfPoly) :
    gfBinaryPolyMod fuel m p1 p2 ≠ .panic :=
  modLoop_ne_panic m p2 _ fuel _

theorem otherCase_ne_panic (fuel : Nat) (gf : GaloisField) (k : Nat) (t : List GfPoly)
    (hk : 1 ≤ k) (hkt : k < t.length) :
    otherCase fuel gf k t ≠ .panic ∧
      ∀ t1, otherCase fuel gf k t = .ret t1 → t1.length = t.length := by
  have hsub : uintSub k 1 = k - 1 := by simp [uintSub, hk]
  refine ⟨?_, ?_⟩
  · unfold otherCase
    rw [hsub, getElem?_getD t (k - 1) [] (by omega)]
    simp only
    refine Exec.bind_ne_panic _ _ (gfBinaryPolyMod_ne_panic _ _ _ _) ?_
    intro r _
    rw [if_pos hkt]
    intro h; cases h
  · intro t1 h
    obtain ⟨_, r, _, rfl⟩ := otherCase_ret fuel gf k t t1 hk h
    simp

theorem expTable_ne_panic (fuel : Nat) (gf : GaloisField) (n : Nat)
    (hn : uintSub gf.fieldSize 1 = n) (h1 : 1 ≤ gf.m) (hmn : gf.m ≤ n) :
    gfConstructExp2BinPoly fuel gf (List.replicate n []) ≠ .panic := by
  obtain ⟨t1, hl1, hlen1, _⟩ := trivialCases_eq gf.m n hmn
  unfold gfConstructExp2BinPoly
  rw [hl1, Exec.bind_ret, hn]
  refine forLoop_ne_panic (otherCase fuel gf) (fun _ (s : List GfPoly) => s.length = n)
    (n - gf.m) gf.m t1 hlen1 ?_
  intro k s1 hk1 hk2 hinv
  obtain ⟨hnp, hlen⟩ := otherCase_ne_panic fuel gf k s1 (by omega) (by omega)
  refine ⟨hnp, fun s2 hs2 => ?_⟩
  show s2.length = n
  rw [hlen s2 hs2]; exact hinv

theorem gfConstructAddTable_ne_panic (gf : GaloisField) (t : List GfPoly) (n : Nat)
    (hm : gf.m < maxUint) (hn : uintSub gf.fieldSize 1 = n) (hnmax : n ≤ maxInt)
    (hlen : t.length = n) (hA0 : gf.addTable.length = n)
    (hrows : ∀ row ∈ gf.addTable, row.length = n) :
    gfConstructAddTable gf t ≠ .panic := by
  obtain ⟨A, e, hA, _⟩ := gfConstructAddTable_spec gf t n hm hn hnmax hlen hA0 hrows
  rw [hA]
  intro h; cases h

theorem gfFindExpByPoly_ne_panic (gf : GaloisField) (poly : GfPoly) (t : List GfPoly)
    (hlen : t.length = uintSub gf.fieldSize 1) (hm : gf.m < maxUint) :
    gfFindExpByPoly gf poly t ≠ .panic := by
  rcases gfFindExpByPoly_spec gf poly t hlen hm with ⟨k, _, h, _, _⟩ | ⟨h, _⟩
  · rw [h]; intro h2; cases h2
  · rw [h]; intro h2; cases h2

/-! ## The key sets of a successful table -/

/-- In a successfully constructed field the key sets of the table entries on the degrees
`0..m` are pairwise different and none is empty. -/
theorem construct_sig_facts (fuel m : Nat) (gf gf1 : GaloisField) (priPoly : GfPoly)
    (t : List GfPoly) (h : GfConstructGaloisField fuel gf m priPoly = .ret (gf1, none))
    (ht : gfConstructExp2BinPoly fuel gf1 (List.replicate (2 ^ m - 1) []) = .ret t) :
    (∀ i j, i < 2 ^ m - 1 → j < 2 ^ m - 1 → sig m (t.getD i []) = sig m (t.getD j []) →
      i = j) ∧
    (∀ i, i < 2 ^ m - 1 → sig m (t.getD i []) ≠ ∅) := by
  obtain ⟨h1, _, e1, _, e3, _, _, t1, ht1, _, _, hoff⟩ := construct_cells fuel gf m priPoly gf1 h
  rw [ht] at ht1
  simp only [Exec.ret.injEq] at ht1
  subst ht1
  obtain ⟨_, _, hmono, _⟩ := expTable_shape fuel gf1 (2 ^ m - 1) t
    (by rw [e3, uintSub_pow]) (by omega) ht
  have hmono2 : ∀ e, e < m → (fun k => sig m (t.getD k [])) e = {e} := by
    intro e he
    simp only
    rw [hmono e (by omega)]
    exact sig_monomial m e (by omega)
  have hclosed : ∀ i j, i < 2 ^ m - 1 → j < 2 ^ m - 1 → i ≠ j →
      ∃ k, k < 2 ^ m - 1 ∧ (fun k => sig m (t.getD k [])) k =
        symmDiff ((fun k => sig m (t.getD k [])) i) ((fun k => sig m (t.getD k [])) j) := by
    intro i j hi hj hij
    obtain ⟨k, hk, _, hsig, _⟩ := hoff i j hi hj hij
    exact ⟨k, hk, hsig⟩
  have hinj := sums_injective m (2 ^ m - 1) (fun k => sig m (t.getD k [])) rfl
    (le_two_pow_sub_one m) hmono2 hclosed
  refine ⟨hinj, ?_⟩
  -- counting: the image of the table is exactly the set of non-empty sets of degrees below m
  have hall := all_sums_present m (2 ^ m - 1) (fun k => sig m (t.getD k []))
    (le_two_pow_sub_one m) hmono2 hclosed
  have hsub : (Finset.range m).powerset.erase ∅ ⊆
      (Finset.range (2 ^ m - 1)).image (fun k => sig m (t.getD k [])) := by
    intro s hs
    obtain ⟨hne, hp⟩ := Finset.mem_erase.1 hs
    obtain ⟨k, hk, hS⟩ := hall s (Finset.mem_powerset.1 hp) (Finset.nonempty_iff_ne_empty.2 hne)
    exact Finset.mem_image.2 ⟨k, Finset.mem_range.2 hk, hS⟩
  have hcard : ((Finset.range (2 ^ m - 1)).image (fun k => sig m (t.getD k []))).card ≤
      ((Finset.range m).powerset.erase ∅).card := by
    rw [card_nonempty_subsets]
    refine le_trans Finset.card_image_le ?_
    rw [Finset.card_range]
  have heq := Finset.eq_of_subset_of_card_le hsub hcard
  intro i hi hempty
  have hmem : sig m (t.getD i []) ∈
      (Finset.range (2 ^ m - 1)).image (fun k => sig m (t.getD k [])) :=
    Finset.mem_image.2 ⟨i, Finset.mem_range.2 hi, rfl⟩
  rw [← heq] at hmem
  exact (Finset.mem_erase.1 hmem).1 hempty

/-! ## The lookup, as equivalences -/

theorem sig_eq_iff (m : Nat) (p q : GfPoly) :
    sig m p = sig m q ↔ ∀ d, d ≤ m → p.has d = q.has d := by
  rw [← samePresence_iff_sig, samePresence_iff]

theorem gfFindExpByPoly_found_iff (gf : GaloisField) (poly : GfPoly) (t : List GfPoly)
    (hlen : t.length = uintSub gf.fieldSize 1) (hm : gf.m < maxUint) (e : Nat) :
    gfFindExpByPoly gf poly t = .ret (e, none) ↔
      e < t.length ∧ (∀ d, d ≤ gf.m → poly.has d = (t.getD e []).has d) ∧
      ∀ e1, e1 < e → ¬ ∀ d, d ≤ gf.m → poly.has d = (t.getD e1 []).has d := by
  constructor
  · intro h
    rcases gfFindExpByPoly_spec gf poly t hlen hm with ⟨k, hk, hfind, hsig, hleast⟩ | ⟨hfind, _⟩
    · rw [hfind] at h
      simp only [Exec.ret.injEq, Prod.mk.injEq, and_true] at h
      subst h
      refine ⟨hk, (sig_eq_iff _ _ _).1 hsig, ?_⟩
      intro e1 he1 hsame
      exact hleast e1 he1 ((sig_eq_iff _ _ _).2 hsame)
    · rw [hfind] at h
      simp at h
  · rintro ⟨he, hsame, hleast⟩
    rcases gfFindExpByPoly_spec gf poly t hlen hm with ⟨k, hk, hfind, hsig, hleast2⟩ | ⟨_, hnone⟩
    · have hke : k = e := by
        rcases Nat.lt_trichotomy k e with hlt | heq | hgt
        · exact absurd ((sig_eq_iff _ _ _).1 hsig) (hleast k hlt)
        · exact heq
        · exact absurd ((sig_eq_iff _ _ _).2 hsame) (hleast2 e hgt)
      rw [hfind, hke]
    · exact absurd ((sig_eq_iff _ _ _).2 hsame) (hnone e he)

theorem gfFindExpByPoly_failed_iff (gf : GaloisField) (poly : GfPoly) (t : List GfPoly)
    (hlen : t.length = uintSub gf.fieldSize 1) (hm : gf.m < maxUint) :
    gfFindExpByPoly gf poly t = .ret (0, some GfError.polynomialNotFound) ↔
      ∀ e, e < t.length → ¬ ∀ d, d ≤ gf.m → poly.has d = (t.getD e []).has d := by
  constructor
  · intro h e he hsame
    rcases gfFindExpByPoly_spec gf poly t hlen hm with ⟨k, _, hfind, _, _⟩ | ⟨_, hnone⟩
    · rw [hfind] at h
      simp at h
    · exact hnone e he ((sig_eq_iff _ _ _).2 hsame)
  · intro hno
    rcases gfFindExpByPoly_spec gf poly t hlen hm with ⟨k, hk, _, hsig, _⟩ | ⟨hfind, _⟩
    · exact absurd ((sig_eq_iff _ _ _).1 hsig) (hno k hk)
    · exact hfind

theorem gfFindExpByPoly_returns (gf : GaloisField) (poly : GfPoly) (t : List GfPoly)
    (hlen : t.length = uintSub gf.fieldSize 1) (hm : gf.m < maxUint) :
    ∃ r, gfFindExpByPoly gf poly t = .ret r := by
  rcases gfFindExpByPoly_spec gf poly t hlen hm with ⟨k, _, hfind, _, _⟩ | ⟨hfind, _⟩
  · exact ⟨_, hfind⟩
  · exact ⟨_, hfind⟩

/-- With a built exponent table, the construction returns, and it returns an error exactly
when the lookup fails for some pair of different exponents. -/
theorem construct_fails_iff (fuel m : Nat) (gf : GaloisField) (priPoly : GfPoly)
    (t : List GfPoly) (h1 : 1 ≤ m) (h2 : m ≤ 43)
    (ht : gfConstructExp2BinPoly fuel ⟨m, priPoly, 2 ^ m, []⟩
      (List.replicate (2 ^ m - 1) []) = .ret t) :
    (∃ gf1 e, GfConstructGaloisField fuel gf m priPoly = .ret (gf1, e) ∧
      (e = none ∨ e = some GfError.polynomialNotFound)) ∧
    ((∃ gf1 e, GfConstructGaloisField fuel gf m priPoly = .ret (gf1, some e)) ↔
      ∃ i j, i < 2 ^ m - 1 ∧ j < 2 ^ m - 1 ∧ i ≠ j ∧
        ∀ k, k < 2 ^ m - 1 →
          ¬ ∀ d, d ≤ m → (addPoly m (t.getD i []) (t.getD j [])).has d =
            (t.getD k []).has d) := by
  have hmlt : m < maxUint := by
    have : maxUint = 18446744073709551615 := rfl
    omega
  have ht2 : gfConstructExp2BinPoly fuel
      ⟨m, priPoly, 2 ^ m, List.replicate (2 ^ m - 1) (List.replicate (2 ^ m - 1) 0)⟩
      (List.replicate (2 ^ m - 1) []) = .ret t := by
    rw [← ht]
    exact expTable_congr fuel _ _ _ rfl rfl rfl
  have htl := (expTable_shape fuel _ (2 ^ m - 1) t (uintSub_pow m) h1 ht2).1
  have hlen : t.length = uintSub (2 ^ m) 1 := by rw [uintSub_pow]; exact htl
  obtain ⟨A, e, hA, hpost⟩ := gfConstructAddTable_spec
    ⟨m, priPoly, 2 ^ m, List.replicate (2 ^ m - 1) (List.replicate (2 ^ m - 1) 0)⟩ t
    (2 ^ m - 1) hmlt (uintSub_pow m) (pow_sub_one_le_maxInt m (by omega)) htl (by simp) (by
      intro row hr
      rw [List.eq_of_mem_replicate hr]; simp)
  have hc : GfConstructGaloisField fuel gf m priPoly = .ret (⟨m, priPoly, 2 ^ m, A⟩, e) := by
    rw [construct_eq fuel gf m priPoly h1 h2, ht2, Exec.bind_ret, hA]
  refine ⟨⟨_, e, hc, ?_⟩, ?_⟩
  · cases e with
    | none => left; rfl
    | some x => right; rw [hpost.1]
  · constructor
    · rintro ⟨gf1, e1, he1⟩
      rw [hc] at he1
      simp only [Exec.ret.injEq, Prod.mk.injEq] at he1
      obtain ⟨_, rfl⟩ := he1
      obtain ⟨_, i, j, hi, hj, hij, _, hfail⟩ := hpost
      refine ⟨i, j, hi, hj, hij, ?_⟩
      intro k hk
      exact (gfFindExpByPoly_failed_iff
        ⟨m, priPoly, 2 ^ m, List.replicate (2 ^ m - 1) (List.replicate (2 ^ m - 1) 0)⟩
        _ t hlen hmlt).1 hfail k (by omega)
    · rintro ⟨i, j, hi, hj, hij, hno⟩
      cases e with
      | some x => exact ⟨_, x, hc⟩
      | none =>
        exfalso
        obtain ⟨_, _, hdone, _⟩ := hpost
        rcases hdone i j hi hj (Or.inl hi) with ⟨heq, _⟩ | ⟨_, k, hk, hfind, _⟩
        · exact hij heq
        · have := (gfFindExpByPoly_found_iff
            ⟨m, priPoly, 2 ^ m, List.replicate (2 ^ m - 1) (List.replicate (2 ^ m - 1) 0)⟩
            _ t hlen hmlt k).1 hfind
          exact hno k (by omega) this.2.1

/-! ## Termination of the division for any dividend -/

/-- One round of the division loop lowers the highest degree, whatever the dividend holds,
as long as the divisor is canonical of highest degree at least 1. -/
theorem modStep_decrease (m : Nat) (p2 r : GfPoly) (hp2 : p2.Canonical)
    (hK : 1 ≤ gfFindMaxDeg p2) (hr : KeysLe r maxUint)
    (hD : gfFindMaxDeg p2 ≤ gfFindMaxDeg r) :
    gfFindMaxDeg (addPoly m r
      (gfBinaryPolyMulti p2 [(gfFindMaxDeg r - gfFindMaxDeg p2, 1)])).copy < gfFindMaxDeg r ∧
    KeysLe (addPoly m r
      (gfBinaryPolyMulti p2 [(gfFindMaxDeg r - gfFindMaxDeg p2, 1)])).copy maxUint := by
  have hD1 : 1 ≤ gfFindMaxDeg r := by omega
  have hrD := gfFindMaxDeg_has r hD1
  have hDu : gfFindMaxDeg r ≤ maxUint := keysLe_has r maxUint _ hr hrD
  have hlt : ∀ e ∈ p2, e.1 + (gfFindMaxDeg r - gfFindMaxDeg p2) < uintSize := by
    intro e he
    have h1 := gfFindMaxDeg_ge p2 e he
    have h2 : maxUint = 18446744073709551615 := rfl
    have h3 : uintSize = 18446744073709551616 := rfl
    omega
  have hsk : KeysLe (gfBinaryPolyMulti p2 [(gfFindMaxDeg r - gfFindMaxDeg p2, 1)])
      (gfFindMaxDeg r) := by
    have := multi_monomial_keysLe p2 (gfFindMaxDeg r - gfFindMaxDeg p2) (gfFindMaxDeg p2) hp2
      hlt (gfFindMaxDeg_ge p2)
    have e : gfFindMaxDeg p2 + (gfFindMaxDeg r - gfFindMaxDeg p2) = gfFindMaxDeg r := by omega
    rw [e] at this
    exact this
  have hhas : ∀ d, (addPoly m r
      (gfBinaryPolyMulti p2 [(gfFindMaxDeg r - gfFindMaxDeg p2, 1)])).copy.has d = true →
      d < gfFindMaxDeg r := by
    intro d hd
    rw [GfPoly.copy_has, addPoly_has] at hd
    simp only [Bool.and_eq_true, decide_eq_true_eq] at hd
    by_contra hcon
    rcases Nat.lt_or_ge (gfFindMaxDeg r) d with hgt | hle
    · rw [has_false_of_gt r _ d (gfFindMaxDeg_ge r) hgt, has_false_of_gt _ _ d hsk hgt] at hd
      simp at hd
    · have hdD : d = gfFindMaxDeg r := by omega
      have h2 : (gfBinaryPolyMulti p2 [(gfFindMaxDeg r - gfFindMaxDeg p2, 1)]).has d = true := by
        rw [multi_monomial_has p2 _ hp2 hlt, hdD]
        have e : gfFindMaxDeg r - (gfFindMaxDeg r - gfFindMaxDeg p2) = gfFindMaxDeg p2 := by
          omega
        rw [e, gfFindMaxDeg_has p2 hK]
        simp
      rw [h2, hdD, hrD] at hd
      simp at hd
  refine ⟨gfFindMaxDeg_lt _ _ hD1 hhas, ?_⟩
  apply keysLe_of_has
  intro d hd
  have := hhas d hd
  omega

theorem modLoop_returns (m : Nat) (p2 : GfPoly) (hm : m < maxUint) (hp2 : p2.Canonical)
    (hK : 1 ≤ gfFindMaxDeg p2) :
    ∀ fuel r, KeysLe r maxUint → gfFindMaxDeg r < fuel →
      ∃ r1, gfBinaryPolyModLoop m p2 (gfFindMaxDeg p2) fuel r = .ret r1 ∧
        gfFindMaxDeg r1 < gfFindMaxDeg p2 := by
  intro fuel
  induction fuel with
  | zero => intro r _ h; omega
  | succ fuel ih =>
    intro r hr hfuel
    unfold gfBinaryPolyModLoop
    by_cases hd : gfFindMaxDeg r < gfFindMaxDeg p2
    · rw [if_pos hd]
      exact ⟨r, rfl, hd⟩
    · rw [if_neg hd, gfBinaryPolyAdd_eq _ _ _ hm, Exec.bind_ret]
      obtain ⟨h1, h2⟩ := modStep_decrease m p2 r hp2 hK hr (by omega)
      exact ih _ h2 (by omega)

theorem keysLe_copy_maxUint (p : GfPoly) (h : KeysLe p maxUint) : KeysLe p.copy maxUint :=
  keysLe_copy p maxUint h

theorem gfFindMaxDeg_copy (p : GfPoly) : gfFindMaxDeg p.copy = gfFindMaxDeg p := by
  apply le_antisymm
  · apply gfFindMaxDeg_le
    apply keysLe_of_has
    intro d hd
    rw [GfPoly.copy_has] at hd
    exact keysLe_has p _ d (gfFindMaxDeg_ge p) hd
  · apply gfFindMaxDeg_le
    apply keysLe_of_has
    intro d hd
    rw [← GfPoly.copy_has] at hd
    exact keysLe_has p.copy _ d (gfFindMaxDeg_ge p.copy) hd

/-- The division loop with a constant divisor `1` never returns: from the empty map and from
the map `{0: 1}` it goes round for ever. -/
theorem modLoop_constant_cycles :
    ∀ fuel, gfBinaryPolyModLoop 2 [(0, 1)] 0 fuel [] = .diverge ∧
      gfBinaryPolyModLoop 2 [(0, 1)] 0 fuel [(0, 1)] = .diverge := by
  intro fuel
  induction fuel with
  | zero => exact ⟨rfl, rfl⟩
  | succ fuel ih =>
    have s1 : gfBinaryPolyModLoop 2 [(0, 1)] 0 (fuel + 1) [] =
        gfBinaryPolyModLoop 2 [(0, 1)] 0 fuel [(0, 1)] := rfl
    have s2 : gfBinaryPolyModLoop 2 [(0, 1)] 0 (fuel + 1) [(0, 1)] =
        gfBinaryPolyModLoop 2 [(0, 1)] 0 fuel [] := rfl
    rw [s1, s2]
    exact ⟨ih.2, ih.1⟩

theorem mod_constant_diverges (fuel : Nat) :
    gfBinaryPolyMod fuel 2 [(2, 1)] [(0, 1)] = .diverge := by
  cases fuel with
  | zero => rfl
  | succ fuel =>
    have s1 : gfBinaryPolyMod (fuel + 1) 2 [(2, 1)] [(0, 1)] =
        gfBinaryPolyModLoop 2 [(0, 1)] 0 fuel [] := rfl
    rw [s1]
    exact (modLoop_constant_cycles fuel).1

/-- For `gf.m = math.MaxUint` the division of `x` by `x` never returns: the adder that is due
in the first round does not return. -/
theorem mod_maxUint_diverges (fuel : Nat) :
    gfBinaryPolyMod fuel maxUint [(1, 1)] [(1, 1)] = .diverge := by
  cases fuel with
  | zero => rfl
  | succ f =>
    have hgt : ¬ maxUint < maxUint := lt_irrefl _
    have hmax : gfFindMaxDeg (GfPoly.copy [(1, 1)]) = 1 := by decide
    have hmax2 : gfFindMaxDeg [(1, 1)] = 1 := by decide
    unfold gfBinaryPolyMod gfBinaryPolyModLoop
    rw [hmax, hmax2, if_neg (lt_irrefl 1)]
    unfold gfBinaryPolyAdd
    rw [if_neg hgt]
    rfl

/-! ## The operands of the adder inside the division -/

theorem modLoopAddCalls_keysLe (m : Nat) (p2 : GfPoly) (hm : m < maxUint)
    (hp2 : p2.Canonical) (hK : 1 ≤ gfFindMaxDeg p2) :
    ∀ fuel r, r.Canonical → KeysLe r m →
      ∀ ab ∈ modLoopAddCalls m p2 (gfFindMaxDeg p2) fuel r, KeysLe ab.1 m ∧ KeysLe ab.2 m := by
  intro fuel
  induction fuel with
  | zero => intro r _ _ ab hab; simp [modLoopAddCalls] at hab
  | succ fuel ih =>
    intro r hr hrm ab hab
    unfold modLoopAddCalls at hab
    by_cases hd : gfFindMaxDeg r < gfFindMaxDeg p2
    · rw [if_pos hd] at hab
      simp at hab
    · rw [if_neg hd, gfBinaryPolyAdd_eq _ _ _ hm] at hab
      simp only [List.mem_cons] at hab
      have hD1 : 1 ≤ gfFindMaxDeg r := by omega
      have hDm : gfFindMaxDeg r ≤ m := keysLe_has r m _ hrm (gfFindMaxDeg_has r hD1)
      have hlt : ∀ e ∈ p2, e.1 + (gfFindMaxDeg r - gfFindMaxDeg p2) < uintSize := by
        intro e he
        have h1 := gfFindMaxDeg_ge p2 e he
        have h2 : maxUint = 18446744073709551615 := rfl
        have h3 : uintSize = 18446744073709551616 := rfl
        omega
      have hsk : KeysLe (gfBinaryPolyMulti p2 [(gfFindMaxDeg r - gfFindMaxDeg p2, 1)]) m := by
        have := multi_monomial_keysLe p2 (gfFindMaxDeg r - gfFindMaxDeg p2) (gfFindMaxDeg p2)
          hp2 hlt (gfFindMaxDeg_ge p2)
        intro e he
        have := this e he
        omega
      rcases hab with hab | hab
      · rw [hab]
        exact ⟨hrm, hsk⟩
      · obtain ⟨h1, h2, _, _⟩ := modStep_spec m p2 r hm hp2 hK hr hrm (by omega)
        exact ih _ h1 h2 ab hab

/-! ## The multiplier counts pairs of terms -/

theorem applySteps_append (a b : List (Nat × Nat)) (r : GfPoly) :
    applySteps (a ++ b) r = applySteps b (applySteps a r) := by
  simp [applySteps, List.foldl_append]

theorem multi_inner_eq (e1 : Nat × Nat) (p2 : GfPoly) (r1 : GfPoly) :
    p2.foldl (fun (r : GfPoly) e2 =>
      r.set ((e1.1 + e2.1) % uintSize)
        (((r.coef ((e1.1 + e2.1) % uintSize) + (e1.2 * e2.2) % uintSize) % uintSize) % 2)) r1 =
      applySteps (p2.map (fun e2 => ((e1.1 + e2.1) % uintSize, (e1.2 * e2.2) % uintSize))) r1 := by
  unfold applySteps
  rw [List.foldl_map]

theorem multi_outer_eq (p1 p2 : GfPoly) : ∀ r : GfPoly,
    p1.foldl (fun (r1 : GfPoly) e1 =>
      p2.foldl (fun (r : GfPoly) e2 =>
        r.set ((e1.1 + e2.1) % uintSize)
          (((r.coef ((e1.1 + e2.1) % uintSize) + (e1.2 * e2.2) % uintSize) % uintSize) % 2))
        r1) r = applySteps (multiSteps p1 p2) r := by
  induction p1 with
  | nil => intro r; simp [multiSteps, applySteps]
  | cons e1 rest ih =>
    intro r
    have hsteps : multiSteps (e1 :: rest) p2 =
        p2.map (fun e2 => ((e1.1 + e2.1) % uintSize, (e1.2 * e2.2) % uintSize)) ++
          multiSteps rest p2 := by
      simp [multiSteps]
    rw [List.foldl_cons, multi_inner_eq, ih, hsteps, applySteps_append]

theorem gfBinaryPolyMulti_eq (p1 p2 : GfPoly) :
    gfBinaryPolyMulti p1 p2 = GfPoly.prune (applySteps (multiSteps p1 p2) []) := by
  unfold gfBinaryPolyMulti
  rw [multi_outer_eq]

theorem stepSum_cons (s : Nat × Nat) (rest : List (Nat × Nat)) (d : Nat) :
    stepSum (s :: rest) d = (if s.1 = d then s.2 else 0) + stepSum rest d := by
  unfold stepSum
  by_cases h : s.1 = d
  · simp [List.filter_cons, h]
  · simp [List.filter_cons, h]

theorem stepSum_append (a b : List (Nat × Nat)) (d : Nat) :
    stepSum (a ++ b) d = stepSum a d + stepSum b d := by
  simp [stepSum, List.filter_append]

theorem stepSum_of_not_mem (steps : List (Nat × Nat)) (d : Nat)
    (h : ¬ d ∈ steps.map Prod.fst) : stepSum steps d = 0 := by
  induction steps with
  | nil => simp [stepSum]
  | cons s rest ih =>
    simp only [List.map_cons, List.mem_cons, not_or] at h
    rw [stepSum_cons, ih h.2]
    have : ¬ s.1 = d := fun h2 => h.1 h2.symm
    simp [this]

theorem mod_two_of_mod_uintSize (a : Nat) : (a % uintSize) % 2 = a % 2 := by
  have h : (2 : Nat) ∣ uintSize := by
    unfold uintSize; decide
  exact Nat.mod_mod_of_dvd a h

/-- The map after a run of updates: an untouched degree is as before, a touched degree holds
the old value plus the sum of its increments, modulo 2. -/
theorem applySteps_lookup (steps : List (Nat × Nat)) :
    ∀ r : GfPoly, ∀ d, (applySteps steps r).lookup d =
      if d ∈ steps.map Prod.fst then some ((r.coef d + stepSum steps d) % 2)
      else r.lookup d := by
  induction steps with
  | nil => intro r d; simp [applySteps]
  | cons s rest ih =>
    intro r d
    have hunf : applySteps (s :: rest) r =
        applySteps rest (r.set s.1 (((r.coef s.1 + s.2) % uintSize) % 2)) := rfl
    rw [hunf, ih, stepSum_cons, GfPoly.coef_set, GfPoly.lookup_set, mod_two_of_mod_uintSize]
    by_cases hds : d = s.1
    · subst hds
      by_cases hmem : s.1 ∈ rest.map Prod.fst
      · have hmem2 : s.1 ∈ (s :: rest).map Prod.fst := by simp
        rw [if_pos hmem, if_pos hmem2]
        simp only [if_true]
        congr 1
        omega
      · have hmem2 : s.1 ∈ (s :: rest).map Prod.fst := by simp
        rw [if_neg hmem, if_pos hmem2, stepSum_of_not_mem rest s.1 hmem]
        simp
    · have hsd : ¬ s.1 = d := fun h => hds h.symm
      by_cases hmem : d ∈ rest.map Prod.fst
      · have hmem2 : d ∈ (s :: rest).map Prod.fst := by
          simp only [List.map_cons, List.mem_cons]; right; exact hmem
        rw [if_pos hmem, if_pos hmem2]
        simp [hds, hsd]
      · have hmem2 : ¬ d ∈ (s :: rest).map Prod.fst := by
          simp only [List.map_cons, List.mem_cons, not_or]; exact ⟨hds, hmem⟩
        rw [if_neg hmem, if_neg hmem2]
        simp [hds]

theorem applySteps_wf (steps : List (Nat × Nat)) : (applySteps steps []).WF := by
  unfold applySteps
  exact GfPoly.foldl_inv GfPoly.WF _ (fun r a h => GfPoly.wf_set r _ _ h) steps []
    GfPoly.wf_nil

/-- The terms of a product: the degrees whose increments sum to an odd number. -/
theorem multi_has_iff (p1 p2 : GfPoly) (d : Nat) :
    (gfBinaryPolyMulti p1 p2).has d = true ↔ stepSum (multiSteps p1 p2) d % 2 = 1 := by
  rw [gfBinaryPolyMulti_eq]
  unfold GfPoly.has
  rw [GfPoly.lookup_prune _ (applySteps_wf _), applySteps_lookup]
  by_cases hmem : d ∈ (multiSteps p1 p2).map Prod.fst
  · rw [if_pos hmem]
    have hc : GfPoly.coef [] d = 0 := rfl
    rw [hc, Nat.zero_add]
    rcases Nat.mod_two_eq_zero_or_one (stepSum (multiSteps p1 p2) d) with h | h
    · rw [h]; simp [Option.filter]
    · rw [h]; simp [Option.filter]
  · rw [if_neg hmem, stepSum_of_not_mem _ d hmem]
    simp [Option.filter, List.lookup]

theorem stepSum_inner (e1 : Nat × Nat) (p2 : GfPoly) (d : Nat) (h1 : e1.2 ≤ 1)
    (h2 : ∀ e ∈ p2, e.2 ≤ 1) :
    stepSum (p2.map (fun e2 => ((e1.1 + e2.1) % uintSize, (e1.2 * e2.2) % uintSize))) d =
      (p2.filter (fun e2 => (e1.1 + e2.1) % uintSize = d ∧ e1.2 = 1 ∧ e2.2 = 1)).length := by
  induction p2 with
  | nil => simp [stepSum]
  | cons e2 rest ih =>
    have hr := ih (fun e he => h2 e (List.mem_cons_of_mem _ he))
    have he2 : e2.2 ≤ 1 := h2 e2 (List.mem_cons_self _ _)
    rw [List.map_cons, stepSum_cons, hr, List.filter_cons]
    have hW : uintSize = 18446744073709551616 := rfl
    by_cases hk : (e1.1 + e2.1) % uintSize = d
    · by_cases hc : e1.2 = 1 ∧ e2.2 = 1
      · have hfil : (decide ((e1.1 + e2.1) % uintSize = d ∧ e1.2 = 1 ∧ e2.2 = 1)) = true := by
          simp [hk, hc.1, hc.2]
        rw [if_pos hfil]
        simp only [hk, if_true, hc.1, hc.2, List.length_cons]
        rw [hW]
        omega
      · have hfil : ¬ (decide ((e1.1 + e2.1) % uintSize = d ∧ e1.2 = 1 ∧ e2.2 = 1)) = true := by
          simp only [decide_eq_true_eq]
          exact fun h => hc h.2
        rw [if_neg hfil]
        simp only [hk, if_true]
        have hz : e1.2 * e2.2 = 0 := by
          have h3 : e1.2 = 0 ∨ e2.2 = 0 := by
            by_contra hcon
            push_neg at hcon
            exact hc ⟨by omega, by omega⟩
          rcases h3 with h3 | h3 <;> simp [h3]
        rw [hz]
        simp
    · have hfil : ¬ (decide ((e1.1 + e2.1) % uintSize = d ∧ e1.2 = 1 ∧ e2.2 = 1)) = true := by
        simp only [decide_eq_true_eq]
        exact fun h => hk h.1
      rw [if_neg hfil]
      simp [hk]

theorem stepSum_multiSteps (p1 p2 : GfPoly) (d : Nat) (h1 : ∀ e ∈ p1, e.2 ≤ 1)
    (h2 : ∀ e ∈ p2, e.2 ≤ 1) : stepSum (multiSteps p1 p2) d = pairCount p1 p2 d := by
  induction p1 with
  | nil => simp [multiSteps, stepSum, pairCount]
  | cons e1 rest ih =>
    have hsteps : multiSteps (e1 :: rest) p2 =
        p2.map (fun e2 => ((e1.1 + e2.1) % uintSize, (e1.2 * e2.2) % uintSize)) ++
          multiSteps rest p2 := by
      simp [multiSteps]
    have hpc : pairCount (e1 :: rest) p2 d =
        (p2.filter (fun e2 => (e1.1 + e2.1) % uintSize = d ∧ e1.2 = 1 ∧ e2.2 = 1)).length +
          pairCount rest p2 d := by
      simp [pairCount]
    rw [hsteps, stepSum_append, hpc, ih (fun e he => h1 e (List.mem_cons_of_mem _ he)),
      stepSum_inner e1 p2 d (h1 e1 (List.mem_cons_self _ _)) h2]

theorem pairCount_eq_exact (p1 p2 : GfPoly) (d : Nat)
    (hfit : ∀ e1 ∈ p1, ∀ e2 ∈ p2, e1.1 + e2.1 < uintSize) :
    pairCount p1 p2 d = pairCountExact p1 p2 d := by
  unfold pairCount pairCountExact
  congr 1
  apply List.map_congr_left
  intro e1 he1
  congr 1
  apply List.filter_congr
  intro e2 he2
  rw [Nat.mod_eq_of_lt (hfit e1 he1 e2 he2)]

/-! ## Exponents that the allocation refuses, and the lookup at `m = math.MaxUint` -/

/-- For `1 ≤ m ≤ 63` the construction panics exactly when its first allocation
`make([][]int, fieldSize-1)` does, which is for `44 ≤ m`. -/
theorem construct_panic_iff (fuel : Nat) (gf : GaloisField) (m : Nat) (p : GfPoly)
    (h1 : 1 ≤ m) (h2 : m ≤ 63) :
    (GfConstructGaloisField fuel gf m p = .panic ↔
      makeSlice 24 (uintSub (intPow 2 m).1 1) ([] : List Int) = .panic) ∧
    (makeSlice 24 (uintSub (intPow 2 m).1 1) ([] : List Int) = .panic ↔ 44 ≤ m) := by
  have hmlt : m < maxUint := by
    have : maxUint = 18446744073709551615 := rfl
    omega
  have hs : makeSlice 24 (uintSub (intPow 2 m).1 1) ([] : List Int) =
      makeSlice 24 (2 ^ m - 1) ([] : List Int) := by
    rw [intPow_two_small m h1 h2, uintSub_pow]
  rw [hs]
  rcases Nat.lt_or_ge m 44 with h | h
  · have hi := pow_sub_one_le_maxInt m h2
    have ha := pow_alloc_ok m (by omega)
    have hm : makeSlice 24 (2 ^ m - 1) ([] : List Int) ≠ .panic := by
      simp only [makeSlice, if_pos (And.intro hi ha.1)]
      intro hc; cases hc
    have hc : GfConstructGaloisField fuel gf m p ≠ .panic := by
      rw [construct_eq fuel gf m p h1 (by omega)]
      have hexp := expTable_ne_panic fuel
        ⟨m, p, 2 ^ m, List.replicate (2 ^ m - 1) (List.replicate (2 ^ m - 1) 0)⟩
        (2 ^ m - 1) (uintSub_pow m) h1 (le_two_pow_sub_one m)
      refine Exec.bind_ne_panic _ _ hexp (fun t ht => ?_)
      have htl := (expTable_shape fuel _ (2 ^ m - 1) t (uintSub_pow m) h1 ht).1
      exact gfConstructAddTable_ne_panic _ t (2 ^ m - 1) hmlt (uintSub_pow m) hi htl
        (by simp) (by
          intro row hr
          rw [List.eq_of_mem_replicate hr]; simp)
    exact ⟨⟨fun x => absurd x hc, fun x => absurd x hm⟩,
      ⟨fun x => absurd x hm, fun x => by omega⟩⟩
  · exact ⟨⟨fun _ => makeSlice_rows_panics m h, fun _ => construct_alloc_panics fuel gf m p h⟩,
      ⟨fun _ => h, fun _ => makeSlice_rows_panics m h⟩⟩

/-- With `gf.m = math.MaxUint` the lookup of the empty polynomial in a table whose entry 0 is
empty never returns: the entry matches on every degree, so the inner loop
`for deg := uint(0); deg <= gf.m; deg++` never exits. -/
theorem lookup_maxUint_diverges :
    gfFindExpByPoly ⟨maxUint, [], 2, []⟩ [] [[]] = .diverge := by
  have hs : samePresence maxUint [] [] = true := (samePresence_iff _ _ _).2 (fun _ _ => rfl)
  have hgt : ¬ maxUint < maxUint := lt_irrefl _
  have hb : tryCandidate ⟨maxUint, [], 2, []⟩ [] [[]] 0 () = .diverge := by
    unfold tryCandidate
    simp only [List.getElem?_cons_zero]
    rw [hs, if_pos rfl, if_neg hgt]
  have hn : uintSub 2 1 = 1 := by decide
  unfold gfFindExpByPoly
  simp only [hn]
  unfold forLoopBrk
  rw [hb]
  rfl

/-- The exponent table of `m = 44` with `x^44 + 1`, as `gfConstructExp2BinPoly` builds it on a
table of `2^44 - 1` entries: the entries 0 and 44 are both the polynomial `1`. -/
theorem table44_duplicate :
    ∃ t, gfConstructExp2BinPoly 2 ⟨44, poly44, 2 ^ 44, []⟩
        (List.replicate (2 ^ 44 - 1) []) = .ret t ∧
      (∀ e, e < 44 → t.getD e [] = [(e, 1)]) ∧ t.getD 44 [] = [(0, 1)] := by
  have hm : (44 : Nat) < maxUint := by
    have : maxUint = 18446744073709551615 := rfl
    omega
  obtain ⟨t, ht, _, _⟩ := expTable_spec 2 ⟨44, poly44, 2 ^ 44, []⟩ (2 ^ 44 - 1)
    (uintSub_pow 44) (by norm_num) (le_two_pow_sub_one 44) hm (by decide) (by decide)
    (le_refl 2)
  obtain ⟨_, _, hmono, hrec⟩ := expTable_shape 2 ⟨44, poly44, 2 ^ 44, []⟩ (2 ^ 44 - 1) t
    (uintSub_pow 44) (by norm_num) ht
  refine ⟨t, ht, hmono, ?_⟩
  have h44 := hrec 44 (le_refl 44) (by norm_num)
  have h43 : t.getD (44 - 1) [] = [(43, 1)] := hmono 43 (by norm_num)
  rw [h43] at h44
  have hc : gfBinaryPolyMod 2 44 (gfBinaryPolyMulti [(43, 1)] [(1, 1)]) poly44 =
      .ret [(0, 1)] := by decide
  have h44b : gfBinaryPolyMod 2 44 (gfBinaryPolyMulti [(43, 1)] [(1, 1)]) poly44 =
      .ret (t.getD 44 []) := h44
  rw [hc] at h44b
  simp only [Exec.ret.injEq] at h44b
  exact h44b.symm

/-- In the table of `m = 44` with `x^44 + 1` some pair of entries has a sum that matches no
entry: a table closed under such sums would have pairwise different entries. -/
theorem table44_unmatched (t : List GfPoly)
    (ht : gfConstructExp2BinPoly 2 ⟨44, poly44, 2 ^ 44, []⟩
      (List.replicate (2 ^ 44 - 1) []) = .ret t) :
    ∃ i j, i < 2 ^ 44 - 1 ∧ j < 2 ^ 44 - 1 ∧ i ≠ j ∧
      ∀ k, k < 2 ^ 44 - 1 →
        ¬ ∀ d, d ≤ 44 → (addPoly 44 (t.getD i []) (t.getD j [])).has d =
          (t.getD k []).has d := by
  obtain ⟨t1, ht1, hmono, h44⟩ := table44_duplicate
  rw [ht] at ht1
  simp only [Exec.ret.injEq] at ht1
  subst ht1
  by_contra hcon
  push_neg at hcon
  have hinj := sums_injective 44 (2 ^ 44 - 1) (fun k => sig 44 (t.getD k [])) rfl
    (le_two_pow_sub_one 44)
    (by
      intro e he
      simp only
      rw [hmono e he]
      exact sig_monomial 44 e (by omega))
    (by
      intro i j hi hj hij
      obtain ⟨k, hk, hsame⟩ := hcon i j hi hj hij
      refine ⟨k, hk, ?_⟩
      simp only
      rw [← sig_addPoly]
      exact ((samePresence_iff_sig 44 _ _).1 ((samePresence_iff 44 _ _).2 hsame)).symm)
  have := hinj 0 44 (by norm_num) (by norm_num) (by
    simp only
    rw [hmono 0 (by norm_num), h44])
  omega

/-- For every `m < math.MaxUint`, every dividend `p1` and every canonical divisor `p2` of
highest degree at least 1, `gfBinaryPolyMod(p1, p2)` returns, within `maxDegree(p1) + 1` rounds
and without panic, a polynomial all of whose terms have a degree below `maxDegree(p2)`. -/
theorem gfBinaryPolyMod_terminates (fuel m : Nat) (p1 p2 : GfPoly) (hm : m < maxUint)
    (hp1 : KeysLe p1 maxUint) (hp2 : p2.Canonical) (hK : 1 ≤ gfFindMaxDeg p2)
    (hfuel : gfFindMaxDeg p1 < fuel) :
    ∃ r, gfBinaryPolyMod fuel m p1 p2 = .ret r ∧ gfFindMaxDeg r < gfFindMaxDeg p2 ∧
      ∀ e ∈ r, e.1 < gfFindMaxDeg p2 := by
  obtain ⟨r, hr, hlt⟩ := modLoop_returns m p2 hm hp2 hK fuel p1.copy
    (keysLe_copy p1 maxUint hp1) (by rw [gfFindMaxDeg_copy]; exact hfuel)
  refine ⟨r, hr, hlt, ?_⟩
  intro e he
  have := gfFindMaxDeg_ge r e he
  omega

/-! ## The claims -/

theorem has_xor_of_sig (m : Nat) (a b c : GfPoly)
    (h : sig m a = symmDiff (sig m b) (sig m c)) (d : Nat) (hd : d ≤ m) :
    a.has d = xor (b.has d) (c.has d) := by
  have h1 : d ∈ sig m a ↔ d ∈ symmDiff (sig m b) (sig m c) := by rw [h]
  simp only [sig, Finset.mem_filter, Finset.mem_range, Finset.mem_symmDiff] at h1
  have hd1 : d < m + 1 := by omega
  cases ha : a.has d <;> cases hb : b.has d <;> cases hc : c.has d <;>
    simp [ha, hb, hc, hd1] at h1 ⊢

/-- Claim C1: when `GfConstructGaloisField` returns no error, every off-diagonal cell
`addTable[i][j]` holds an exponent `k` of the table whose entry in the exponent table built by
`gfConstructExp2BinPoly` is the sum of the entries `i` and `j`: on every degree `0..m` its term
is present exactly when the term is present in exactly one of the two, and its coefficient is
the sum of theirs modulo 2. -/
theorem C1_offdiagonal_cell_is_sum (fuel m : Nat) (gf gf1 : GaloisField) (priPoly : GfPoly)
    (h : GfConstructGaloisField fuel gf m priPoly = .ret (gf1, none)) :
    1 ≤ m ∧ ∃ exp2Poly, gfConstructExp2BinPoly fuel gf1 (List.replicate (2 ^ m - 1) []) =
        .ret exp2Poly ∧
      ∀ i j, i < 2 ^ m - 1 → j < 2 ^ m - 1 → i ≠ j →
        ∃ k : Nat, k < 2 ^ m - 1 ∧ GfAdditionOfTwoExponents gf1 i j = .ret (k : Int) ∧
          ∀ d, d ≤ m →
            (exp2Poly.getD k []).has d =
              xor ((exp2Poly.getD i []).has d) ((exp2Poly.getD j []).has d) ∧
            (exp2Poly.getD k []).coef d =
              ((exp2Poly.getD i []).coef d + (exp2Poly.getD j []).coef d) % 2 := by
  obtain ⟨h1, _, e1, _, e3, _, _, t, ht, _, _, hoff⟩ := construct_cells fuel gf m priPoly gf1 h
  refine ⟨h1, t, ht, ?_⟩
  intro i j hi hj hij
  obtain ⟨k, hk, hcell, hsig, _⟩ := hoff i j hi hj hij
  refine ⟨k, hk, hcell, ?_⟩
  intro d hd
  have hcan := expTable_canonical fuel gf1 (2 ^ m - 1) t (by rw [e3, uintSub_pow])
    (by omega) ht
  have hx := has_xor_of_sig m _ _ _ hsig d hd
  refine ⟨hx, ?_⟩
  rw [GfPoly.coef_of_canonical _ (hcan k hk), GfPoly.coef_of_canonical _ (hcan i hi),
    GfPoly.coef_of_canonical _ (hcan j hj), hx]
  cases (t.getD i []).has d <;> cases (t.getD j []).has d <;> simp

set_option maxRecDepth 100000 in
/-- Claim C1 at the example of the README: GF(2^3) with `1 + x + x^3`. -/
theorem C1_offdiagonal_cell_is_sum_witness :
    GfConstructGaloisField 3 zeroField 3 poly3 = .ret (field3, none) ∧
    (1 ≤ 3 ∧ ∃ exp2Poly, gfConstructExp2BinPoly 3 field3 (List.replicate (2 ^ 3 - 1) []) =
        .ret exp2Poly ∧
      ∀ i j, i < 2 ^ 3 - 1 → j < 2 ^ 3 - 1 → i ≠ j →
        ∃ k : Nat, k < 2 ^ 3 - 1 ∧ GfAdditionOfTwoExponents field3 i j = .ret (k : Int) ∧
          ∀ d, d ≤ 3 →
            (exp2Poly.getD k []).has d =
              xor ((exp2Poly.getD i []).has d) ((exp2Poly.getD j []).has d) ∧
            (exp2Poly.getD k []).coef d =
              ((exp2Poly.getD i []).coef d + (exp2Poly.getD j []).coef d) % 2) :=
  ⟨by decide, C1_offdiagonal_cell_is_sum 3 3 zeroField field3 poly3 (by decide)⟩

/-- Claim C2: in a successfully constructed field, for all `i`, `j` in `[0, fieldSize-2]` the
query `GfAdditionOfTwoExponents(i, j)` returns the sentinel `-1` exactly when `i = j`, and every
off-diagonal result is an exponent in `[0, fieldSize-2]`. -/
theorem C2_sentinel_iff_diagonal (fuel m : Nat) (gf gf1 : GaloisField) (priPoly : GfPoly)
    (h : GfConstructGaloisField fuel gf m priPoly = .ret (gf1, none)) :
    ∀ i j, i < gf1.fieldSize - 1 → j < gf1.fieldSize - 1 →
      ∃ v : Int, GfAdditionOfTwoExponents gf1 i j = .ret v ∧ (v = -1 ↔ i = j) ∧
        (i ≠ j → 0 ≤ v ∧ v ≤ (gf1.fieldSize : Int) - 2) := by
  obtain ⟨_, _, _, _, e3, _, _, t, _, _, hdiag, hoff⟩ := construct_cells fuel gf m priPoly gf1 h
  intro i j hi hj
  rw [e3] at hi hj
  by_cases hij : i = j
  · subst hij
    exact ⟨-1, hdiag i hi, by simp, fun hne => absurd rfl hne⟩
  · obtain ⟨k, hk, hcell, _, _⟩ := hoff i j hi hj hij
    refine ⟨(k : Int), hcell, ?_, ?_⟩
    · constructor
      · intro hneg; omega
      · intro heq; exact absurd heq hij
    · intro _
      rw [e3]
      omega

set_option maxRecDepth 100000 in
/-- Claim C2 at the example of the README: GF(2^3) with `1 + x + x^3`. -/
theorem C2_sentinel_iff_diagonal_witness :
    GfConstructGaloisField 3 zeroField 3 poly3 = .ret (field3, none) ∧
    ∀ i j, i < field3.fieldSize - 1 → j < field3.fieldSize - 1 →
      ∃ v : Int, GfAdditionOfTwoExponents field3 i j = .ret v ∧ (v = -1 ↔ i = j) ∧
        (i ≠ j → 0 ≤ v ∧ v ≤ (field3.fieldSize : Int) - 2) :=
  ⟨by decide, C2_sentinel_iff_diagonal 3 3 zeroField field3 poly3 (by decide)⟩

/-- Claim C3: in a successfully constructed field the addition table is symmetric: for all `i`,
`j` in `[0, fieldSize-2]` the cells `addTable[i][j]` and `addTable[j][i]` exist and are equal. -/
theorem C3_addTable_symmetric (fuel m : Nat) (gf gf1 : GaloisField) (priPoly : GfPoly)
    (h : GfConstructGaloisField fuel gf m priPoly = .ret (gf1, none)) :
    ∀ i j, i < gf1.fieldSize - 1 → j < gf1.fieldSize - 1 →
      ∃ v : Int, GfAdditionOfTwoExponents gf1 i j = .ret v ∧
        GfAdditionOfTwoExponents gf1 j i = .ret v := by
  obtain ⟨_, _, _, _, e3, _, _, t, _, _, hdiag, hoff⟩ := construct_cells fuel gf m priPoly gf1 h
  intro i j hi hj
  rw [e3] at hi hj
  by_cases hij : i = j
  · subst hij
    exact ⟨-1, hdiag i hi, hdiag i hi⟩
  · obtain ⟨k, hk, hcell, hsig, hleast⟩ := hoff i j hi hj hij
    obtain ⟨k2, hk2, hcell2, hsig2, hleast2⟩ := hoff j i hj hi (Ne.symm hij)
    rw [symmDiff_comm] at hsig2 hleast2
    have hkk : k = k2 := by
      rcases Nat.lt_trichotomy k k2 with hlt | heq | hgt
      · exact absurd hsig (hleast2 k hlt)
      · exact heq
      · exact absurd hsig2 (hleast k2 hgt)
    subst hkk
    exact ⟨(k : Int), hcell, hcell2⟩

set_option maxRecDepth 100000 in
/-- Claim C3 at the example of the README: GF(2^3) with `1 + x + x^3`. -/
theorem C3_addTable_symmetric_witness :
    GfConstructGaloisField 3 zeroField 3 poly3 = .ret (field3, none) ∧
    ∀ i j, i < field3.fieldSize - 1 → j < field3.fieldSize - 1 →
      ∃ v : Int, GfAdditionOfTwoExponents field3 i j = .ret v ∧
        GfAdditionOfTwoExponents field3 j i = .ret v :=
  ⟨by decide, C3_addTable_symmetric 3 3 zeroField field3 poly3 (by decide)⟩

theorem lt_maxUint_of_pow (m : Nat) (h : 2 ^ m ≤ maxUint) : m < maxUint := by
  have := Nat.lt_two_pow m
  omega

theorem le_63_of_pow (m : Nat) (h : 2 ^ m ≤ maxUint) : m ≤ 63 := by
  by_contra hcon
  have h64 : 64 ≤ m := by omega
  have : 2 ^ 64 ≤ 2 ^ m := Nat.pow_le_pow_right (by norm_num) h64
  have e : maxUint = 2 ^ 64 - 1 := by norm_num [maxUint]
  omega

theorem addTablePost_dims (gf : GaloisField) (t : List GfPoly) (A0 A : List (List Int))
    (n : Nat) (e : Option GfError) (h : AddTablePost gf t A0 n (A, e)) :
    A.length = n ∧ ∀ row ∈ A, row.length = n := by
  cases e with
  | none => exact ⟨h.1, h.2.1⟩
  | some x =>
    obtain ⟨_, i, j, _, _, _, hf, _⟩ := h
    exact ⟨hf.1, hf.2.1⟩

/-- Claim C4 as stated fails for `m = 44`: `intPow(2, 44)` does return `2^44` with no error,
but the first allocation `make([][]int, fieldSize-1)` of `GfConstructGaloisField` asks for
`24 * (2^44 - 1)` bytes, more than `maxAlloc`, and panics; the call returns for no polynomial
and leaves no addition table. -/
theorem C4_table_shape_counterexample :
    (1 ≤ 44 ∧ 44 ≤ 63) ∧ intPow 2 44 = (2 ^ 44, none) ∧
    makeSlice 24 (uintSub (intPow 2 44).1 1) ([] : List Int) = .panic ∧
    GfConstructGaloisField 2 zeroField 44 poly44 = .panic ∧
    ¬ ∃ fuel gf priPoly r, GfConstructGaloisField fuel gf 44 priPoly = .ret r := by
  refine ⟨by decide, intPow_two_small 44 (by decide) (by decide), ?_,
    construct_alloc_panics 2 zeroField 44 poly44 (le_refl _), ?_⟩
  · rw [intPow_two_small 44 (by decide) (by decide), uintSub_pow]
    exact makeSlice_rows_panics 44 (le_refl _)
  · rintro ⟨fuel, gf, priPoly, r, h⟩
    rw [construct_alloc_panics fuel gf 44 priPoly (le_refl _)] at h
    cases h

/-- Claim C4, amended: for every `m` with `1 <= m <= 63`, `intPow(2, m)` returns exactly `2^m`
with no error; whenever `GfConstructGaloisField` returns (with or without error) `m` is at most
43 and the field has `fieldSize = 2^m` and an addition table of exactly `fieldSize-1` rows of
exactly `fieldSize-1` entries; for `m <= 43` the call does return for every canonical
polynomial of highest degree `m`, as soon as the division loop is given two rounds; and for
`44 <= m` the call panics in `make([][]int, fieldSize-1)`. -/
theorem C4_field_size_and_table_shape (m : Nat) (h1 : 1 ≤ m) (h2 : m ≤ 63) :
    intPow 2 m = (2 ^ m, none) ∧
    (∀ fuel gf priPoly gf1 e, GfConstructGaloisField fuel gf m priPoly = .ret (gf1, e) →
      m ≤ 43 ∧ gf1.fieldSize = 2 ^ m ∧ gf1.addTable.length = gf1.fieldSize - 1 ∧
      ∀ row ∈ gf1.addTable, row.length = gf1.fieldSize - 1) ∧
    (m ≤ 43 → ∀ fuel gf (priPoly : GfPoly), 2 ≤ fuel → priPoly.Canonical →
      gfFindMaxDeg priPoly = m →
      ∃ gf1 e, GfConstructGaloisField fuel gf m priPoly = .ret (gf1, e)) ∧
    (44 ≤ m → ∀ fuel gf priPoly, GfConstructGaloisField fuel gf m priPoly = .panic) := by
  have hmlt : m < maxUint := by
    have : maxUint = 18446744073709551615 := rfl
    omega
  refine ⟨intPow_two_small m h1 h2, ?_, ?_, ?_⟩
  · intro fuel gf priPoly gf1 e h
    have hb := (construct_ret_bounds fuel gf m priPoly _ h).2
    obtain ⟨_, _, _, _, e3, t, _, _, hpost⟩ := construct_ret fuel gf m priPoly gf1 e h
    obtain ⟨d1, d2⟩ := addTablePost_dims _ _ _ _ _ _ hpost
    rw [e3]
    exact ⟨hb, rfl, d1, d2⟩
  · intro h43 fuel gf priPoly hfuel hp hdeg
    obtain ⟨t, ht, htl, _⟩ := expTable_spec fuel
      ⟨m, priPoly, 2 ^ m, List.replicate (2 ^ m - 1) (List.replicate (2 ^ m - 1) 0)⟩
      (2 ^ m - 1) (uintSub_pow m) h1 (le_two_pow_sub_one m) hmlt hp hdeg hfuel
    obtain ⟨A, e, hA, _⟩ := gfConstructAddTable_spec
      ⟨m, priPoly, 2 ^ m, List.replicate (2 ^ m - 1) (List.replicate (2 ^ m - 1) 0)⟩ t
      (2 ^ m - 1) hmlt (uintSub_pow m) (pow_sub_one_le_maxInt m h2) htl (by simp) (by
        intro row hr
        rw [List.eq_of_mem_replicate hr]; simp)
    refine ⟨⟨m, priPoly, 2 ^ m, A⟩, e, ?_⟩
    rw [construct_eq fuel gf m priPoly h1 h43, ht, Exec.bind_ret, hA]
  · intro h44 fuel gf priPoly
    exact construct_alloc_panics fuel gf m priPoly h44

/-- Claim C4, amended, at `m = 3`. -/
theorem C4_field_size_and_table_shape_witness :
    (1 ≤ 3 ∧ 3 ≤ 63) ∧
    (intPow 2 3 = (2 ^ 3, none) ∧
    (∀ fuel gf priPoly gf1 e, GfConstructGaloisField fuel gf 3 priPoly = .ret (gf1, e) →
      3 ≤ 43 ∧ gf1.fieldSize = 2 ^ 3 ∧ gf1.addTable.length = gf1.fieldSize - 1 ∧
      ∀ row ∈ gf1.addTable, row.length = gf1.fieldSize - 1) ∧
    (3 ≤ 43 → ∀ fuel gf (priPoly : GfPoly), 2 ≤ fuel → priPoly.Canonical →
      gfFindMaxDeg priPoly = 3 →
      ∃ gf1 e, GfConstructGaloisField fuel gf 3 priPoly = .ret (gf1, e)) ∧
    (44 ≤ 3 → ∀ fuel gf priPoly, GfConstructGaloisField fuel gf 3 priPoly = .panic)) :=
  ⟨by decide, C4_field_size_and_table_shape 3 (by decide) (by decide)⟩

theorem cellOf_zeros (n i j : Nat) :
    cellOf (List.replicate n (List.replicate n (0 : Int))) i j = 0 := by
  unfold cellOf
  by_cases hi : i < n
  · have h1 : (List.replicate n (List.replicate n (0 : Int))).getD i [] =
        List.replicate n 0 := by
      simp [List.getD, List.getElem?_replicate, hi]
    rw [h1]
    by_cases hj : j < n
    · simp [List.getD, List.getElem?_replicate, hj]
    · simp [List.getD, List.getElem?_replicate, hj]
  · have h1 : (List.replicate n (List.replicate n (0 : Int))).getD i [] = [] := by
      simp [List.getD, List.getElem?_replicate, hi]
    rw [h1]
    simp

/-- Claim C5, the run of the code: for every `m >= 64` the field-size computation does report
the error, but `GfConstructGaloisField` allocates `make([][]int, gf.fieldSize-1)` with
`fieldSize-1 = 0-1 = MaxUint` before it looks at the error, and the call panics instead of
returning `InvalidFieldSize`. -/
theorem C5_big_exponent_panics (fuel m : Nat) (gf : GaloisField) (priPoly : GfPoly)
    (h : 64 ≤ m) :
    intPow 2 m = (0, some GfError.invalidFieldSize) ∧
    makeSlice 24 (uintSub (intPow 2 m).1 1) ([] : List Int) = .panic ∧
    GfConstructGaloisField fuel gf m priPoly = .panic := by
  refine ⟨intPow_two_big m h, ?_, construct_big fuel gf m priPoly h⟩
  rw [intPow_two_big m h]
  rfl

/-- Claim C5 at `m = 64` with the polynomial of the README. -/
theorem C5_big_exponent_panics_witness :
    64 ≤ 64 ∧ (intPow 2 64 = (0, some GfError.invalidFieldSize) ∧
    makeSlice 24 (uintSub (intPow 2 64).1 1) ([] : List Int) = .panic ∧
    GfConstructGaloisField 3 zeroField 64 poly3 = .panic) :=
  ⟨le_refl _, C5_big_exponent_panics 3 64 zeroField poly3 (le_refl _)⟩

set_option maxRecDepth 100000 in
/-- Claim C6 as stated fails: constructing GF(2^3) with the non-primitive `x^3 + x^2 + x + 1`
on a zero-value receiver fails with `PolynomialNotFound` and leaves a table whose cell `[0][0]`
holds the `-1` written by the failed construction: the table is neither the freshly allocated
one nor the one the receiver had before the call, and the query exposes the written cell. -/
theorem C6_failed_construction_counterexample :
    GfConstructGaloisField 3 zeroField 3 polyReducible =
      .ret (fieldFailed, some GfError.polynomialNotFound) ∧
    GfAdditionOfTwoExponents fieldFailed 0 0 = .ret (-1) ∧
    fieldFailed.addTable ≠ List.replicate 7 (List.replicate 7 0) ∧
    fieldFailed.addTable ≠ zeroField.addTable := by
  decide

/-- Claim C6, amended: when `GfConstructGaloisField` fails with `PolynomialNotFound`, the
receiver holds a freshly allocated `(2^m-1) x (2^m-1)` table that is filled up to the failing
cell `(i, j)`: every cell before it in row order holds its computed value (`-1` on the
diagonal, the looked-up exponent elsewhere), the failing cell and every later cell hold 0, and
the lookup of the sum of the entries `i` and `j` of the exponent table is what failed. -/
theorem C6_failed_construction_keeps_filled_cells (fuel m : Nat) (gf gf1 : GaloisField)
    (priPoly : GfPoly)
    (h : GfConstructGaloisField fuel gf m priPoly =
      .ret (gf1, some GfError.polynomialNotFound)) :
    gf1.addTable.length = 2 ^ m - 1 ∧ (∀ row ∈ gf1.addTable, row.length = 2 ^ m - 1) ∧
    ∃ t, gfConstructExp2BinPoly fuel gf1 (List.replicate (2 ^ m - 1) []) = .ret t ∧
    ∃ i j, i < 2 ^ m - 1 ∧ j < 2 ^ m - 1 ∧ i ≠ j ∧
      (∃ s, gfBinaryPolyAdd m (t.getD i []) (t.getD j []) = .ret s ∧
        gfFindExpByPoly gf1 s t = .ret (0, some GfError.polynomialNotFound)) ∧
      (∀ i1 j1, i1 < 2 ^ m - 1 → j1 < 2 ^ m - 1 → (i1 < i ∨ (i1 = i ∧ j1 < j)) →
        (i1 = j1 → GfAdditionOfTwoExponents gf1 i1 j1 = .ret (-1)) ∧
        (i1 ≠ j1 → ∃ s, gfBinaryPolyAdd m (t.getD i1 []) (t.getD j1 []) = .ret s ∧
          ∃ k : Nat, k < 2 ^ m - 1 ∧ gfFindExpByPoly gf1 s t = .ret (k, none) ∧
            GfAdditionOfTwoExponents gf1 i1 j1 = .ret (k : Int))) ∧
      (∀ i1 j1, i1 < 2 ^ m - 1 → j1 < 2 ^ m - 1 → ¬ (i1 < i ∨ (i1 = i ∧ j1 < j)) →
        GfAdditionOfTwoExponents gf1 i1 j1 = .ret 0) := by
  obtain ⟨h1, h2, e1, _, _, t, ht, htl, hpost⟩ := construct_ret fuel gf m priPoly gf1 _ h
  obtain ⟨_, i, j, hi, hj, hij, ⟨hAl, hAr, hdone, hrest⟩, hfail⟩ := hpost
  have hmlt : m < maxUint := by
    have : maxUint = 18446744073709551615 := rfl
    omega
  refine ⟨hAl, hAr, t, ht, i, j, hi, hj, hij, ?_, ?_, ?_⟩
  · refine ⟨_, gfBinaryPolyAdd_eq m _ _ hmlt, ?_⟩
    unfold LookupFails at hfail
    rw [e1] at hfail
    exact hfail
  · intro i1 j1 hi1 hj1 hb
    rw [addition_eq_cellOf gf1 _ i1 j1 hAl hAr hi1 hj1]
    rcases hdone i1 j1 hi1 hj1 hb with ⟨heq, hc⟩ | ⟨hne, k, hk, hfind, hc⟩
    · exact ⟨fun _ => by rw [hc], fun hne => absurd heq hne⟩
    · refine ⟨fun heq => absurd heq hne, fun _ => ?_⟩
      refine ⟨_, gfBinaryPolyAdd_eq m _ _ hmlt, k, by omega, ?_, by rw [hc]⟩
      rw [e1] at hfind
      exact hfind
  · intro i1 j1 hi1 hj1 hb
    rw [addition_eq_cellOf gf1 _ i1 j1 hAl hAr hi1 hj1, hrest i1 j1 hi1 hj1 hb, cellOf_zeros]

set_option maxRecDepth 100000 in
/-- Claim C6, amended, at GF(2^3) with the non-primitive `x^3 + x^2 + x + 1`. -/
theorem C6_failed_construction_keeps_filled_cells_witness :
    GfConstructGaloisField 3 zeroField 3 polyReducible =
      .ret (fieldFailed, some GfError.polynomialNotFound) ∧
    (fieldFailed.addTable.length = 2 ^ 3 - 1 ∧
    (∀ row ∈ fieldFailed.addTable, row.length = 2 ^ 3 - 1) ∧
    ∃ t, gfConstructExp2BinPoly 3 fieldFailed (List.replicate (2 ^ 3 - 1) []) = .ret t ∧
    ∃ i j, i < 2 ^ 3 - 1 ∧ j < 2 ^ 3 - 1 ∧ i ≠ j ∧
      (∃ s, gfBinaryPolyAdd 3 (t.getD i []) (t.getD j []) = .ret s ∧
        gfFindExpByPoly fieldFailed s t = .ret (0, some GfError.polynomialNotFound)) ∧
      (∀ i1 j1, i1 < 2 ^ 3 - 1 → j1 < 2 ^ 3 - 1 → (i1 < i ∨ (i1 = i ∧ j1 < j)) →
        (i1 = j1 → GfAdditionOfTwoExponents fieldFailed i1 j1 = .ret (-1)) ∧
        (i1 ≠ j1 → ∃ s, gfBinaryPolyAdd 3 (t.getD i1 []) (t.getD j1 []) = .ret s ∧
          ∃ k : Nat, k < 2 ^ 3 - 1 ∧ gfFindExpByPoly fieldFailed s t = .ret (k, none) ∧
            GfAdditionOfTwoExponents fieldFailed i1 j1 = .ret (k : Int))) ∧
      (∀ i1 j1, i1 < 2 ^ 3 - 1 → j1 < 2 ^ 3 - 1 → ¬ (i1 < i ∨ (i1 = i ∧ j1 < j)) →
        GfAdditionOfTwoExponents fieldFailed i1 j1 = .ret 0)) :=
  ⟨by decide,
    C6_failed_construction_keeps_filled_cells 3 3 zeroField fieldFailed polyReducible
      (by decide)⟩

/-- In a successfully constructed field the key sets of the table entries on the degrees
`0..m` are pairwise different. -/
theorem construct_sig_injective (fuel m : Nat) (gf gf1 : GaloisField) (priPoly : GfPoly)
    (t : List GfPoly) (h : GfConstructGaloisField fuel gf m priPoly = .ret (gf1, none))
    (ht : gfConstructExp2BinPoly fuel gf1 (List.replicate (2 ^ m - 1) []) = .ret t) :
    ∀ i j, i < 2 ^ m - 1 → j < 2 ^ m - 1 → sig m (t.getD i []) = sig m (t.getD j []) →
      i = j := by
  obtain ⟨h1, _, e1, _, e3, _, _, t1, ht1, _, _, hoff⟩ := construct_cells fuel gf m priPoly gf1 h
  rw [ht] at ht1
  simp only [Exec.ret.injEq] at ht1
  subst ht1
  obtain ⟨_, _, hmono, _⟩ := expTable_shape fuel gf1 (2 ^ m - 1) t
    (by rw [e3, uintSub_pow]) (by omega) ht
  refine sums_injective m (2 ^ m - 1) (fun k => sig m (t.getD k [])) rfl
    (le_two_pow_sub_one m) ?_ ?_
  · intro e he
    simp only
    rw [hmono e (by omega)]
    exact sig_monomial m e (by omega)
  · intro i j hi hj hij
    obtain ⟨k, hk, _, hsig, _⟩ := hoff i j hi hj hij
    exact ⟨k, hk, hsig⟩

/-- Claim C7 as stated fails for `m = 44` with the non-primitive `x^44 + 1`: the exponent
table that `gfConstructExp2BinPoly` builds holds the polynomial `1` at the exponents 0 and 44,
but `GfConstructGaloisField` panics in `make([][]int, fieldSize-1)` and returns no
`PolynomialNotFound`, whatever the receiver and the rounds given to the division loop. -/
theorem C7_duplicate_entries_counterexample :
    ∃ t, gfConstructExp2BinPoly 2 ⟨44, poly44, 2 ^ 44, []⟩
        (List.replicate (2 ^ 44 - 1) []) = .ret t ∧
      (∃ i j, i < 2 ^ 44 - 1 ∧ j < 2 ^ 44 - 1 ∧ i ≠ j ∧
        ∀ d, d ≤ 44 → (t.getD i []).has d = (t.getD j []).has d) ∧
      GfConstructGaloisField 2 zeroField 44 poly44 = .panic ∧
      ¬ ∃ fuel gf gf1, GfConstructGaloisField fuel gf 44 poly44 =
        .ret (gf1, some GfError.polynomialNotFound) := by
  obtain ⟨t, ht, hmono, h44⟩ := table44_duplicate
  refine ⟨t, ht, ⟨0, 44, by norm_num, by norm_num, by norm_num, ?_⟩,
    construct_alloc_panics 2 zeroField 44 poly44 (le_refl _), ?_⟩
  · intro d _
    rw [hmono 0 (by norm_num), h44]
  · rintro ⟨fuel, gf, gf1, h⟩
    rw [construct_alloc_panics fuel gf 44 poly44 (le_refl _)] at h
    cases h

/-- Claim C7, amended: when `GfConstructGaloisField` succeeds, the entries of the exponent
table are pairwise different on the degrees `0..m`, so the lookup of every entry returns its
own exponent; for `1 <= m <= 43`, when the exponent table holds two entries with the same terms
on the degrees `0..m` at different exponents, the construction returns `PolynomialNotFound`;
and for `44 <= m` the construction panics in its first allocation. -/
theorem C7_exponent_table_distinct (fuel m : Nat) (gf : GaloisField) (priPoly : GfPoly) :
    (∀ gf1, GfConstructGaloisField fuel gf m priPoly = .ret (gf1, none) →
      1 ≤ m ∧
      ∃ t, gfConstructExp2BinPoly fuel gf1 (List.replicate (2 ^ m - 1) []) = .ret t ∧
        (∀ i j, i < 2 ^ m - 1 → j < 2 ^ m - 1 → i ≠ j →
          ∃ d, d ≤ m ∧ (t.getD i []).has d ≠ (t.getD j []).has d) ∧
        (∀ e, e < gf1.fieldSize - 1 →
          gfFindExpByPoly gf1 (t.getD e []) t = .ret (e, none))) ∧
    (∀ t, 1 ≤ m → m ≤ 43 →
      gfConstructExp2BinPoly fuel ⟨m, priPoly, 2 ^ m, []⟩ (List.replicate (2 ^ m - 1) []) =
        .ret t →
      (∃ i j, i < 2 ^ m - 1 ∧ j < 2 ^ m - 1 ∧ i ≠ j ∧
        ∀ d, d ≤ m → (t.getD i []).has d = (t.getD j []).has d) →
      ∃ gf1, GfConstructGaloisField fuel gf m priPoly =
        .ret (gf1, some GfError.polynomialNotFound)) ∧
    (44 ≤ m → GfConstructGaloisField fuel gf m priPoly = .panic) := by
  have part1 : ∀ gf1 t, GfConstructGaloisField fuel gf m priPoly = .ret (gf1, none) →
      gfConstructExp2BinPoly fuel gf1 (List.replicate (2 ^ m - 1) []) = .ret t →
      ∀ i j, i < 2 ^ m - 1 → j < 2 ^ m - 1 → i ≠ j →
        ∃ d, d ≤ m ∧ (t.getD i []).has d ≠ (t.getD j []).has d := by
    intro gf1 t h ht i j hi hj hij
    by_contra hcon
    push_neg at hcon
    exact hij (construct_sig_injective fuel m gf gf1 priPoly t h ht i j hi hj
      ((samePresence_iff_sig m _ _).1 ((samePresence_iff m _ _).2 hcon)))
  refine ⟨?_, ?_, fun h44 => construct_alloc_panics fuel gf m priPoly h44⟩
  · intro gf1 h
    obtain ⟨h1, h2, e1, _, e3, _, _, t, ht, htl, _, _⟩ := construct_cells fuel gf m priPoly gf1 h
    refine ⟨h1, t, ht, part1 gf1 t h ht, ?_⟩
    intro e he
    rw [e3] at he
    have hmlt : gf1.m < maxUint := by
      have : maxUint = 18446744073709551615 := rfl
      omega
    rcases gfFindExpByPoly_spec gf1 (t.getD e []) t (by rw [e3, uintSub_pow]; exact htl) hmlt
      with ⟨k, hk, hfind, hsig, _⟩ | ⟨_, hnone⟩
    · rw [e1] at hsig
      have := construct_sig_injective fuel m gf gf1 priPoly t h ht e k he (by omega) hsig
      rw [hfind, ← this]
    · exact absurd rfl (hnone e (by omega))
  · intro t h1 h2 ht hdup
    obtain ⟨i, j, hi, hj, hij, hsame⟩ := hdup
    have hmlt : m < maxUint := by
      have : maxUint = 18446744073709551615 := rfl
      omega
    have ht2 : gfConstructExp2BinPoly fuel
        ⟨m, priPoly, 2 ^ m, List.replicate (2 ^ m - 1) (List.replicate (2 ^ m - 1) 0)⟩
        (List.replicate (2 ^ m - 1) []) = .ret t := by
      rw [← ht]
      exact expTable_congr fuel _ _ _ rfl rfl rfl
    have htl := (expTable_shape fuel _ (2 ^ m - 1) t (uintSub_pow m) h1 ht2).1
    obtain ⟨A, e, hA, _⟩ := gfConstructAddTable_spec
      ⟨m, priPoly, 2 ^ m, List.replicate (2 ^ m - 1) (List.replicate (2 ^ m - 1) 0)⟩ t
      (2 ^ m - 1) hmlt (uintSub_pow m) (pow_sub_one_le_maxInt m (by omega)) htl (by simp) (by
        intro row hr
        rw [List.eq_of_mem_replicate hr]; simp)
    have hc : GfConstructGaloisField fuel gf m priPoly =
        .ret (⟨m, priPoly, 2 ^ m, A⟩, e) := by
      rw [construct_eq fuel gf m priPoly h1 h2, ht2, Exec.bind_ret, hA]
    cases e with
    | none =>
      exfalso
      have ht3 : gfConstructExp2BinPoly fuel ⟨m, priPoly, 2 ^ m, A⟩
          (List.replicate (2 ^ m - 1) []) = .ret t := by
        rw [← ht]
        exact expTable_congr fuel _ _ _ rfl rfl rfl
      obtain ⟨d, hd, hne⟩ := part1 _ t hc ht3 i j hi hj hij
      exact hne (hsame d hd)
    | some x =>
      obtain ⟨_, _, _, _, _, _, _, _, hpost⟩ := construct_ret fuel gf m priPoly _ _ hc
      have hx : x = GfError.polynomialNotFound := hpost.1
      rw [hx] at hc
      exact ⟨_, hc⟩

set_option maxRecDepth 100000 in
/-- Claim C7, amended, at GF(2^3): with `1 + x + x^3` the construction succeeds and the table
entries are pairwise different; with `x^3 + x^2 + x + 1` the entries 0 and 4 of the exponent
table are both the polynomial `1` and the construction returns `PolynomialNotFound`. -/
theorem C7_exponent_table_distinct_witness :
    (GfConstructGaloisField 3 zeroField 3 poly3 = .ret (field3, none) ∧
      (1 ≤ 3 ∧
      ∃ t, gfConstructExp2BinPoly 3 field3 (List.replicate (2 ^ 3 - 1) []) = .ret t ∧
        (∀ i j, i < 2 ^ 3 - 1 → j < 2 ^ 3 - 1 → i ≠ j →
          ∃ d, d ≤ 3 ∧ (t.getD i []).has d ≠ (t.getD j []).has d) ∧
        (∀ e, e < field3.fieldSize - 1 →
          gfFindExpByPoly field3 (t.getD e []) t = .ret (e, none)))) ∧
    (gfConstructExp2BinPoly 3 ⟨3, polyReducible, 2 ^ 3, []⟩ (List.replicate (2 ^ 3 - 1) []) =
        .ret [[(0, 1)], [(1, 1)], [(2, 1)], [(0, 1), (1, 1), (2, 1)], [(0, 1)], [(1, 1)],
          [(2, 1)]] ∧
      ∃ gf1, GfConstructGaloisField 3 zeroField 3 polyReducible =
        .ret (gf1, some GfError.polynomialNotFound)) :=
  ⟨⟨by decide, (C7_exponent_table_distinct 3 3 zeroField poly3).1 field3 (by decide)⟩,
    ⟨by decide, (C7_exponent_table_distinct 3 3 zeroField polyReducible).2.1
      [[(0, 1)], [(1, 1)], [(2, 1)], [(0, 1), (1, 1), (2, 1)], [(0, 1)], [(1, 1)], [(2, 1)]]
      (by decide)
      (by decide) (by decide) ⟨0, 4, by decide, by decide, by decide, by decide⟩⟩⟩

set_option maxRecDepth 100000 in
/-- Claim C8: for `m = 3` and the primitive polynomial `{0:1, 1:1, 3:1}` the construction
succeeds (from any prior state of the receiver, as soon as the division loop is given two
rounds) with `fieldSize = 8` and a 7x7 addition table whose diagonal is all `-1`, with
`addTable[0][1] = 3` and `addTable[1][2] = 4`. -/
theorem C8_example_field (fuel : Nat) (gf : GaloisField) (hfuel : 2 ≤ fuel) :
    ∃ gf1, GfConstructGaloisField fuel gf 3 [(0, 1), (1, 1), (3, 1)] = .ret (gf1, none) ∧
      gf1.fieldSize = 8 ∧ gf1.addTable.length = 7 ∧ (∀ row ∈ gf1.addTable, row.length = 7) ∧
      (∀ i, i < 7 → GfAdditionOfTwoExponents gf1 i i = .ret (-1)) ∧
      GfAdditionOfTwoExponents gf1 0 1 = .ret 3 ∧
      GfAdditionOfTwoExponents gf1 1 2 = .ret 4 := by
  have h2 : GfConstructGaloisField 2 gf 3 [(0, 1), (1, 1), (3, 1)] = .ret (field3, none) := by
    rw [construct_prior_irrelevant 2 gf zeroField]
    decide
  have h := construct_fuel_mono 2 (fuel - 2) gf 3 _ _ h2
  have e : 2 + (fuel - 2) = fuel := by omega
  rw [e] at h
  refine ⟨field3, h, rfl, rfl, by decide, by decide, by decide, by decide⟩

/-- Claim C8 run on a zero-value receiver with three rounds for the division loop. -/
theorem C8_example_field_witness :
    2 ≤ 3 ∧
    ∃ gf1, GfConstructGaloisField 3 zeroField 3 [(0, 1), (1, 1), (3, 1)] = .ret (gf1, none) ∧
      gf1.fieldSize = 8 ∧ gf1.addTable.length = 7 ∧ (∀ row ∈ gf1.addTable, row.length = 7) ∧
      (∀ i, i < 7 → GfAdditionOfTwoExponents gf1 i i = .ret (-1)) ∧
      GfAdditionOfTwoExponents gf1 0 1 = .ret 3 ∧
      GfAdditionOfTwoExponents gf1 1 2 = .ret 4 :=
  ⟨by decide, C8_example_field 3 zeroField (by decide)⟩

/-- Claim C9: for every `m >= 1` whose `2^m` is a `uint` value and every canonical polynomial
`priPoly` of highest degree exactly `m`, `gfConstructExp2BinPoly` builds the table (as soon as
the division loop is given two rounds): the entries `0..m-1` are the monomials `x^e`, every
entry `e >= m` is what `gfBinaryPolyMod` returns for the entry `e-1` times `x` and `priPoly`,
and every entry `e` is the remainder of `x^e` modulo `priPoly` over GF(2). -/
theorem C9_exponent_table_entries (fuel m : Nat) (A : List (List Int)) (priPoly : GfPoly)
    (h1 : 1 ≤ m) (hfit : 2 ^ m ≤ maxUint) (hp : priPoly.Canonical)
    (hdeg : gfFindMaxDeg priPoly = m) (hfuel : 2 ≤ fuel) :
    ∃ t, gfConstructExp2BinPoly fuel ⟨m, priPoly, 2 ^ m, A⟩ (List.replicate (2 ^ m - 1) []) =
        .ret t ∧ t.length = 2 ^ m - 1 ∧
      (∀ e, e < m → t.getD e [] = [(e, 1)]) ∧
      (∀ e, m ≤ e → e < 2 ^ m - 1 →
        gfBinaryPolyMod fuel m (gfBinaryPolyMulti (t.getD (e - 1) []) [(1, 1)]) priPoly =
          .ret (t.getD e [])) ∧
      (∀ e, e < 2 ^ m - 1 → toPoly (t.getD e []) = X ^ e %ₘ toPoly priPoly) := by
  obtain ⟨t, ht, htl, hgood⟩ := expTable_spec fuel ⟨m, priPoly, 2 ^ m, A⟩ (2 ^ m - 1)
    (uintSub_pow m) h1 (le_two_pow_sub_one m) (lt_maxUint_of_pow m hfit) hp hdeg hfuel
  obtain ⟨_, _, hmono, hrec⟩ := expTable_shape fuel ⟨m, priPoly, 2 ^ m, A⟩ (2 ^ m - 1) t
    (uintSub_pow m) h1 ht
  refine ⟨t, ht, htl, hmono, hrec, ?_⟩
  intro e he
  obtain ⟨hc, hlt, q, hq⟩ := hgood e he
  exact toPoly_eq_modByMonic (X ^ e) q _ priPoly hc hp (by rw [hdeg]; exact h1)
    (by rw [hdeg]; exact hlt) hq

/-- Claim C9 at the example of the README: GF(2^3) with `1 + x + x^3`. -/
theorem C9_exponent_table_entries_witness :
    (1 ≤ 3 ∧ 2 ^ 3 ≤ maxUint ∧ poly3.Canonical ∧ gfFindMaxDeg poly3 = 3 ∧ 2 ≤ 2) ∧
    ∃ t, gfConstructExp2BinPoly 2 ⟨3, poly3, 2 ^ 3, []⟩ (List.replicate (2 ^ 3 - 1) []) =
        .ret t ∧ t.length = 2 ^ 3 - 1 ∧
      (∀ e, e < 3 → t.getD e [] = [(e, 1)]) ∧
      (∀ e, 3 ≤ e → e < 2 ^ 3 - 1 →
        gfBinaryPolyMod 2 3 (gfBinaryPolyMulti (t.getD (e - 1) []) [(1, 1)]) poly3 =
          .ret (t.getD e [])) ∧
      (∀ e, e < 2 ^ 3 - 1 → toPoly (t.getD e []) = X ^ e %ₘ toPoly poly3) :=
  ⟨by decide, C9_exponent_table_entries 2 3 [] poly3 (by decide) (by decide) (by decide)
    (by decide) (by decide)⟩

/-- Claim C10 as stated fails for `m = math.MaxUint`: the operands `p1 = p2 = x` are canonical
with terms in the degrees `0..m` and `1 <= maxDegree(p2) <= m`, one subtraction is due, and
the loop `for deg := uint(0); deg <= gf.m; deg++` of `gfBinaryPolyAdd` never exits, so
`gfBinaryPolyMod` returns nothing however many rounds it is given. -/
theorem C10_mod_at_maxUint_counterexample :
    1 ≤ maxUint ∧ GfPoly.Canonical [(1, 1)] ∧ KeysLe [(1, 1)] maxUint ∧
    1 ≤ gfFindMaxDeg [(1, 1)] ∧ gfFindMaxDeg [(1, 1)] ≤ maxUint ∧
    ¬ ∃ fuel r, gfBinaryPolyMod fuel maxUint [(1, 1)] [(1, 1)] = .ret r := by
  refine ⟨by decide, by decide, by decide, by decide, by decide, ?_⟩
  rintro ⟨fuel, r, h⟩
  cases fuel with
  | zero =>
    have hd : gfBinaryPolyMod 0 maxUint [(1, 1)] [(1, 1)] = .diverge := rfl
    rw [hd] at h
    cases h
  | succ f =>
    have hd : gfBinaryPolyMod (f + 1) maxUint [(1, 1)] [(1, 1)] = .diverge := by
      have hgt : ¬ maxUint < maxUint := lt_irrefl _
      have hmax : gfFindMaxDeg (GfPoly.copy [(1, 1)]) = 1 := by decide
      have hmax2 : gfFindMaxDeg [(1, 1)] = 1 := by decide
      unfold gfBinaryPolyMod gfBinaryPolyModLoop
      rw [hmax, hmax2, if_neg (lt_irrefl 1)]
      unfold gfBinaryPolyAdd
      rw [if_neg hgt]
      rfl
    rw [hd] at h
    cases h

/-- Claim C10, amended: for every `m` with `1 <= m < math.MaxUint`, every canonical dividend
`p1` whose terms lie in the degrees `0..m` and every canonical divisor `p2` with
`1 <= maxDegree(p2) <= m`, `gfBinaryPolyMod(p1, p2)` returns (within `m+1` rounds) a polynomial
`r` whose terms all have degree below `maxDegree(p2)` and for which `p1 = q*p2 + r` over GF(2)
for some polynomial `q`: `r` is the remainder of the long division of `p1` by `p2`. -/
theorem C10_mod_is_remainder (fuel m : Nat) (p1 p2 : GfPoly) (h1 : 1 ≤ m)
    (hm : m < maxUint) (hp1 : p1.Canonical) (hp1m : KeysLe p1 m) (hp2 : p2.Canonical)
    (hK : 1 ≤ gfFindMaxDeg p2) (hKm : gfFindMaxDeg p2 ≤ m) (hfuel : m < fuel) :
    ∃ r, gfBinaryPolyMod fuel m p1 p2 = .ret r ∧
      (∀ e ∈ r, e.1 < gfFindMaxDeg p2) ∧
      (∃ q, toPoly p1 = q * toPoly p2 + toPoly r) ∧
      toPoly r = toPoly p1 %ₘ toPoly p2 := by
  obtain ⟨r, q, hmod, hrc, hrlt, hq⟩ := gfBinaryPolyMod_spec fuel m p1 p2 hm hp1 hp1m hp2 hK
    (by omega) (by
      have := gfFindMaxDeg_le _ _ (keysLe_copy p1 m hp1m)
      omega)
  refine ⟨r, hmod, ?_, ⟨q, hq⟩, toPoly_eq_modByMonic _ q r p2 hrc hp2 hK hrlt hq⟩
  intro e he
  have := gfFindMaxDeg_ge r e he
  omega

/-- Claim C10, amended, at the reduction of `x^3 + x^2` modulo `1 + x + x^3` in GF(2^3). -/
theorem C10_mod_is_remainder_witness :
    (1 ≤ 3 ∧ 3 < maxUint ∧ GfPoly.Canonical [(3, 1), (2, 1)] ∧ KeysLe [(3, 1), (2, 1)] 3 ∧
      poly3.Canonical ∧ 1 ≤ gfFindMaxDeg poly3 ∧ gfFindMaxDeg poly3 ≤ 3 ∧ 3 < 4) ∧
    ∃ r, gfBinaryPolyMod 4 3 [(3, 1), (2, 1)] poly3 = .ret r ∧
      (∀ e ∈ r, e.1 < gfFindMaxDeg poly3) ∧
      (∃ q, toPoly [(3, 1), (2, 1)] = q * toPoly poly3 + toPoly r) ∧
      toPoly r = toPoly [(3, 1), (2, 1)] %ₘ toPoly poly3 :=
  ⟨by decide, C10_mod_is_remainder 4 3 [(3, 1), (2, 1)] poly3 (by decide) (by decide)
    (by decide) (by decide) (by decide) (by decide) (by decide) (by decide)⟩

/-- Claim C11, the run of the code: for the constant divisor `{0: 1}`, a well-formed non-zero
polynomial, the test `maxDegReturnPoly < maxDegP2` on unsigned degrees is never true for
`maxDegP2 = 0`, so `gfBinaryPolyMod` with the dividend `x^2` and `gf.m = 2` returns nothing
however many rounds it is given (the outcome is `diverge` for every number of rounds), and
neither does `GfConstructGaloisField(2, {0: 1})`, which calls it with this dividend for the
entry 2 of the exponent table. -/
theorem C11_constant_divisor_hangs :
    GfPoly.Canonical [(0, 1)] ∧ ([(0, 1)] : GfPoly) ≠ [] ∧
    (∀ fuel, gfBinaryPolyMod fuel 2 [(2, 1)] [(0, 1)] = .diverge) ∧
    (¬ ∃ fuel r, gfBinaryPolyMod fuel 2 [(2, 1)] [(0, 1)] = .ret r) ∧
    ¬ ∃ fuel r, GfConstructGaloisField fuel zeroField 2 [(0, 1)] = .ret r := by
  refine ⟨by decide, by decide, mod_constant_diverges, ?_, ?_⟩
  · rintro ⟨fuel, r, h⟩
    rw [mod_constant_diverges fuel] at h
    cases h
  · rintro ⟨fuel, ⟨gf1, e⟩, h⟩
    obtain ⟨h1, _, e1, e2, e3, t, ht, _, _⟩ := construct_ret fuel zeroField 2 [(0, 1)] gf1 e h
    obtain ⟨_, _, hmono, hrec⟩ := expTable_shape fuel gf1 (2 ^ 2 - 1) t
      (by rw [e3, uintSub_pow]) (by omega) ht
    have h2 := hrec 2 (by omega) (by norm_num)
    rw [hmono 1 (by omega), e1, e2] at h2
    have hm : gfBinaryPolyMulti [(1, 1)] [(1, 1)] = [(2, 1)] := by decide
    rw [hm, mod_constant_diverges fuel] at h2
    cases h2

/-- Claim C12 as stated fails when a degree sum passes 2^64: the product of `x^(2^64-1)` and
`x` holds the term of degree 0, while no pair of terms has `d1 + d2 = 0`. -/
theorem C12_wrapped_degree_counterexample :
    (∀ e ∈ ([(18446744073709551615, 1)] : GfPoly), e.2 ≤ 1) ∧
    (∀ e ∈ ([(1, 1)] : GfPoly), e.2 ≤ 1) ∧
    gfBinaryPolyMulti [(18446744073709551615, 1)] [(1, 1)] = [(0, 1)] ∧
    (gfBinaryPolyMulti [(18446744073709551615, 1)] [(1, 1)]).has 0 = true ∧
    pairCountExact [(18446744073709551615, 1)] [(1, 1)] 0 = 0 ∧
    ¬ Odd (pairCountExact [(18446744073709551615, 1)] [(1, 1)] 0) := by
  decide

/-- Claim C12, amended: for all maps `p1`, `p2` with coefficients in `{0, 1}`,
`gfBinaryPolyMulti(p1, p2)` contains a term of degree `d` exactly when the number of pairs
`(d1, d2)` with `p1[d1] = 1`, `p2[d2] = 1` and `d1 + d2 = d` modulo 2^64 is odd, and every term
it contains has coefficient 1; when no degree sum reaches 2^64 this is the number of pairs with
`d1 + d2 = d`, the product over GF(2). -/
theorem C12_multi_counts_pairs (p1 p2 : GfPoly) (h1 : ∀ e ∈ p1, e.2 ≤ 1)
    (h2 : ∀ e ∈ p2, e.2 ≤ 1) :
    (∀ d, (gfBinaryPolyMulti p1 p2).has d = true ↔ Odd (pairCount p1 p2 d)) ∧
    (∀ e ∈ gfBinaryPolyMulti p1 p2, e.2 = 1) ∧
    ((∀ e1 ∈ p1, ∀ e2 ∈ p2, e1.1 + e2.1 < uintSize) →
      ∀ d, (gfBinaryPolyMulti p1 p2).has d = true ↔ Odd (pairCountExact p1 p2 d)) := by
  have hmain : ∀ d, (gfBinaryPolyMulti p1 p2).has d = true ↔ Odd (pairCount p1 p2 d) := by
    intro d
    rw [multi_has_iff, stepSum_multiSteps p1 p2 d h1 h2, Nat.odd_iff]
  refine ⟨hmain, (gfBinaryPolyMulti_canonical p1 p2).2, ?_⟩
  intro hfit d
  rw [hmain d, pairCount_eq_exact p1 p2 d hfit]

/-- Claim C12, amended, at the product `(1 + x)(1 + x) = 1 + x^2` over GF(2). -/
theorem C12_multi_counts_pairs_witness :
    ((∀ e ∈ ([(0, 1), (1, 1)] : GfPoly), e.2 ≤ 1) ∧
      gfBinaryPolyMulti [(0, 1), (1, 1)] [(0, 1), (1, 1)] = [(0, 1), (2, 1)] ∧
      pairCount [(0, 1), (1, 1)] [(0, 1), (1, 1)] 1 = 2) ∧
    ((∀ d, (gfBinaryPolyMulti [(0, 1), (1, 1)] [(0, 1), (1, 1)]).has d = true ↔
        Odd (pairCount [(0, 1), (1, 1)] [(0, 1), (1, 1)] d)) ∧
    (∀ e ∈ gfBinaryPolyMulti [(0, 1), (1, 1)] [(0, 1), (1, 1)], e.2 = 1) ∧
    ((∀ e1 ∈ ([(0, 1), (1, 1)] : GfPoly), ∀ e2 ∈ ([(0, 1), (1, 1)] : GfPoly),
        e1.1 + e2.1 < uintSize) →
      ∀ d, (gfBinaryPolyMulti [(0, 1), (1, 1)] [(0, 1), (1, 1)]).has d = true ↔
        Odd (pairCountExact [(0, 1), (1, 1)] [(0, 1), (1, 1)] d))) :=
  ⟨by decide, C12_multi_counts_pairs [(0, 1), (1, 1)] [(0, 1), (1, 1)] (by decide)
    (by decide)⟩

/-- Claim C13 as stated fails for `m = math.MaxUint`: the loop
`for deg := uint(0); deg <= gf.m; deg++` never exits, so `gfBinaryPolyAdd` returns no
polynomial, although the degree 0 is a key of exactly one of the operands `1` and `0`. -/
theorem C13_add_at_maxUint_counterexample :
    GfPoly.has [(0, 1)] 0 = true ∧ GfPoly.has [] 0 = false ∧ 0 ≤ maxUint ∧
    ¬ ∃ r, gfBinaryPolyAdd maxUint [(0, 1)] [] = .ret r := by
  refine ⟨by decide, by decide, by decide, ?_⟩
  rintro ⟨r, h⟩
  have hd : gfBinaryPolyAdd maxUint [(0, 1)] [] = .diverge := by
    unfold gfBinaryPolyAdd
    rw [if_neg (lt_irrefl _)]
  rw [hd] at h
  cases h

/-- Claim C13, amended: for every `m < math.MaxUint` and all maps `p1`, `p2`,
`gfBinaryPolyAdd(p1, p2)` returns a polynomial that contains a term of degree `d` exactly when
`d <= m` and `d` is a key of exactly one of `p1` and `p2`; every term it contains has
coefficient 1, and it contains no term of degree above `m` whatever the operands hold there. -/
theorem C13_add_is_bounded_xor (m : Nat) (p1 p2 : GfPoly) (hm : m < maxUint) :
    ∃ r, gfBinaryPolyAdd m p1 p2 = .ret r ∧
      (∀ d, r.has d = true ↔ d ≤ m ∧ (p1.has d = true ↔ ¬ p2.has d = true)) ∧
      (∀ e ∈ r, e.2 = 1) ∧ (∀ e ∈ r, e.1 ≤ m) := by
  refine ⟨addPoly m p1 p2, gfBinaryPolyAdd_eq m p1 p2 hm, ?_, (addPoly_canonical m p1 p2).2, ?_⟩
  · intro d
    rw [addPoly_has]
    by_cases hd : d ≤ m
    · cases h3 : p1.has d <;> cases h4 : p2.has d <;> simp [hd]
    · simp [hd]
  · intro e he
    have hh : (addPoly m p1 p2).has e.1 = true :=
      (GfPoly.has_iff_mem_keys _ _).2 (List.mem_map.2 ⟨e, he, rfl⟩)
    rw [addPoly_has] at hh
    simp only [Bool.and_eq_true, decide_eq_true_eq] at hh
    exact hh.1

/-- Claim C13, amended, at the sum of `1 + x + x^5` and `x + x^2` with `m = 3`: the term `x^5`
is dropped. -/
theorem C13_add_is_bounded_xor_witness :
    (3 < maxUint ∧
      gfBinaryPolyAdd 3 [(0, 1), (1, 1), (5, 1)] [(1, 1), (2, 1)] = .ret [(0, 1), (2, 1)]) ∧
    ∃ r, gfBinaryPolyAdd 3 [(0, 1), (1, 1), (5, 1)] [(1, 1), (2, 1)] = .ret r ∧
      (∀ d, r.has d = true ↔ d ≤ 3 ∧
        (GfPoly.has [(0, 1), (1, 1), (5, 1)] d = true ↔
          ¬ GfPoly.has [(1, 1), (2, 1)] d = true)) ∧
      (∀ e ∈ r, e.2 = 1) ∧ (∀ e ∈ r, e.1 ≤ 3) :=
  ⟨by decide, C13_add_is_bounded_xor 3 [(0, 1), (1, 1), (5, 1)] [(1, 1), (2, 1)] (by decide)⟩

/-- Claim C14: the outcome of `GfConstructGaloisField` (returned error and resulting state of
the receiver, or panic, or no return) is the same for any two prior states of the receiver
when the arguments are the same; in particular a second call with the same arguments on the
state that the first call left behind recomputes the same result. -/
theorem C14_outcome_depends_on_arguments_only (fuel m : Nat) (gf gf0 : GaloisField)
    (priPoly : GfPoly) :
    GfConstructGaloisField fuel gf m priPoly = GfConstructGaloisField fuel gf0 m priPoly ∧
    ∀ gf1 e, GfConstructGaloisField fuel gf m priPoly = .ret (gf1, e) →
      GfConstructGaloisField fuel gf1 m priPoly = .ret (gf1, e) := by
  refine ⟨construct_prior_irrelevant fuel gf gf0 m priPoly, ?_⟩
  intro gf1 e h
  rw [construct_prior_irrelevant fuel gf1 gf m priPoly]
  exact h

set_option maxRecDepth 100000 in
/-- Claim C14 at the example of the README, from a zero-value receiver and from a receiver that
a failed construction left behind. -/
theorem C14_outcome_depends_on_arguments_only_witness :
    GfConstructGaloisField 3 zeroField 3 poly3 = .ret (field3, none) ∧
    (GfConstructGaloisField 3 zeroField 3 poly3 = GfConstructGaloisField 3 fieldFailed 3 poly3 ∧
    ∀ gf1 e, GfConstructGaloisField 3 zeroField 3 poly3 = .ret (gf1, e) →
      GfConstructGaloisField 3 gf1 3 poly3 = .ret (gf1, e)) :=
  ⟨by decide, C14_outcome_depends_on_arguments_only 3 3 zeroField fieldFailed poly3⟩

/-- Claim C15 as stated fails in both halves.  With `gf.m = math.MaxUint` the lookup of the
empty polynomial in the one-entry table `[{}]` never returns, although the entry 0 has the
same term presence on every degree: the loop `for deg := uint(0); deg <= gf.m; deg++` over a
matching entry never exits.  And for `m = 44` with `x^44 + 1` the exponent table that
`gfConstructExp2BinPoly` builds has a pair of entries whose sum matches no entry, but
`GfConstructGaloisField` returns no error: it panics in `make([][]int, fieldSize-1)`. -/
theorem C15_lookup_counterexample :
    (([[]] : List GfPoly).length = uintSub 2 1 ∧
      (∀ d, d ≤ maxUint → GfPoly.has [] d = GfPoly.has (([[]] : List GfPoly).getD 0 []) d) ∧
      gfFindExpByPoly ⟨maxUint, [], 2, []⟩ [] [[]] = .diverge) ∧
    ((1 ≤ 44 ∧ 44 ≤ 63) ∧
      (∃ t, gfConstructExp2BinPoly 2 ⟨44, poly44, 2 ^ 44, []⟩
          (List.replicate (2 ^ 44 - 1) []) = .ret t ∧
        ∃ i j, i < 2 ^ 44 - 1 ∧ j < 2 ^ 44 - 1 ∧ i ≠ j ∧
          ∃ s, gfBinaryPolyAdd 44 (t.getD i []) (t.getD j []) = .ret s ∧
            ∀ k, k < 2 ^ 44 - 1 → ¬ ∀ d, d ≤ 44 → s.has d = (t.getD k []).has d) ∧
      GfConstructGaloisField 2 zeroField 44 poly44 = .panic ∧
      ¬ ∃ fuel gf r, GfConstructGaloisField fuel gf 44 poly44 = .ret r) := by
  have hm : (44 : Nat) < maxUint := by
    have : maxUint = 18446744073709551615 := rfl
    omega
  refine ⟨⟨by decide, fun _ _ => rfl, lookup_maxUint_diverges⟩, by decide, ?_,
    construct_alloc_panics 2 zeroField 44 poly44 (le_refl _), ?_⟩
  · obtain ⟨t, ht, _, _⟩ := table44_duplicate
    obtain ⟨i, j, hi, hj, hij, hno⟩ := table44_unmatched t ht
    exact ⟨t, ht, i, j, hi, hj, hij, _, gfBinaryPolyAdd_eq 44 _ _ hm, hno⟩
  · rintro ⟨fuel, gf, r, h⟩
    rw [construct_alloc_panics fuel gf 44 poly44 (le_refl _)] at h
    cases h

/-- Claim C15, amended: for `gf.m < math.MaxUint`, on a table of `fieldSize-1` entries
`gfFindExpByPoly` returns, and it returns the smallest exponent whose entry has the same term
presence as `poly` on every degree `0..m`, and the `PolynomialNotFound` error exactly when no
entry has; consequently, for `1 <= m <= 43` and a built exponent table,
`GfConstructGaloisField` returns, and it returns an error exactly when for some pair `i != j`
the sum of the entries `i` and `j` matches no table entry. -/
theorem C15_lookup_and_construction_failure (fuel m : Nat) (gf : GaloisField)
    (priPoly : GfPoly) :
    (∀ (gf0 : GaloisField) (poly : GfPoly) (t : List GfPoly),
      t.length = uintSub gf0.fieldSize 1 → gf0.m < maxUint →
      (∃ r, gfFindExpByPoly gf0 poly t = .ret r) ∧
      (∀ e, gfFindExpByPoly gf0 poly t = .ret (e, none) ↔
        e < t.length ∧ (∀ d, d ≤ gf0.m → poly.has d = (t.getD e []).has d) ∧
        ∀ e1, e1 < e → ¬ ∀ d, d ≤ gf0.m → poly.has d = (t.getD e1 []).has d) ∧
      (gfFindExpByPoly gf0 poly t = .ret (0, some GfError.polynomialNotFound) ↔
        ∀ e, e < t.length → ¬ ∀ d, d ≤ gf0.m → poly.has d = (t.getD e []).has d)) ∧
    (1 ≤ m → m ≤ 43 → ∀ t,
      gfConstructExp2BinPoly fuel ⟨m, priPoly, 2 ^ m, []⟩ (List.replicate (2 ^ m - 1) []) =
        .ret t →
      (∃ gf1 e, GfConstructGaloisField fuel gf m priPoly = .ret (gf1, e) ∧
        (e = none ∨ e = some GfError.polynomialNotFound)) ∧
      ((∃ gf1 e, GfConstructGaloisField fuel gf m priPoly = .ret (gf1, some e)) ↔
        ∃ i j, i < 2 ^ m - 1 ∧ j < 2 ^ m - 1 ∧ i ≠ j ∧
          ∃ s, gfBinaryPolyAdd m (t.getD i []) (t.getD j []) = .ret s ∧
            ∀ k, k < 2 ^ m - 1 → ¬ ∀ d, d ≤ m → s.has d = (t.getD k []).has d)) := by
  refine ⟨?_, ?_⟩
  · intro gf0 poly t hlen hm
    exact ⟨gfFindExpByPoly_returns gf0 poly t hlen hm,
      fun e => gfFindExpByPoly_found_iff gf0 poly t hlen hm e,
      gfFindExpByPoly_failed_iff gf0 poly t hlen hm⟩
  · intro h1 h2 t ht
    have hmlt : m < maxUint := by
      have : maxUint = 18446744073709551615 := rfl
      omega
    obtain ⟨hret, hiff⟩ := construct_fails_iff fuel m gf priPoly t h1 h2 ht
    refine ⟨hret, ?_⟩
    rw [hiff]
    constructor
    · rintro ⟨i, j, hi, hj, hij, hno⟩
      exact ⟨i, j, hi, hj, hij, _, gfBinaryPolyAdd_eq m _ _ hmlt, hno⟩
    · rintro ⟨i, j, hi, hj, hij, s, hs, hno⟩
      rw [gfBinaryPolyAdd_eq m _ _ hmlt] at hs
      simp only [Exec.ret.injEq] at hs
      subst hs
      exact ⟨i, j, hi, hj, hij, hno⟩

set_option maxRecDepth 100000 in
/-- Claim C15, amended, at GF(2^3): the lookup of `x + 1` in the table of `1 + x + x^3`
returns 3, and with `x^3 + x^2 + x + 1` the construction returns an error. -/
theorem C15_lookup_and_construction_failure_witness :
    (gfFindExpByPoly field3 [(0, 1), (1, 1)]
        [[(0, 1)], [(1, 1)], [(2, 1)], [(0, 1), (1, 1)], [(1, 1), (2, 1)],
          [(0, 1), (1, 1), (2, 1)], [(0, 1), (2, 1)]] = .ret (3, none)) ∧
    (gfConstructExp2BinPoly 3 ⟨3, polyReducible, 2 ^ 3, []⟩ (List.replicate (2 ^ 3 - 1) []) =
        .ret [[(0, 1)], [(1, 1)], [(2, 1)], [(0, 1), (1, 1), (2, 1)], [(0, 1)], [(1, 1)],
          [(2, 1)]] ∧
      ∃ gf1 e, GfConstructGaloisField 3 zeroField 3 polyReducible = .ret (gf1, e) ∧
        (e = none ∨ e = some GfError.polynomialNotFound)) :=
  ⟨(((C15_lookup_and_construction_failure 3 3 zeroField poly3).1 field3 [(0, 1), (1, 1)]
      [[(0, 1)], [(1, 1)], [(2, 1)], [(0, 1), (1, 1)], [(1, 1), (2, 1)],
        [(0, 1), (1, 1), (2, 1)], [(0, 1), (2, 1)]] (by decide) (by decide)).2.1 3).2
      (by decide),
    ⟨by decide, ((C15_lookup_and_construction_failure 3 3 zeroField polyReducible).2
      (by decide) (by decide)
      [[(0, 1)], [(1, 1)], [(2, 1)], [(0, 1), (1, 1), (2, 1)], [(0, 1)], [(1, 1)], [(2, 1)]]
      (by decide)).1⟩⟩

/-- Claim C16: for every `m >= 1` whose `2^m` is a `uint` value and every canonical `priPoly`
of highest degree exactly `m`, the exponent table is built and every entry has all its terms
at degrees `0..m-1`; every pair of operands that `gfBinaryPolyMod` passes to `gfBinaryPolyAdd`
while an entry `e >= m` is computed, and every pair of entries that the addition-table builder
passes to it, has its terms within the degrees `0..m`. -/
theorem C16_adder_operands_in_range (fuel m : Nat) (A : List (List Int)) (priPoly : GfPoly)
    (h1 : 1 ≤ m) (hfit : 2 ^ m ≤ maxUint) (hp : priPoly.Canonical)
    (hdeg : gfFindMaxDeg priPoly = m) (hfuel : 2 ≤ fuel) :
    ∃ t, gfConstructExp2BinPoly fuel ⟨m, priPoly, 2 ^ m, A⟩ (List.replicate (2 ^ m - 1) []) =
        .ret t ∧
      (∀ e, e < 2 ^ m - 1 → ∀ x ∈ t.getD e [], x.1 < m) ∧
      (∀ e, m ≤ e → e < 2 ^ m - 1 →
        ∀ ab ∈ gfBinaryPolyModAddCalls fuel m
            (gfBinaryPolyMulti (t.getD (e - 1) []) [(1, 1)]) priPoly,
          KeysLe ab.1 m ∧ KeysLe ab.2 m) ∧
      (∀ i j, i < 2 ^ m - 1 → j < 2 ^ m - 1 → i ≠ j →
        KeysLe (t.getD i []) m ∧ KeysLe (t.getD j []) m) := by
  have hmlt : m < maxUint := by
    have := Nat.lt_two_pow m
    omega
  obtain ⟨t, ht, _, hgood⟩ := expTable_spec fuel ⟨m, priPoly, 2 ^ m, A⟩ (2 ^ m - 1)
    (uintSub_pow m) h1 (le_two_pow_sub_one m) hmlt hp hdeg hfuel
  have hkeys : ∀ e, e < 2 ^ m - 1 → ∀ x ∈ t.getD e [], x.1 < m := by
    intro e he x hx
    obtain ⟨_, hlt, _⟩ := hgood e he
    have := gfFindMaxDeg_ge _ x hx
    have hlt2 : gfFindMaxDeg (t.getD e []) < m := hlt
    omega
  have hle : ∀ e, e < 2 ^ m - 1 → KeysLe (t.getD e []) m := by
    intro e he x hx
    have := hkeys e he x hx
    omega
  refine ⟨t, ht, hkeys, ?_, fun i j hi hj _ => ⟨hle i hi, hle j hj⟩⟩
  intro e hem he ab hab
  obtain ⟨hc, _, _⟩ := hgood (e - 1) (by omega)
  have hlt2 : ∀ x ∈ t.getD (e - 1) [], x.1 + 1 < uintSize := by
    intro x hx
    have := hkeys (e - 1) (by omega) x hx
    have h2 : maxUint = 18446744073709551615 := rfl
    have h3 : uintSize = 18446744073709551616 := rfl
    omega
  have hk1 : KeysLe (gfBinaryPolyMulti (t.getD (e - 1) []) [(1, 1)]) m := by
    have hprev : KeysLe (t.getD (e - 1) []) (m - 1) := by
      intro x hx
      have := hkeys (e - 1) (by omega) x hx
      omega
    have := multi_monomial_keysLe _ 1 _ hc hlt2 hprev
    have e2 : m - 1 + 1 = m := by omega
    rw [e2] at this
    exact this
  have hcalls := modLoopAddCalls_keysLe m priPoly hmlt hp (by rw [hdeg]; exact h1) fuel
    (gfBinaryPolyMulti (t.getD (e - 1) []) [(1, 1)]).copy
    (GfPoly.copy_canonical _ (gfBinaryPolyMulti_canonical _ _)) (keysLe_copy _ _ hk1)
  exact hcalls ab hab

/-- Claim C16 at the example of the README: GF(2^3) with `1 + x + x^3`; the entry 3 is computed
with one call of the adder, on `x^3` and `1 + x + x^3`. -/
theorem C16_adder_operands_in_range_witness :
    (1 ≤ 3 ∧ 2 ^ 3 ≤ maxUint ∧ poly3.Canonical ∧ gfFindMaxDeg poly3 = 3 ∧ 2 ≤ 2 ∧
      gfBinaryPolyModAddCalls 2 3 (gfBinaryPolyMulti [(2, 1)] [(1, 1)]) poly3 =
        [([(3, 1)], [(0, 1), (1, 1), (3, 1)])]) ∧
    ∃ t, gfConstructExp2BinPoly 2 ⟨3, poly3, 2 ^ 3, []⟩ (List.replicate (2 ^ 3 - 1) []) =
        .ret t ∧
      (∀ e, e < 2 ^ 3 - 1 → ∀ x ∈ t.getD e [], x.1 < 3) ∧
      (∀ e, 3 ≤ e → e < 2 ^ 3 - 1 →
        ∀ ab ∈ gfBinaryPolyModAddCalls 2 3
            (gfBinaryPolyMulti (t.getD (e - 1) []) [(1, 1)]) poly3,
          KeysLe ab.1 3 ∧ KeysLe ab.2 3) ∧
      (∀ i j, i < 2 ^ 3 - 1 → j < 2 ^ 3 - 1 → i ≠ j →
        KeysLe (t.getD i []) 3 ∧ KeysLe (t.getD j []) 3) :=
  ⟨by decide, C16_adder_operands_in_range 2 3 [] poly3 (by decide) (by decide) (by decide)
    (by decide) (by decide)⟩

/-- Claim C17: canonical sparse form is preserved: every polynomial returned by
`gfBinaryPolyMulti` and by `gfBinaryPolyAdd` (which returns for every `m < math.MaxUint`), and
every entry of an exponent table built by `gfConstructExp2BinPoly` for any `m >= 1` and any
`priPoly`, has pairwise different keys and all stored coefficients equal to 1. -/
theorem C17_canonical_form_preserved :
    (∀ p1 p2 : GfPoly, (gfBinaryPolyMulti p1 p2).WF ∧ ∀ e ∈ gfBinaryPolyMulti p1 p2, e.2 = 1) ∧
    (∀ (m : Nat) (p1 p2 : GfPoly), m < maxUint → ∃ r, gfBinaryPolyAdd m p1 p2 = .ret r) ∧
    (∀ (m : Nat) (p1 p2 r : GfPoly), gfBinaryPolyAdd m p1 p2 = .ret r →
      r.WF ∧ ∀ e ∈ r, e.2 = 1) ∧
    (∀ (fuel : Nat) (gf : GaloisField) (n : Nat) (t : List GfPoly), 1 ≤ gf.m →
      uintSub gf.fieldSize 1 = n →
      gfConstructExp2BinPoly fuel gf (List.replicate n []) = .ret t →
      ∀ k, k < n → (t.getD k []).WF ∧ ∀ e ∈ t.getD k [], e.2 = 1) := by
  refine ⟨fun p1 p2 => gfBinaryPolyMulti_canonical p1 p2,
    fun m p1 p2 hm => ⟨_, gfBinaryPolyAdd_eq m p1 p2 hm⟩, ?_, ?_⟩
  · intro m p1 p2 r h
    unfold gfBinaryPolyAdd at h
    by_cases hm : m < maxUint
    · rw [if_pos hm] at h
      simp only [Exec.ret.injEq] at h
      rw [← h]
      exact addPoly_canonical m p1 p2
    · rw [if_neg hm] at h
      cases h
  · intro fuel gf n t h1 hn ht k hk
    exact expTable_canonical fuel gf n t hn h1 ht k hk

set_option maxRecDepth 100000 in
/-- Claim C17 at the exponent table of GF(2^3) with `1 + x + x^3` and at the sum `x + x^2`. -/
theorem C17_canonical_form_preserved_witness :
    (gfBinaryPolyAdd 3 [(1, 1)] [(2, 1)] = .ret [(1, 1), (2, 1)] ∧
      (GfPoly.WF [(1, 1), (2, 1)] ∧ ∀ e ∈ ([(1, 1), (2, 1)] : GfPoly), e.2 = 1)) ∧
    (gfConstructExp2BinPoly 2 field3 (List.replicate 7 []) =
        .ret [[(0, 1)], [(1, 1)], [(2, 1)], [(0, 1), (1, 1)], [(1, 1), (2, 1)],
          [(0, 1), (1, 1), (2, 1)], [(0, 1), (2, 1)]] ∧
      ∀ k, k < 7 →
        (([[(0, 1)], [(1, 1)], [(2, 1)], [(0, 1), (1, 1)], [(1, 1), (2, 1)],
          [(0, 1), (1, 1), (2, 1)], [(0, 1), (2, 1)]] : List GfPoly).getD k []).WF ∧
        ∀ e ∈ ([[(0, 1)], [(1, 1)], [(2, 1)], [(0, 1), (1, 1)], [(1, 1), (2, 1)],
          [(0, 1), (1, 1), (2, 1)], [(0, 1), (2, 1)]] : List GfPoly).getD k [], e.2 = 1) :=
  ⟨⟨by decide, C17_canonical_form_preserved.2.2.1 3 [(1, 1)] [(2, 1)] [(1, 1), (2, 1)]
      (by decide)⟩,
    ⟨by decide, C17_canonical_form_preserved.2.2.2 2 field3 7 _ (by decide) (by decide)
      (by decide)⟩⟩

/-- Claim C18, the run of the code: `intPow(2, 0)` returns 2 with no error although
`2^0 = 1` fits, and `intPow(2^32, 2)` returns 0 with no error although `2^64` does not fit:
the loop never runs for `exp = 0`, and nothing checks the first multiplication. -/
theorem C18_intPow_wrong_results :
    intPow 2 0 = (2, none) ∧ 2 ^ 0 = 1 ∧ 2 ^ 0 ≤ maxUint ∧
    intPow 4294967296 2 = (0, none) ∧ ¬ 4294967296 ^ 2 ≤ maxUint := by
  decide

/-- Claim C19: for every `m` with `1 <= m <= 63` and every polynomial, no slice access of the
construction is out of range: `m <= 2^m - 1`, on tables of `2^m - 1` entries the
exponent-table builder does not panic, on every table it returns the addition-table builder
and the lookup do not panic, and `GfConstructGaloisField` as a whole panics only when its first
allocation `make([][]int, fieldSize-1)` does (the length panic of `make` for `44 <= m`, raised
before any slice is indexed), never at an index. -/
theorem C19_no_index_out_of_range (fuel m : Nat) (gf : GaloisField) (priPoly : GfPoly)
    (h1 : 1 ≤ m) (h2 : m ≤ 63) :
    m ≤ 2 ^ m - 1 ∧
    gfConstructExp2BinPoly fuel
      ⟨m, priPoly, 2 ^ m, List.replicate (2 ^ m - 1) (List.replicate (2 ^ m - 1) 0)⟩
      (List.replicate (2 ^ m - 1) []) ≠ .panic ∧
    (∀ t, gfConstructExp2BinPoly fuel
        ⟨m, priPoly, 2 ^ m, List.replicate (2 ^ m - 1) (List.replicate (2 ^ m - 1) 0)⟩
        (List.replicate (2 ^ m - 1) []) = .ret t →
      gfConstructAddTable
        ⟨m, priPoly, 2 ^ m, List.replicate (2 ^ m - 1) (List.replicate (2 ^ m - 1) 0)⟩ t ≠
          .panic ∧
      ∀ poly, gfFindExpByPoly
        ⟨m, priPoly, 2 ^ m, List.replicate (2 ^ m - 1) (List.replicate (2 ^ m - 1) 0)⟩
        poly t ≠ .panic) ∧
    (GfConstructGaloisField fuel gf m priPoly = .panic ↔
      makeSlice 24 (uintSub (intPow 2 m).1 1) ([] : List Int) = .panic) ∧
    (m ≤ 43 → GfConstructGaloisField fuel gf m priPoly ≠ .panic) := by
  have hmlt : m < maxUint := by
    have : maxUint = 18446744073709551615 := rfl
    omega
  have hexp := expTable_ne_panic fuel
    ⟨m, priPoly, 2 ^ m, List.replicate (2 ^ m - 1) (List.replicate (2 ^ m - 1) 0)⟩
    (2 ^ m - 1) (uintSub_pow m) h1 (le_two_pow_sub_one m)
  have htab : ∀ t, gfConstructExp2BinPoly fuel
        ⟨m, priPoly, 2 ^ m, List.replicate (2 ^ m - 1) (List.replicate (2 ^ m - 1) 0)⟩
        (List.replicate (2 ^ m - 1) []) = .ret t →
      gfConstructAddTable
        ⟨m, priPoly, 2 ^ m, List.replicate (2 ^ m - 1) (List.replicate (2 ^ m - 1) 0)⟩ t ≠
          .panic ∧
      ∀ poly, gfFindExpByPoly
        ⟨m, priPoly, 2 ^ m, List.replicate (2 ^ m - 1) (List.replicate (2 ^ m - 1) 0)⟩
        poly t ≠ .panic := by
    intro t ht
    have htl := (expTable_shape fuel _ (2 ^ m - 1) t (uintSub_pow m) h1 ht).1
    refine ⟨gfConstructAddTable_ne_panic _ t (2 ^ m - 1) hmlt (uintSub_pow m)
      (pow_sub_one_le_maxInt m h2) htl (by simp) (by
        intro row hr
        rw [List.eq_of_mem_replicate hr]; simp), ?_⟩
    intro poly
    exact gfFindExpByPoly_ne_panic _ poly t (by rw [uintSub_pow]; exact htl) hmlt
  refine ⟨le_two_pow_sub_one m, hexp, htab,
    (construct_panic_iff fuel gf m priPoly h1 h2).1, ?_⟩
  intro h43
  rw [construct_eq fuel gf m priPoly h1 h43]
  exact Exec.bind_ne_panic _ _ hexp (fun t ht => (htab t ht).1)

/-- Claim C19 at `m = 3` with the polynomial of the README. -/
theorem C19_no_index_out_of_range_witness :
    (1 ≤ 3 ∧ 3 ≤ 63) ∧
    (3 ≤ 2 ^ 3 - 1 ∧
    gfConstructExp2BinPoly 3
      ⟨3, poly3, 2 ^ 3, List.replicate (2 ^ 3 - 1) (List.replicate (2 ^ 3 - 1) 0)⟩
      (List.replicate (2 ^ 3 - 1) []) ≠ .panic ∧
    (∀ t, gfConstructExp2BinPoly 3
        ⟨3, poly3, 2 ^ 3, List.replicate (2 ^ 3 - 1) (List.replicate (2 ^ 3 - 1) 0)⟩
        (List.replicate (2 ^ 3 - 1) []) = .ret t →
      gfConstructAddTable
        ⟨3, poly3, 2 ^ 3, List.replicate (2 ^ 3 - 1) (List.replicate (2 ^ 3 - 1) 0)⟩ t ≠
          .panic ∧
      ∀ poly, gfFindExpByPoly
        ⟨3, poly3, 2 ^ 3, List.replicate (2 ^ 3 - 1) (List.replicate (2 ^ 3 - 1) 0)⟩
        poly t ≠ .panic) ∧
    (GfConstructGaloisField 3 zeroField 3 poly3 = .panic ↔
      makeSlice 24 (uintSub (intPow 2 3).1 1) ([] : List Int) = .panic) ∧
    (3 ≤ 43 → GfConstructGaloisField 3 zeroField 3 poly3 ≠ .panic)) :=
  ⟨by decide, C19_no_index_out_of_range 3 3 zeroField poly3 (by decide) (by decide)⟩

/-- Claim C20: in a successfully constructed field, for all exponents `i != j` the cell
`k = addTable[i][j]` differs from both `i` and `j`, and adding back recovers the other operand:
`addTable[i][k] = j`. -/
theorem C20_adding_back_recovers_operand (fuel m : Nat) (gf gf1 : GaloisField)
    (priPoly : GfPoly) (h : GfConstructGaloisField fuel gf m priPoly = .ret (gf1, none)) :
    ∀ i j, i < gf1.fieldSize - 1 → j < gf1.fieldSize - 1 → i ≠ j →
      ∃ k : Nat, k < gf1.fieldSize - 1 ∧ GfAdditionOfTwoExponents gf1 i j = .ret (k : Int) ∧
        k ≠ i ∧ k ≠ j ∧ GfAdditionOfTwoExponents gf1 i k = .ret (j : Int) := by
  obtain ⟨_, _, _, _, e3, _, _, t, ht, _, _, hoff⟩ := construct_cells fuel gf m priPoly gf1 h
  obtain ⟨hinj, hne⟩ := construct_sig_facts fuel m gf gf1 priPoly t h ht
  intro i j hi hj hij
  rw [e3] at hi hj ⊢
  obtain ⟨k, hk, hcell, hsig, _⟩ := hoff i j hi hj hij
  have hki : k ≠ i := by
    intro heq
    rw [heq] at hsig
    apply hne j hj
    have h2 : symmDiff (sig m (t.getD i [])) (sig m (t.getD i [])) =
        symmDiff (sig m (t.getD i [])) (symmDiff (sig m (t.getD i [])) (sig m (t.getD j []))) :=
      by rw [← hsig]
    rw [symmDiff_self, ← symmDiff_assoc, symmDiff_self] at h2
    simpa using h2.symm
  have hkj : k ≠ j := by
    intro heq
    rw [heq] at hsig
    apply hne i hi
    have h2 : symmDiff (sig m (t.getD j [])) (sig m (t.getD j [])) =
        symmDiff (symmDiff (sig m (t.getD i [])) (sig m (t.getD j []))) (sig m (t.getD j [])) :=
      by rw [← hsig]
    rw [symmDiff_self, symmDiff_assoc, symmDiff_self] at h2
    simpa using h2.symm
  refine ⟨k, hk, hcell, hki, hkj, ?_⟩
  obtain ⟨k2, hk2, hcell2, hsig2, _⟩ := hoff i k hi hk (Ne.symm hki)
  rw [hsig, ← symmDiff_assoc, symmDiff_self, bot_symmDiff] at hsig2
  have hk2j : k2 = j := hinj k2 j hk2 hj hsig2
  rw [hcell2, hk2j]

set_option maxRecDepth 100000 in
/-- Claim C20 at the example of the README: GF(2^3) with `1 + x + x^3`. -/
theorem C20_adding_back_recovers_operand_witness :
    GfConstructGaloisField 3 zeroField 3 poly3 = .ret (field3, none) ∧
    ∀ i j, i < field3.fieldSize - 1 → j < field3.fieldSize - 1 → i ≠ j →
      ∃ k : Nat, k < field3.fieldSize - 1 ∧
        GfAdditionOfTwoExponents field3 i j = .ret (k : Int) ∧
        k ≠ i ∧ k ≠ j ∧ GfAdditionOfTwoExponents field3 i k = .ret (j : Int) :=
  ⟨by decide, C20_adding_back_recovers_operand 3 3 zeroField field3 poly3 (by decide)⟩

end GfGen
